import Mathlib

/-!
Verification of the maze-hackathon repository's generation and solving core
against its natural-language specification.

The JavaScript sources (gen_prim_maze.js, anti_bot_maze_gen.js, bot.js,
findOptimalStartEndPair.js) are shallowly embedded below.  Conventions of the
embedding, fixed once and used throughout:

* A grid is a list of rows of `Nat` cells, 1 = wall, 0 = passage, exactly as
  in the source.  Coordinates are `Int` pairs `(y, x)` because the source
  moves cursors by ±1/±2 before bounds checks, so intermediate coordinates
  can be negative.  `cellAt` returns 1 (wall) out of bounds; every read the
  source performs is bounds-guarded, so the default is never observed, and it
  makes "open cell" imply "in bounds".

* JavaScript `Math.random()` is embedded as a stream of rationals in `[0,1)`
  consumed head-first (`Rng`), with `Math.floor(Math.random()*n)` becoming
  `jsFloor (q * n)`.  The source's floating-point comparisons are embedded as
  exact rational/real comparisons; every comparison any theorem below relies
  on is far from a representability boundary of IEEE doubles.

* JavaScript `Set`/`Map` keys are the strings "y,x".  The source sometimes
  writes `new Set(str)` (no brackets), which seeds the set with the distinct
  CHARACTERS of the string rather than the string itself; this real quirk is
  kept.  Keys are embedded as the inductive `JSKey`: `JSKey.cell y x` stands
  for the full string "y,x" and `JSKey.char c` for a one-character string.
  This is faithful because decimal renderings of distinct integer pairs
  are distinct strings ("y,x" with canonical integer rendering is injective),
  and a one-character string never equals a full key (a full key holds at
  least a digit, a comma and a digit, so has length at least 3).

* `Math.sqrt` comparisons are embedded by comparing squares (exact real
  semantics): `sqrt a < sqrt b ↔ a < b` for nonneg arguments, and the mixed
  comparison `1000*p1 + sqrt a1 > 1000*p2 + sqrt a2` is decided exactly by
  the sign-aware squaring procedure `scoreGt` below.
-/

namespace Maze

abbrev Cell := Int × Int

abbrev Grid := List (List Nat)

/-- Read `grid[y][x]`; out of bounds reads as wall (1).  The source performs
only bounds-guarded reads, so the default is never observed. -/
def cellAt (g : Grid) (y x : Int) : Nat :=
  if 0 ≤ y ∧ 0 ≤ x then ((g.getD y.toNat []).getD x.toNat 1) else 1

/-- Write `grid[y][x] = v`; out of bounds writes are dropped (`List.set` is
the identity past the end, and negative coordinates are guarded). -/
def setCell (g : Grid) (y x : Int) (v : Nat) : Grid :=
  if 0 ≤ y ∧ 0 ≤ x then g.set y.toNat ((g.getD y.toNat []).set x.toNat v) else g

/-- Height as the source reads it: `grid.length`. -/
def gridH (g : Grid) : Int := (g.length : Int)

/-- Width as the source reads it: `grid[0].length`. -/
def gridW (g : Grid) : Int := ((g.headD []).length : Int)

/-- The integers `lo, lo+1, …, hi-1` (a `for (let i = lo; i < hi; i++)` loop
range). -/
def intRange (lo hi : Int) : List Int :=
  (List.range (hi - lo).toNat).map (fun i : Nat => lo + (i : Int))

/-- All in-bounds cells of an `height × width` box, in row-major order. -/
def allCells (height width : Int) : List Cell :=
  (intRange 0 height).flatMap (fun y => (intRange 0 width).map (fun x => (y, x)))

/-- A JavaScript Set/Map key: the string "y,x" for a cell, or a single
character (as seeded by the `new Set(string)` quirk).  See the header
comment for why this is a faithful model of the string keys. -/
inductive JSKey where
  | cell (y x : Int)
  | char (c : Char)
deriving DecidableEq, Repr

/-- The distinct characters of the string "y,x", in some order — what
`new Set(`${y},${x}`)` actually contains.  Only the SIZE (and disjointness
from full keys) of this set is ever relevant; `List.dedup` gives the right
size. -/
def strKeys (y x : Int) : List JSKey :=
  ((toString y ++ "," ++ toString x).toList.map JSKey.char).dedup

/-- The four BFS directions in the source's order: up, down, left, right. -/
def dirs4 : List Cell := [(-1, 0), (1, 0), (0, -1), (0, 1)]

/-- A stream of `Math.random()` results, consumed head-first; an exhausted
stream yields 0 (used only by concrete runs, which supply enough values). -/
abbrev Rng := List ℚ

/-- Draw the next random value. -/
def rngNext (r : Rng) : ℚ × Rng := (r.headD 0, r.tail)

/-- Every value of the stream is in `[0,1)`, as `Math.random()` guarantees. -/
def RngOk (r : Rng) : Prop := ∀ q ∈ r, 0 ≤ q ∧ q < 1

/-- The rational literal `n / d`.  All rational arithmetic below is written
with `Rat.divInt` on numerators and denominators rather than with the `Field ℚ`
instances: the two agree (theorems `qmul_eq`, `qdiv_eq`, `qadd_eq`, `qsub_eq`,
`qofInt_eq` below), but only the `Rat.divInt` form evaluates by kernel
reduction, which the concrete runs need. -/
def qlit (n d : Int) : ℚ := Rat.divInt n d

/-- An integer as a rational. -/
def qofInt (z : Int) : ℚ := Rat.divInt z 1

/-- Rational multiplication (equals `a * b`, see `qmul_eq`). -/
def qmul (a b : ℚ) : ℚ := Rat.divInt (a.num * b.num) ((a.den : Int) * (b.den : Int))

/-- Rational division (equals `a / b`, see `qdiv_eq`). -/
def qdiv (a b : ℚ) : ℚ := Rat.divInt (a.num * (b.den : Int)) ((a.den : Int) * b.num)

/-- Rational addition (equals `a + b`, see `qadd_eq`). -/
def qadd (a b : ℚ) : ℚ :=
  Rat.divInt (a.num * (b.den : Int) + b.num * (a.den : Int)) ((a.den : Int) * (b.den : Int))

/-- Rational subtraction (equals `a - b`, see `qsub_eq`). -/
def qsub (a b : ℚ) : ℚ :=
  Rat.divInt (a.num * (b.den : Int) - b.num * (a.den : Int)) ((a.den : Int) * (b.den : Int))

/-- `Math.min` on two rationals. -/
def qmin (a b : ℚ) : ℚ := if a ≤ b then a else b

/-- `Math.max` on two rationals. -/
def qmax (a b : ℚ) : ℚ := if a ≤ b then b else a

/-- `Math.floor` on a rational, as an integer. -/
def jsFloor (q : ℚ) : Int := ⌊q⌋

/-- `Math.floor(Math.random() * n)`: the draw and the floor together. -/
def randIdx (r : Rng) (n : Int) : Int × Rng :=
  let (q, r') := rngNext r
  (jsFloor (qmul q (qofInt n)), r')

/-- `Math.sign`. -/
def jsSign (z : Int) : Int := if z > 0 then 1 else if z < 0 then -1 else 0

/-- `Math.abs`. -/
def jsAbs (z : Int) : Int := z.natAbs

end Maze

namespace Maze

/-! ## Spec-side reachability and path predicates

These state, independently of any BFS implementation, what "a path of
orthogonal moves through non-wall cells" means. -/

/-- Orthogonal adjacency of two cells. -/
def adjB (c d : Cell) : Bool := jsAbs (c.1 - d.1) + jsAbs (c.2 - d.2) == 1

/-- One step of movement: into an adjacent open cell (the step's source need
not be open, matching a BFS seeded at an arbitrary reference cell). -/
def stepRel (g : Grid) (c d : Cell) : Prop :=
  adjB c d = true ∧ cellAt g d.1 d.2 = 0

/-- Reachability from a reference cell `s` exactly as a 4-directional BFS
over passage cells sees it: `s` itself, plus everything connected to an open
neighbor of `s` through open cells.  (When `s` is itself open this is plain
open-cell connectivity.) -/
def SeededReach (g : Grid) (s c : Cell) : Prop :=
  Relation.ReflTransGen (stepRel g) s c

/-- The list `p` is a walk through open cells: consecutive cells are
orthogonally adjacent and every cell of `p` is open (hence in bounds, since
out-of-bounds cells read as walls). -/
def IsOpenChain (g : Grid) (p : List Cell) : Prop :=
  List.Chain' (fun c d => adjB c d = true) p ∧ ∀ c ∈ p, cellAt g c.1 c.2 = 0

/-- Boolean decider for the adjacency chain (Mathlib's `Chain'` instance is
tactic-built and does not kernel-reduce). -/
def adjChainB : List Cell → Bool
  | [] => true
  | [_] => true
  | c :: d :: rest => adjB c d && adjChainB (d :: rest)

/-- `adjChainB` decides `List.Chain' adjB`. -/
def adjChainB_iff : ∀ p : List Cell,
    adjChainB p = true ↔ List.Chain' (fun c d => adjB c d = true) p
  | [] => by simp [adjChainB]
  | [c] => by simp [adjChainB]
  | c :: d :: rest => by
    rw [adjChainB, Bool.and_eq_true, List.chain'_cons, adjChainB_iff (d :: rest)]

instance (g : Grid) (p : List Cell) : Decidable (IsOpenChain g p) :=
  decidable_of_iff (adjChainB p = true ∧ ∀ c ∈ p, cellAt g c.1 c.2 = 0)
    (and_congr_left' (adjChainB_iff p))

/-- A walk from `a` to `b` through open cells (repeats allowed). -/
def IsWalkBetween (g : Grid) (p : List Cell) (a b : Cell) : Prop :=
  p.head? = some a ∧ p.getLast? = some b ∧ IsOpenChain g p

instance (g : Grid) (p : List Cell) (a b : Cell) : Decidable (IsWalkBetween g p a b) :=
  inferInstanceAs (Decidable (p.head? = some a ∧ p.getLast? = some b ∧ IsOpenChain g p))

/-- A simple path from `a` to `b`: a walk without repeated cells. -/
def IsPathBetween (g : Grid) (p : List Cell) (a b : Cell) : Prop :=
  IsWalkBetween g p a b ∧ p.Nodup

instance (g : Grid) (p : List Cell) (a b : Cell) : Decidable (IsPathBetween g p a b) :=
  inferInstanceAs (Decidable (IsWalkBetween g p a b ∧ p.Nodup))

/-- Open-cell connectivity: some walk through open cells joins `a` to `b`. -/
def OpenConn (g : Grid) (a b : Cell) : Prop := ∃ p, IsWalkBetween g p a b

/-- Exactly one simple path joins any two passage cells (the "perfect maze"
post-condition of the spec). -/
def UniquePathProp (g : Grid) : Prop :=
  ∀ a b : Cell, cellAt g a.1 a.2 = 0 → cellAt g b.1 b.2 = 0 →
    ∃! p, IsPathBetween g p a b

/-- The four neighbours of a cell. -/
def nbrsOf (c : Cell) : List Cell := dirs4.map (fun d => (c.1 + d.1, c.2 + d.2))

/-! ## The shared JavaScript BFS loop

Every BFS in the repository is the same loop: pop `[y, x, dist]` from the
front of a queue, optionally stop at a goal cell, and push each in-bounds
open unvisited neighbour (in the order up, down, left, right), marking it
visited as it is pushed.  `bfsCore` embeds that loop once; the wrappers
below instantiate it.  `extraOk` is the extra membership filter the
isolated-region flood of `ensureFullConnectivity` adds; all other callers
pass the constant `true`.  The list `pops` records each popped `(cell,
dist)` in order: the callers that build a distance map or an accessible set
at pop time read it back. -/

/-- How many in-bounds cells have no key in `visited` yet (termination
measure fuel for `bfsCore`). -/
def missingCount (height width : Int) (visited : List JSKey) : Nat :=
  ((allCells height width).filter (fun c => JSKey.cell c.1 c.2 ∉ visited)).length

/-- Membership in `intRange` is the bounds pair. -/
def mem_intRange {a lo hi : Int} : a ∈ intRange lo hi ↔ lo ≤ a ∧ a < hi := by
  constructor
  · intro h
    obtain ⟨i, h1, h2⟩ := List.mem_map.1 h
    have h3 := List.mem_range.1 h1
    omega
  · intro h
    exact List.mem_map.2 ⟨(a - lo).toNat, List.mem_range.2 (by omega), by omega⟩

/-- Membership in `allCells` is the bounds conjunction. -/
def mem_allCells {c : Cell} {h w : Int} :
    c ∈ allCells h w ↔ 0 ≤ c.1 ∧ c.1 < h ∧ 0 ≤ c.2 ∧ c.2 < w := by
  obtain ⟨y, x⟩ := c
  simp only [allCells, List.mem_flatMap, List.mem_map]
  constructor
  · rintro ⟨y', hy, x', hx, h⟩
    obtain ⟨rfl, rfl⟩ := Prod.mk.injEq .. ▸ h
    have := mem_intRange.1 hy
    have := mem_intRange.1 hx
    omega
  · rintro ⟨h1, h2, h3, h4⟩
    exact ⟨y, mem_intRange.2 ⟨h1, h2⟩, x, mem_intRange.2 ⟨h3, h4⟩, rfl⟩

/-- Filtering away a present element that fails the predicate shortens the
list. -/
def length_filter_lt_of_mem {α : Type} {k : α} {m : List α} {p : α → Bool}
    (hk : k ∈ m) (hp : p k = false) : (m.filter p).length < m.length := by
  induction m with
  | nil => cases hk
  | cons a l ih =>
    rcases List.mem_cons.1 hk with rfl | hmem
    · rw [List.filter_cons, hp]
      simpa using Nat.lt_succ_of_le (List.length_filter_le p l)
    · rw [List.filter_cons]
      rcases h : p a with _ | _
      · simpa using Nat.lt_succ_of_lt (ih hmem)
      · simpa using Nat.succ_lt_succ (ih hmem)

/-- Generic counting step behind `missingCount_lt`. -/
def length_filter_notmem_lt {v : List JSKey} {ny nx : Int} :
    ∀ {l : List Cell}, (ny, nx) ∈ l → JSKey.cell ny nx ∉ v →
    (l.filter (fun c => decide (JSKey.cell c.1 c.2 ∉ v ++ [JSKey.cell ny nx]))).length <
    (l.filter (fun c => decide (JSKey.cell c.1 c.2 ∉ v))).length := by
  have hmono : ∀ c : Cell, (decide (JSKey.cell c.1 c.2 ∉ v ++ [JSKey.cell ny nx])) = true →
      (decide (JSKey.cell c.1 c.2 ∉ v)) = true := by
    intro c hc
    simp only [decide_eq_true_eq, List.mem_append] at hc ⊢
    exact fun hin => hc (Or.inl hin)
  have hle : ∀ u : List Cell,
      (u.filter (fun c => decide (JSKey.cell c.1 c.2 ∉ v ++ [JSKey.cell ny nx]))).length ≤
      (u.filter (fun c => decide (JSKey.cell c.1 c.2 ∉ v))).length := by
    intro u
    exact (List.monotone_filter_right u (fun c hc => hmono c hc)).length_le
  intro l
  induction l with
  | nil => intro hk; cases hk
  | cons a t ih =>
    intro hk hv
    rcases List.mem_cons.1 hk with rfl | hmem
    · rw [List.filter_cons, List.filter_cons]
      have h1 : (decide (JSKey.cell ny nx ∉ v ++ [JSKey.cell ny nx])) = false := by simp
      have h2 : (decide (JSKey.cell ny nx ∉ v)) = true := by simpa using hv
      rw [h1, h2]
      simpa using Nat.lt_succ_of_le (hle t)
    · rw [List.filter_cons, List.filter_cons]
      have hlt := ih hmem hv
      rcases hy : (decide (JSKey.cell a.1 a.2 ∉ v ++ [JSKey.cell ny nx])) with _ | _
      · rcases hz : (decide (JSKey.cell a.1 a.2 ∉ v)) with _ | _
        · simpa using hlt
        · simpa using Nat.lt_succ_of_lt hlt
      · rw [hmono a hy]
        simpa using Nat.succ_lt_succ hlt

def missingCount_lt {h w : Int} {v : List JSKey} {ny nx : Int}
    (hb : 0 ≤ ny ∧ ny < h ∧ 0 ≤ nx ∧ nx < w) (hv : JSKey.cell ny nx ∉ v) :
    missingCount h w (v ++ [JSKey.cell ny nx]) < missingCount h w v :=
  length_filter_notmem_lt (mem_allCells.2 hb) hv

/-- The neighbour-push inner loop of the BFS: try each direction in order,
and push (appending to `visited` and to the accumulator) each in-bounds open
unvisited neighbour that passes the extra filter. -/
def pushLoop (g : Grid) (height width : Int) (extraOk : Cell → Bool) (y x : Int)
    (dist : Nat) :
    List Cell → List JSKey → List (Cell × Nat) → List JSKey × List (Cell × Nat)
  | [], visited, acc => (visited, acc)
  | d :: ds, visited, acc =>
    let ny := y + d.1
    let nx := x + d.2
    if 0 ≤ ny ∧ ny < height ∧ 0 ≤ nx ∧ nx < width ∧ cellAt g ny nx = 0 ∧
        extraOk (ny, nx) = true ∧ JSKey.cell ny nx ∉ visited then
      pushLoop g height width extraOk y x dist ds (visited ++ [JSKey.cell ny nx])
        (acc ++ [((ny, nx), dist + 1)])
    else pushLoop g height width extraOk y x dist ds visited acc

/-- Each push trades one missing cell for one queued cell, so the combined
measure never grows across the push loop. -/
def pushLoop_measure (g : Grid) (height width : Int) (extraOk : Cell → Bool)
    (y x : Int) (dist : Nat) :
    ∀ (ds : List Cell) (v : List JSKey) (acc : List (Cell × Nat)),
      2 * missingCount height width (pushLoop g height width extraOk y x dist ds v acc).1 +
        (pushLoop g height width extraOk y x dist ds v acc).2.length ≤
      2 * missingCount height width v + acc.length := by
  intro ds
  induction ds with
  | nil => intro v acc; simp [pushLoop]
  | cons d ds ih =>
    intro v acc
    rw [pushLoop]
    split
    · next hcond =>
      refine le_trans (ih _ _) ?_
      have := missingCount_lt (h := height) (w := width)
        ⟨hcond.1, hcond.2.1, hcond.2.2.1, hcond.2.2.2.1⟩ hcond.2.2.2.2.2.2
      simp only [List.length_append, List.length_singleton]
      omega
    · exact ih v acc

/-- The BFS loop itself (structurally recursive on a fuel argument, so
that it computes by kernel reduction).  Returns the final visited set, the
list of popped `(cell, dist)` pairs in pop order, and whether the stop
predicate fired.  Each iteration strictly decreases
`2 * missingCount + queue.length` (see `pushLoop_measure`), so seeding the
fuel with that measure — as `bfsRun` does — means the fuel-out branch is
never taken and the loop runs until the queue empties or the stop fires,
exactly as the JavaScript `while` loop does. -/
def bfsCore (g : Grid) (height width : Int) (stop : Cell → Bool) (extraOk : Cell → Bool) :
    Nat → List (Cell × Nat) → List JSKey → List (Cell × Nat) →
    List JSKey × List (Cell × Nat) × Bool
  | _, [], visited, pops => (visited, pops, false)
  | 0, _ :: _, visited, pops => (visited, pops, false)
  | fuel + 1, (c, d) :: rest, visited, pops =>
    if stop c then (visited, pops ++ [(c, d)], true)
    else
      let pushed := pushLoop g height width extraOk c.1 c.2 d dirs4 visited []
      bfsCore g height width stop extraOk fuel (rest ++ pushed.2) pushed.1
        (pops ++ [(c, d)])

/-- The BFS loop seeded with exactly enough fuel (its own termination
measure), from an empty pop list. -/
def bfsRun (g : Grid) (height width : Int) (stop : Cell → Bool) (extraOk : Cell → Bool)
    (queue : List (Cell × Nat)) (visited : List JSKey) :
    List JSKey × List (Cell × Nat) × Bool :=
  bfsCore g height width stop extraOk
    (2 * missingCount height width visited + queue.length) queue visited []

end Maze

namespace Maze

/-! ## findOptimalStartEndPair (findOptimalStartEndPair.js, and the identical
copy in gen_prim_maze.js)

The start/end placement optimizer.  `Math.sqrt`-based score comparisons are
decided exactly by `scoreGt` (see the header comment); the last-resort
tier's `physicalDist > bestRandomDist` comparison is done on squares, which
is equivalent since both sides are square roots of naturals. -/

/-- Squared Euclidean distance between two cells (the argument of the
source's `Math.sqrt`). -/
def sqDist (c d : Cell) : Nat := ((c.1 - d.1) ^ 2 + (c.2 - d.2) ^ 2).toNat

/-- Decide `1000*p1 + sqrt a1 > 1000*p2 + sqrt a2` exactly, by sign-aware
squaring.  Writing `d := 1000*(p2 - p1)`, the comparison is
`sqrt a1 > sqrt a2 + d`; for `d ≥ 0` square once (`L := a1 - a2 - d^2` must
be positive with `L^2 > 4*d^2*a2`), for `d < 0` move `d` across and square
(`M := a2 - a1 - d^2` negative, or `M^2 < 4*d^2*a1`). -/
def scoreGt (p1 a1 p2 a2 : Nat) : Bool :=
  let d : Int := 1000 * ((p2 : Int) - (p1 : Int))
  if 0 ≤ d then
    let L : Int := (a1 : Int) - (a2 : Int) - d ^ 2
    if L ≤ 0 then false else L ^ 2 > 4 * d ^ 2 * (a2 : Int)
  else
    let M : Int := (a2 : Int) - (a1 : Int) - d ^ 2
    if M < 0 then true else M ^ 2 < 4 * d ^ 2 * (a1 : Int)

/-- `distances.get(key) || 0`: the last value `distances.set` wrote for this
cell during the BFS (sets at pop time, later sets overwrite), or 0. -/
def distGet (pops : List (Cell × Nat)) (c : Cell) : Nat :=
  (((pops.reverse.find? (fun p => p.1 = c)).map Prod.snd).getD 0)

/-- The inner helper `findFurthestCell(startCell)`: BFS from the start cell
(visited seeded with the CHARACTERS of the key string — the
`new Set(string)` quirk, so the start itself is unmarked and its distance
is overwritten when it is re-discovered), then scan `openCells` for the
best `pathDist*1000 + diagDist` score.  Returns (cell, distance). -/
def findFurthestCell (g : Grid) (height width : Int) (openCells : List Cell)
    (sc : Cell) : Option Cell × Nat :=
  let run := bfsRun g height width (fun _ => false) (fun _ => true)
    [(sc, 0)] (strKeys sc.1 sc.2)
  let pops := run.2.1
  let best := openCells.foldl
    (fun (acc : Nat × Nat × Option Cell) c =>
      let pathDist := distGet pops c
      if pathDist = 0 then acc
      else
        let a := sqDist c sc
        if scoreGt pathDist a acc.1 acc.2.1 then (pathDist, a, some c) else acc)
    (0, 0, none)
  match best.2.2 with
  | some c => (some c, distGet pops c)
  | none => (none, 0)

/-- A candidate rectangle of the strategic-point search. -/
structure Region where
  minY : Int
  maxY : Int
  minX : Int
  maxX : Int

/-- The four extreme corner regions. -/
def cornerRegions (height width : Int) : List Region :=
  [⟨1, min 10 (jsFloor (qmul (qofInt height) (qlit 10 100))), 1,
      min 10 (jsFloor (qmul (qofInt width) (qlit 10 100)))⟩,
   ⟨1, min 10 (jsFloor (qmul (qofInt height) (qlit 10 100))),
      max (width - 11) (width - jsFloor (qmul (qofInt width) (qlit 10 100)) - 1), width - 2⟩,
   ⟨max (height - 11) (height - jsFloor (qmul (qofInt height) (qlit 10 100)) - 1), height - 2, 1,
      min 10 (jsFloor (qmul (qofInt width) (qlit 10 100)))⟩,
   ⟨max (height - 11) (height - jsFloor (qmul (qofInt height) (qlit 10 100)) - 1), height - 2,
      max (width - 11) (width - jsFloor (qmul (qofInt width) (qlit 10 100)) - 1), width - 2⟩]

/-- The four mid-edge regions. -/
def edgeRegions (height width : Int) : List Region :=
  [⟨1, min 10 (jsFloor (qmul (qofInt height) (qlit 10 100))),
      jsFloor (qmul (qofInt width) (qlit 45 100)), jsFloor (qmul (qofInt width) (qlit 55 100))⟩,
   ⟨max (height - 11) (height - jsFloor (qmul (qofInt height) (qlit 10 100)) - 1), height - 2,
      jsFloor (qmul (qofInt width) (qlit 45 100)), jsFloor (qmul (qofInt width) (qlit 55 100))⟩,
   ⟨jsFloor (qmul (qofInt height) (qlit 45 100)), jsFloor (qmul (qofInt height) (qlit 55 100)), 1,
      min 10 (jsFloor (qmul (qofInt width) (qlit 10 100)))⟩,
   ⟨jsFloor (qmul (qofInt height) (qlit 45 100)), jsFloor (qmul (qofInt height) (qlit 55 100)),
      max (width - 11) (width - jsFloor (qmul (qofInt width) (qlit 10 100)) - 1), width - 2⟩]

/-- The open cells found inside a region (`y < height && x < width &&
grid[y][x] === 0`, both loop bounds inclusive). -/
def regionOpenCells (g : Grid) (height width : Int) (r : Region) : List Cell :=
  (intRange r.minY (r.maxY + 1)).flatMap (fun y =>
    (intRange r.minX (r.maxX + 1)).filterMap (fun x =>
      if y < height ∧ x < width ∧ cellAt g y x = 0 then some (y, x) else none))

/-- The `for (let i = 0; i < Math.min(5, regionCells.length); i++)` picker:
the bound is re-read each iteration while `splice` shrinks the list.  Picks
a random cell, removes it, repeats.  The fuel (called with 5) keeps the
recursion structural: the guard needs `i < 5` and `fuel + i = 5` along the
run, so the fuel-out branch coincides with the guard failing. -/
def pickRegionPoints : Nat → Nat → List Cell → Rng → List Cell × Rng
  | 0, _, _, rng => ([], rng)
  | fuel + 1, i, cells, rng =>
    if i < min 5 cells.length then
      let (idx, rng') := randIdx rng (cells.length : Int)
      let chosen := cells.getD idx.toNat (0, 0)
      let rest := cells.eraseIdx idx.toNat
      let (more, rng'') := pickRegionPoints fuel (i + 1) rest rng'
      (chosen :: more, rng'')
    else ([], rng)

/-- The strategic points contributed by the corner and edge regions, in
region order. -/
def strategicFromRegions (g : Grid) (height width : Int) (rng : Rng) :
    List Cell × Rng :=
  (cornerRegions height width ++ edgeRegions height width).foldl
    (fun (acc : List Cell × Rng) r =>
      let cells := regionOpenCells g height width r
      if cells.length > 0 then
        let (pts, rng') := pickRegionPoints 5 0 cells acc.2
        (acc.1 ++ pts, rng')
      else acc)
    ([], rng)

/-- The 10 extra random strategic points, drawn without replacement from a
copy of `openCells`; returns the picked points and what is left of the copy
(the later fallback keeps drawing from it).  Fuel as in
`pickRegionPoints`, called with 10. -/
def pickRandomPoints : Nat → Nat → List Cell → Rng → List Cell × List Cell × Rng
  | 0, _, copy, rng => ([], copy, rng)
  | fuel + 1, i, copy, rng =>
    if i < 10 ∧ copy.length > 0 then
      let (idx, rng') := randIdx rng (copy.length : Int)
      let chosen := copy.getD idx.toNat (0, 0)
      let rest := copy.eraseIdx idx.toNat
      let (more, rest', rng'') := pickRandomPoints fuel (i + 1) rest rng'
      (chosen :: more, rest', rng'')
    else ([], copy, rng)

/-- The expansion tier's extra points: `i < Math.min(50, openCells.length/4)`
(the bound is a FLOAT, there is no rounding), breaking when the copy is
exhausted.  Fuel as in `pickRegionPoints`, called with 50. -/
def pickAdditional : Nat → Nat → List Cell → Rng → Nat → List Cell × List Cell × Rng
  | 0, _, copy, rng, _ => ([], copy, rng)
  | fuel + 1, i, copy, rng, total =>
    if qofInt i < qmin (qofInt 50) (qdiv (qofInt total) (qofInt 4)) then
      match copy with
      | [] => ([], copy, rng)
      | _ :: _ =>
        let (idx, rng') := randIdx rng (copy.length : Int)
        let chosen := copy.getD idx.toNat (0, 0)
        let rest := copy.eraseIdx idx.toNat
        let (more, rest', rng'') := pickAdditional fuel (i + 1) rest rng' total
        (chosen :: more, rest', rng'')
    else ([], copy, rng)

/-- The scan over candidate start points shared by the primary tier and the
expansion tier: keep the `(start, furthest, distance)` triple of largest
distance among those meeting the minimum; `none` plays JS's
`bestStart = null` with `maxPathLength = 0`. -/
def bestFold (g : Grid) (height width : Int) (openCells : List Cell)
    (minReq : Int) (pts : List Cell) (init : Option (Cell × Cell × Nat)) :
    Option (Cell × Cell × Nat) :=
  pts.foldl
    (fun acc sp =>
      let r := findFurthestCell g height width openCells sp
      let maxLen : Nat := match acc with | some t => t.2.2 | none => 0
      match r.1 with
      | some c =>
        if (r.2 : Int) ≥ minReq then
          (if r.2 > maxLen then some (sp, c, r.2) else acc)
        else acc
      | none => acc)
    init

/-- The fallback tier's scan: same, but ignoring the minimum distance
(`result.distance > fallbackMaxLength && result.cell`). -/
def fallbackFold (g : Grid) (height width : Int) (openCells : List Cell)
    (pts : List Cell) : Option (Cell × Cell × Nat) :=
  pts.foldl
    (fun acc sp =>
      let r := findFurthestCell g height width openCells sp
      let maxLen : Nat := match acc with | some t => t.2.2 | none => 0
      match r.1 with
      | some c => if r.2 > maxLen then some (sp, c, r.2) else acc
      | none => acc)
    none

/-- The last-resort tier's 20 attempts at a physically distant random index
pair; `bestDistSq` carries the square of JS's `bestRandomDist`. -/
def lastResortLoop (openCells : List Cell) (st : (Int × Int) × Nat × Rng) :
    Nat → (Int × Int) × Nat × Rng
  | 0 => st
  | n + 1 =>
    let (idx1, r1) := randIdx st.2.2 (openCells.length : Int)
    let (idx2, r2) := randIdx r1 (openCells.length : Int)
    let st' :=
      if idx1 ≠ idx2 then
        let c1 := openCells.getD idx1.toNat (0, 0)
        let c2 := openCells.getD idx2.toNat (0, 0)
        let dSq := sqDist c1 c2
        if dSq > st.2.1 then ((idx1, idx2), dSq, r2) else (st.1, st.2.1, r2)
      else (st.1, st.2.1, r2)
    lastResortLoop openCells st' n

/-- The interior open cells, in the scan order of the source (`y` from 1 to
`height-2`, `x` from 1 to `width-2`). -/
def interiorOpenCells (g : Grid) (height width : Int) : List Cell :=
  (intRange 1 (height - 1)).flatMap (fun y =>
    (intRange 1 (width - 1)).filterMap (fun x =>
      if cellAt g y x = 0 then some (y, x) else none))

/-- `findOptimalStartEndPair(grid, height, width)`, returning the chosen
(start, end) pair and the rest of the random stream. -/
def findOptimalStartEndPair (g : Grid) (height width : Int) (rng : Rng) :
    (Cell × Cell) × Rng :=
  let openCells := interiorOpenCells g height width
  if openCells.length < 2 then (((1, 1), (height - 2, width - 2)), rng)
  else
    let (strat1, rng1) := strategicFromRegions g height width rng
    let (randPts, copy1, rng2) := pickRandomPoints 10 0 openCells rng1
    let strategicPoints := strat1 ++ randPts
    let minReq := max (jsFloor (qdiv (qofInt height) (qofInt 2))) (jsFloor (qdiv (qofInt width) (qofInt 2)))
    match bestFold g height width openCells minReq strategicPoints none with
    | some (s, e, _) => ((s, e), rng2)
    | none =>
      let (additional, _, rng3) := pickAdditional 50 0 copy1 rng2 openCells.length
      match bestFold g height width openCells minReq additional none with
      | some (s, e, _) => ((s, e), rng3)
      | none =>
        match fallbackFold g height width openCells (strategicPoints ++ additional) with
        | some (s, e, _) => ((s, e), rng3)
        | none =>
          let (i1, rngA) := randIdx rng3 (openCells.length : Int)
          let (i2, rngB) := randIdx rngA (openCells.length : Int)
          let best := lastResortLoop openCells ((i1, i2), 0, rngB) 20
          ((openCells.getD best.1.1.toNat (0, 0), openCells.getD best.1.2.toNat (0, 0)),
            best.2.2)

end Maze

namespace Maze

/-! ## verifyFullConnectivity, ensureFullConnectivity and pathExists
(gen_prim_maze.js) -/

/-- JS `Set.add`: append the key unless it is present. -/
def jsAdd (l : List JSKey) (k : JSKey) : List JSKey :=
  if k ∈ l then l else l ++ [k]

/-- Parse the coordinates back out of a key (`key.split(',').map(Number)`).
Only ever applied to cell keys: the sets the source iterates this way are
the correctly-seeded ones, which hold full "y,x" keys only. -/
def keyCell : JSKey → Cell
  | .cell y x => (y, x)
  | .char _ => (0, 0)

/-- What `verify(grid, reference)` reports. -/
structure VerifyInfo where
  connectivityStatus : String
  totalOpenCells : Nat
  reachableCells : Nat
  unreachableCells : Nat
  unreachableCellList : List Cell
deriving Repr, DecidableEq

/-- `verifyFullConnectivity(grid, start)`: count open cells, BFS from
`start` (visited seeded with the key string's CHARACTERS — the
`new Set(string)` quirk), report `visited.size` as the reachable count and
the open cells whose key is absent as unreachable. -/
def verifyFullConnectivity (g : Grid) (s : Cell) : VerifyInfo :=
  let height := gridH g
  let width := gridW g
  let totalOpen := ((allCells height width).filter
    (fun c => cellAt g c.1 c.2 = 0)).length
  let run := bfsRun g height width (fun _ => false) (fun _ => true)
    [(s, 0)] (strKeys s.1 s.2)
  let unreachable := (allCells height width).filter
    (fun c => cellAt g c.1 c.2 = 0 ∧ JSKey.cell c.1 c.2 ∉ run.1)
  { connectivityStatus :=
      if unreachable.length = 0 then "FULLY CONNECTED" else "DISCONNECTED"
    totalOpenCells := totalOpen
    reachableCells := run.1.length
    unreachableCells := unreachable.length
    unreachableCellList := unreachable }

/-- Find, over one isolated region and the current reachable set, the pair
at minimal Manhattan distance (strict `<`, so the earliest minimal pair in
iteration order wins; `none` plays `minDistance = Infinity`). -/
def closestPair (region : List Cell) (reach : List JSKey) : Option (Cell × Cell) :=
  (region.foldl
    (fun (st : Option (Int × Cell × Cell)) u =>
      reach.foldl
        (fun st2 k =>
          let r := keyCell k
          let dist := jsAbs (u.1 - r.1) + jsAbs (u.2 - r.2)
          match st2 with
          | none => some (dist, u, r)
          | some t => if dist < t.1 then some (dist, u, r) else st2)
        st)
    none).map (fun t => t.2)

/-- The corridor carver of the region-connection step: while not at the
target, step one cell along the axis with the larger remaining distance
(ties go to x), carve it, and add it to the reachable set. -/
def carveTowardGo (t : Cell) : Nat → Grid → List JSKey → Cell → Grid × List JSKey
  | 0, g, reach, _ => (g, reach)
  | fuel + 1, g, reach, c =>
    if c = t then (g, reach)
    else
      let c' :=
        if jsAbs (c.1 - t.1) > jsAbs (c.2 - t.2) then (c.1 + jsSign (t.1 - c.1), c.2)
        else (c.1, c.2 + jsSign (t.2 - c.2))
      carveTowardGo t fuel (setCell g c'.1 c'.2 0)
        (jsAdd reach (JSKey.cell c'.1 c'.2)) c'

/-- The structural fuel is exactly the Manhattan distance, which every
iteration decreases by exactly one (the chosen axis always has a nonzero
remaining difference), so fuel 0 means the target is reached and the
fuel-out value agrees with the loop exit. -/
def carveToward (g : Grid) (reach : List JSKey) (c t : Cell) : Grid × List JSKey :=
  carveTowardGo t ((c.1 - t.1).natAbs + (c.2 - t.2).natAbs) g reach c

/-- The brute-force carver of the final pass: like `carveToward` but the
axis is chosen by a coin flip when both still differ. -/
def carveRandomTowardGo (t : Cell) : Nat → Grid → Rng → Cell → Grid × Rng
  | 0, g, rng, _ => (g, rng)
  | fuel + 1, g, rng, c =>
    if c = t then (g, rng)
    else
      let (q, rng') := rngNext rng
      let c' :=
        if q < qlit 1 2 ∧ c.1 ≠ t.1 then (c.1 + jsSign (t.1 - c.1), c.2)
        else if c.2 ≠ t.2 then (c.1, c.2 + jsSign (t.2 - c.2))
        else (c.1 + jsSign (t.1 - c.1), c.2)
      carveRandomTowardGo t fuel (setCell g c'.1 c'.2 0) rng' c'

/-- Fuel exactly as in `carveToward`: the Manhattan distance, decreased by
one per step whichever axis the coin flip picks. -/
def carveRandomToward (g : Grid) (rng : Rng) (c t : Cell) : Grid × Rng :=
  carveRandomTowardGo t ((c.1 - t.1).natAbs + (c.2 - t.2).natAbs) g rng c

/-- Group the unreachable open cells into isolated regions: a fresh cell
seeds a flood over open cells that are neither reachable nor already
grouped; the cells popped by the flood are the region. -/
def collectRegions (g : Grid) (height width : Int) (reachSnap : List JSKey)
    (unreachable : List Cell) : List (List Cell) :=
  (unreachable.foldl
    (fun (st : List JSKey × List (List Cell)) c =>
      if JSKey.cell c.1 c.2 ∈ st.1 then st
      else
        let run := bfsRun g height width (fun _ => false)
          (fun d => decide (JSKey.cell d.1 d.2 ∉ reachSnap))
          [(c, 0)] (st.1 ++ [JSKey.cell c.1 c.2])
        (run.1, st.2 ++ [run.2.1.map Prod.fst]))
    ([], [])).2

/-- `ensureFullConnectivity(grid, start)`: flood from `start` (correctly
seeded this time — `new Set([key])`), return 0 untouched if nothing is
unreachable; otherwise group the unreachable cells into regions, connect
each region's closest cell to the closest reachable cell by a carved
corridor (updating the reachable set as it carves), re-flood, and
brute-force connect anything still left.  Returns the new grid, the
connection count, and the rest of the random stream. -/
def ensureFullConnectivity (g : Grid) (s : Cell) (rng : Rng) :
    (Grid × Nat) × Rng :=
  let height := gridH g
  let width := gridW g
  let openCells := (allCells height width).filter (fun c => cellAt g c.1 c.2 = 0)
  let run := bfsRun g height width (fun _ => false) (fun _ => true)
    [(s, 0)] [JSKey.cell s.1 s.2]
  let unreachable := openCells.filter (fun c => JSKey.cell c.1 c.2 ∉ run.1)
  if unreachable.length = 0 then ((g, 0), rng)
  else
    let regions := collectRegions g height width run.1 unreachable
    let afterRegions := regions.foldl
      (fun (st : Grid × List JSKey × Nat) region =>
        match closestPair region st.2.1 with
        | some (u, r) =>
          let carved := carveToward st.1 st.2.1 u r
          (carved.1, carved.2, st.2.2 + 1)
        | none => st)
      (g, run.1, 0)
    let g1 := afterRegions.1
    let run2 := bfsRun g1 height width (fun _ => false) (fun _ => true)
      [(s, 0)] [JSKey.cell s.1 s.2]
    let finalUnreachable := openCells.filter (fun c => JSKey.cell c.1 c.2 ∉ run2.1)
    if finalUnreachable.length > 0 then
      let final := finalUnreachable.foldl
        (fun (st : Grid × Nat × Rng) c =>
          match closestPair [c] run2.1 with
          | some (u, r) =>
            let carved := carveRandomToward st.1 st.2.2 u r
            (carved.1, st.2.1 + 1, carved.2)
          | none => st)
        (g1, afterRegions.2.2, rng)
      ((final.1, final.2.1), final.2.2)
    else ((g1, afterRegions.2.2), rng)

end Maze

namespace Maze

/-- A maze artifact as serialized: 1-indexed start/end, wall list. -/
structure MazeObj where
  width : Int
  height : Int
  start : Cell
  goal : Cell
  walls : List Cell
deriving Repr, DecidableEq

/-- Rebuild the 0-indexed grid from a wall list, ignoring out-of-bounds
entries (duplicates are harmless: setting a cell to 1 twice is setting it
once). -/
def gridOfWalls (height width : Int) (walls : List Cell) : Grid :=
  walls.foldl
    (fun g rc =>
      if 1 ≤ rc.1 ∧ rc.1 ≤ height ∧ 1 ≤ rc.2 ∧ rc.2 ≤ width then
        setCell g (rc.1 - 1) (rc.2 - 1) 1
      else g)
    (List.replicate height.toNat (List.replicate width.toNat 0))

/-- `pathExists(maze)` (gen_prim_maze.js): rebuild the grid, reject a start
or end that is out of bounds or on a wall, then BFS from start (visited
seeded with the key string's characters) until the end cell is popped. -/
def pathExists (m : MazeObj) : Bool :=
  let g := gridOfWalls m.height m.width m.walls
  let sR := m.start.1 - 1
  let sC := m.start.2 - 1
  let eR := m.goal.1 - 1
  let eC := m.goal.2 - 1
  if sR < 0 ∨ sR ≥ m.height ∨ sC < 0 ∨ sC ≥ m.width ∨
      eR < 0 ∨ eR ≥ m.height ∨ eC < 0 ∨ eC ≥ m.width ∨
      cellAt g sR sC = 1 ∨ cellAt g eR eC = 1 then false
  else
    (bfsRun g m.height m.width (fun c => decide (c = (eR, eC))) (fun _ => true)
      [((sR, sC), 0)] (strKeys sR sC)).2.2

end Maze

namespace Maze

/-! ## addMazeComplexity, breakUpEdgeRuns, addInteriorWalls,
breakUpLargeOpenAreas (gen_prim_maze.js) -/

/-- The spec's size factor `min(1.0, 15/max(width,height))`. -/
def sizeFactor (width height : Int) : ℚ := qmin (qofInt 1) (qdiv (qofInt 15) (qofInt (max width height)))

/-- Count the open orthogonal neighbours with the dead-end/loop guards
(`y > 0 && grid[y-1][x] === 0`, and so on). -/
def passageCount (g : Grid) (height width y x : Int) : Nat :=
  (if y > 0 ∧ cellAt g (y - 1) x = 0 then 1 else 0) +
  (if y < height - 1 ∧ cellAt g (y + 1) x = 0 then 1 else 0) +
  (if x > 0 ∧ cellAt g y (x - 1) = 0 then 1 else 0) +
  (if x < width - 1 ∧ cellAt g y (x + 1) = 0 then 1 else 0)

/-- Count the wall orthogonal neighbours (the `addHedgeBranches` guard). -/
def wallCount4 (g : Grid) (height width y x : Int) : Nat :=
  (if y > 0 ∧ cellAt g (y - 1) x = 1 then 1 else 0) +
  (if y < height - 1 ∧ cellAt g (y + 1) x = 1 then 1 else 0) +
  (if x > 0 ∧ cellAt g y (x - 1) = 1 then 1 else 0) +
  (if x < width - 1 ∧ cellAt g y (x + 1) = 1 then 1 else 0)

/-- One candidate of the dead-end injection: wall a passage cell iff it has
at least 3 open orthogonal neighbours. -/
def deadEndAt (g : Grid) (height width y x : Int) : Grid :=
  if cellAt g y x = 0 then
    if passageCount g height width y x ≥ 3 then setCell g y x 1 else g
  else g

/-- One candidate of the loop injection: reopen a wall cell iff it has at
least 2 open orthogonal neighbours. -/
def loopStepAt (g : Grid) (height width y x : Int) : Grid :=
  if cellAt g y x = 1 then
    if passageCount g height width y x ≥ 2 then setCell g y x 0 else g
  else g

/-- `checkAndBreakHorizontalRun`: scan row `row` keeping the start of the
current passage run; a run reaching `maxRun` gets a wall at its midpoint
and a perpendicular passage carved to keep connectivity. -/
def breakHRun (g : Grid) (row width maxRun : Int) : Grid :=
  ((intRange 1 (width - 1)).foldl
    (fun (st : Grid × Int) x =>
      let (gc, runStart) := st
      if cellAt gc row x = 0 then
        if runStart = -1 then (gc, x)
        else if x - runStart ≥ maxRun then
          let bp := jsFloor (qadd (qofInt runStart) (qdiv (qsub (qofInt x) (qofInt runStart)) (qofInt 2)))
          let g1 := setCell gc row bp 1
          let g2 :=
            if row < gridH g1 - 2 then setCell g1 (row + 1) bp 0
            else if row > 1 then setCell g1 (row - 1) bp 0
            else g1
          (g2, x)
        else (gc, runStart)
      else (gc, -1))
    (g, -1)).1

/-- `checkAndBreakVerticalRun`, the column analogue. -/
def breakVRun (g : Grid) (col height maxRun : Int) : Grid :=
  ((intRange 1 (height - 1)).foldl
    (fun (st : Grid × Int) y =>
      let (gc, runStart) := st
      if cellAt gc y col = 0 then
        if runStart = -1 then (gc, y)
        else if y - runStart ≥ maxRun then
          let bp := jsFloor (qadd (qofInt runStart) (qdiv (qsub (qofInt y) (qofInt runStart)) (qofInt 2)))
          let g1 := setCell gc bp col 1
          let g2 :=
            if col < gridW g1 - 2 then setCell g1 bp (col + 1) 0
            else if col > 1 then setCell g1 bp (col - 1) 0
            else g1
          (g2, y)
        else (gc, runStart)
      else (gc, -1))
    (g, -1)).1

/-- One branch attempt of `addHedgeBranches`: draw an interior cell; if it
is a passage with at least 2 adjacent walls, draw a direction and wall the
neighbour there (with that case's own interior guard). -/
def hedgeBranchStep (height width : Int) (st : Grid × Rng) : Grid × Rng :=
  let (g, rng) := st
  let (ry, rng1) := randIdx rng (height - 4)
  let (rx, rng2) := randIdx rng1 (width - 4)
  let y := 2 + ry
  let x := 2 + rx
  if cellAt g y x = 0 then
    if wallCount4 g height width y x ≥ 2 then
      let (dir, rng3) := randIdx rng2 4
      let g' :=
        if dir = 0 then (if y > 2 ∧ cellAt g (y - 1) x = 0 then setCell g (y - 1) x 1 else g)
        else if dir = 1 then (if x < width - 3 ∧ cellAt g y (x + 1) = 0 then setCell g y (x + 1) 1 else g)
        else if dir = 2 then (if y < height - 3 ∧ cellAt g (y + 1) x = 0 then setCell g (y + 1) x 1 else g)
        else (if x > 2 ∧ cellAt g y (x - 1) = 0 then setCell g y (x - 1) 1 else g)
      (g', rng3)
    else (g, rng2)
  else (g, rng2)

/-- `addHedgeBranches(grid, width, height, branchCount)`. -/
def addHedgeBranches (g : Grid) (width height : Int) (branchCount : Nat)
    (rng : Rng) : Grid × Rng :=
  (List.range branchCount).foldl (fun st _ => hedgeBranchStep height width st) (g, rng)

/-- `breakUpEdgeRuns(grid, width, height)`: break long passage runs along
the four border-adjacent lines, then add hedge branches. -/
def breakUpEdgeRuns (g : Grid) (width height : Int) (rng : Rng) : Grid × Rng :=
  let maxRun := max 3 (jsFloor (qdiv (qofInt (min width height)) (qofInt 5)))
  let g1 := breakHRun g 1 width maxRun
  let g2 := breakHRun g1 (height - 2) width maxRun
  let g3 := breakVRun g2 1 height maxRun
  let g4 := breakVRun g3 (width - 2) height maxRun
  let branchCount := (jsFloor (qmul (qmul (qofInt (width * height)) (qlit 3 100)) (sizeFactor width height))).toNat
  addHedgeBranches g4 width height branchCount rng

/-- `addMazeComplexity(grid, width, height)`: the dead-end injection loop,
the loop injection loop, then `breakUpEdgeRuns`. -/
def addMazeComplexity (g : Grid) (width height : Int) (rng : Rng) : Grid × Rng :=
  let sf := sizeFactor width height
  let deadEndCount := (jsFloor (qmul (qmul (qofInt (width * height)) (qlit 5 100)) sf)).toNat
  let st1 := (List.range deadEndCount).foldl
    (fun (st : Grid × Rng) _ =>
      let (ry, r1) := randIdx st.2 (height - 2)
      let (rx, r2) := randIdx r1 (width - 2)
      (deadEndAt st.1 height width (1 + ry) (1 + rx), r2))
    (g, rng)
  let loopCount := (jsFloor (qmul (qmul (qofInt (width * height)) (qlit 1 100)) sf)).toNat
  let st2 := (List.range loopCount).foldl
    (fun (st : Grid × Rng) _ =>
      let (ry, r1) := randIdx st.2 (height - 2)
      let (rx, r2) := randIdx r1 (width - 2)
      (loopStepAt st.1 height width (1 + ry) (1 + rx), r2))
    st1
  breakUpEdgeRuns st2.1 width height st2.2

/-- The island neighbour count of `addInteriorWalls` (no bounds guards in
the source; the drawn positions keep it interior). -/
def islandPassages (g : Grid) (y x : Int) : Nat :=
  (if cellAt g (y - 1) x = 0 then 1 else 0) +
  (if cellAt g (y + 1) x = 0 then 1 else 0) +
  (if cellAt g y (x - 1) = 0 then 1 else 0) +
  (if cellAt g y (x + 1) = 0 then 1 else 0)

/-- `addInteriorWalls(grid, width, height)`: probabilistic interior walls
with a random branch each, then hedge islands on cells with at least 3
open neighbours. -/
def addInteriorWalls (g : Grid) (width height : Int) (rng : Rng) : Grid × Rng :=
  let sf := sizeFactor width height
  let wallProbability := qmax (qmul (qlit 4 10) sf) (qlit 2 10)
  let st1 := (intRange 2 (height - 2)).foldl
    (fun (stY : Grid × Rng) y =>
      (intRange 2 (width - 2)).foldl
        (fun (st : Grid × Rng) x =>
          if cellAt st.1 y x = 1 then st
          else
            let (q, r1) := rngNext st.2
            if q < wallProbability then
              let g1 := setCell st.1 y x 1
              let (dir, r2) := randIdx r1 4
              let g2 :=
                if dir = 0 then (if y > 1 ∧ cellAt g1 (y - 1) x = 0 then setCell g1 (y - 1) x 1 else g1)
                else if dir = 1 then (if x < width - 2 ∧ cellAt g1 y (x + 1) = 0 then setCell g1 y (x + 1) 1 else g1)
                else if dir = 2 then (if y < height - 2 ∧ cellAt g1 (y + 1) x = 0 then setCell g1 (y + 1) x 1 else g1)
                else (if x > 1 ∧ cellAt g1 y (x - 1) = 0 then setCell g1 y (x - 1) 1 else g1)
              (g2, r2)
            else (st.1, r1))
        stY)
    (g, rng)
  let islandCount := (jsFloor (qmul (qmul (qofInt (width * height)) (qlit 2 100)) sf)).toNat
  (List.range islandCount).foldl
    (fun (st : Grid × Rng) _ =>
      let (ry, r1) := randIdx st.2 (height - 4)
      let (rx, r2) := randIdx r1 (width - 4)
      let y := 2 + ry
      let x := 2 + rx
      if cellAt st.1 y x = 0 then
        (if islandPassages st.1 y x ≥ 3 then (setCell st.1 y x 1, r2) else (st.1, r2))
      else (st.1, r2))
    st1

/-- `breakUpLargeOpenAreas(grid, width, height)`: every 2×2 all-open block
(as scanned left-to-right, top-to-bottom over the mutating grid) gets one
random corner walled; returns how many were found. -/
def breakUpLargeOpenAreas (g : Grid) (width height : Int) (rng : Rng) :
    Grid × Nat × Rng :=
  (intRange 1 (height - 2)).foldl
    (fun (stY : Grid × Nat × Rng) y =>
      (intRange 1 (width - 2)).foldl
        (fun (st : Grid × Nat × Rng) x =>
          let (gc, n, r) := st
          if cellAt gc y x = 0 ∧ cellAt gc y (x + 1) = 0 ∧
              cellAt gc (y + 1) x = 0 ∧ cellAt gc (y + 1) (x + 1) = 0 then
            let (pos, r1) := randIdx r 4
            let g' :=
              if pos = 0 then setCell gc y x 1
              else if pos = 1 then setCell gc y (x + 1) 1
              else if pos = 2 then setCell gc (y + 1) x 1
              else setCell gc (y + 1) (x + 1) 1
            (g', n + 1, r1)
          else st)
        stY)
    (g, 0, rng)

end Maze

namespace Maze

/-! ## ensureAllCellsAccessible and generateHedgeMaze (gen_prim_maze.js) -/

/-- JS `Set` built by repeated `add`: keep the first occurrence of each
key (worker of `jsDedupKeys`). -/
def jsDedupKeysGo : Nat → List JSKey → List JSKey
  | _, [] => []
  | 0, _ :: _ => []
  | fuel + 1, k :: rest => k :: jsDedupKeysGo fuel (rest.filter (fun k' => k' ≠ k))

/-- Keep-first deduplication; the structural fuel is the length, which
bounds the recursion depth since `filter` never lengthens a list. -/
def jsDedupKeys (l : List JSKey) : List JSKey := jsDedupKeysGo l.length l

/-- `getAccessibleCells(startPos)`: BFS (visited seeded with the key
string's characters), collecting the `accessible` set from the cells in pop
order. -/
def getAccessibleCells (g : Grid) (height width : Int) (s : Cell) : List JSKey :=
  let run := bfsRun g height width (fun _ => false) (fun _ => true)
    [(s, 0)] (strKeys s.1 s.2)
  jsDedupKeys (run.2.1.map (fun p => JSKey.cell p.1.1 p.1.2))

/-- `ensureAllCellsAccessible(grid, start, end)`: connect every interior
open cell that the BFS from `start` misses to its nearest accessible cell
by a carved corridor (growing the accessible set as it carves), then a
second pass forcing a direct corridor to `start` for anything still
missed, then break up 2×2 open areas.  Returns the new grid and the counts
`(connectionsAdded, openAreasFixed, secondPassConnections)`. -/
def ensureAllCellsAccessible (g : Grid) (s e : Cell) (rng : Rng) :
    (Grid × Nat × Nat × Nat) × Rng :=
  let height := gridH g
  let width := gridW g
  let openCells := interiorOpenCells g height width
  let accessible0 := getAccessibleCells g height width s
  let pass1 := openCells.foldl
    (fun (st : Grid × List JSKey × Nat) c =>
      if JSKey.cell c.1 c.2 ∈ st.2.1 then st
      else
        match closestPair [c] st.2.1 with
        | some (u, r) =>
          let carved := carveToward st.1 st.2.1 u r
          (carved.1, jsAdd carved.2 (JSKey.cell c.1 c.2), st.2.2 + 1)
        | none => st)
    (g, accessible0, 0)
  let g1 := pass1.1
  let accessible1 := getAccessibleCells g1 height width s
  let pass2 := openCells.foldl
    (fun (st : Grid × Nat) c =>
      if JSKey.cell c.1 c.2 ∈ accessible1 then st
      else
        let carved := carveToward st.1 [] c s
        (carved.1, st.2 + 1))
    (g1, 0)
  let broken := breakUpLargeOpenAreas pass2.1 width height rng
  ((broken.1, pass1.2.2, broken.2.1, pass2.2), broken.2.2)

/-- A pending wall of the Prim carving: `[wallY, wallX, oppositeY,
oppositeX]`. -/
abbrev PrimWall := Int × Int × Int × Int

/-- The Prim's-style carving loop of `generateHedgeMaze`: pop a random
pending wall; if the opposite cell is still a wall, carve the wall cell and
the opposite cell and push the opposite cell's own pending walls.  `fuel`
bounds the iteration count; each iteration consumes one pending entry, an
entry is pushed only when a wall cell is carved open, at most 4 entries are
pushed per carve and at most `height*width` carves can happen, so
`4*height*width + 5` iterations always exhaust the list and the fuel-out
branch is never taken. -/
def primLoop (height width : Int) :
    Nat → Grid → List PrimWall → Rng → Grid × Rng
  | 0, g, _, rng => (g, rng)
  | _ + 1, g, [], rng => (g, rng)
  | fuel + 1, g, walls@(_ :: _), rng =>
    let (idx, rng1) := randIdx rng (walls.length : Int)
    let entry := walls.getD idx.toNat (0, 0, 0, 0)
    let walls' := walls.eraseIdx idx.toNat
    let wallY := entry.1
    let wallX := entry.2.1
    let oppY := entry.2.2.1
    let oppX := entry.2.2.2
    if 0 ≤ oppY ∧ oppY < height ∧ 0 ≤ oppX ∧ oppX < width ∧ cellAt g oppY oppX = 1 then
      let g1 := setCell (setCell g wallY wallX 0) oppY oppX 0
      let walls'' := walls' ++
        (if oppY > 1 ∧ cellAt g1 (oppY - 2) oppX = 1 then
          [(oppY - 1, oppX, oppY - 2, oppX)] else []) ++
        (if oppY < height - 2 ∧ cellAt g1 (oppY + 2) oppX = 1 then
          [(oppY + 1, oppX, oppY + 2, oppX)] else []) ++
        (if oppX > 1 ∧ cellAt g1 oppY (oppX - 2) = 1 then
          [(oppY, oppX - 1, oppY, oppX - 2)] else []) ++
        (if oppX < width - 2 ∧ cellAt g1 oppY (oppX + 2) = 1 then
          [(oppY, oppX + 1, oppY, oppX + 2)] else [])
      primLoop height width fuel g1 walls'' rng1
    else primLoop height width fuel g walls' rng1

/-- `generateHedgeMaze(width, height)`: force odd dimensions, carve with
the Prim loop from a random odd cell, add interior walls, re-wall the
border, choose start/end, add complexity, break up open areas, repair
accessibility, verify, and emit the 1-indexed artifact. -/
def generateHedgeMaze (width0 height0 : Int) (rng : Rng) : MazeObj × Rng :=
  let width := if width0 % 2 = 0 then width0 + 1 else width0
  let height := if height0 % 2 = 0 then height0 + 1 else height0
  let grid0 : Grid := List.replicate height.toNat (List.replicate width.toNat 1)
  let d1 := rngNext rng
  let startY := jsFloor (qmul d1.1 (qofInt (jsFloor (qdiv (qofInt height) (qofInt 2))))) * 2 + 1
  let d2 := rngNext d1.2
  let startX := jsFloor (qmul d2.1 (qofInt (jsFloor (qdiv (qofInt width) (qofInt 2))))) * 2 + 1
  let g1 := setCell grid0 startY startX 0
  let walls0 : List PrimWall :=
    (if startY > 1 then [(startY - 1, startX, startY - 2, startX)] else []) ++
    (if startY < height - 2 then [(startY + 1, startX, startY + 2, startX)] else []) ++
    (if startX > 1 then [(startY, startX - 1, startY, startX - 2)] else []) ++
    (if startX < width - 2 then [(startY, startX + 1, startY, startX + 2)] else [])
  let p1 := primLoop height width (4 * (height * width).toNat + 5) g1 walls0 d2.2
  let p2 := addInteriorWalls p1.1 width height p1.2
  let g4a := (intRange 0 height).foldl
    (fun gc y => setCell (setCell gc y 0 1) y (width - 1) 1) p2.1
  let g4 := (intRange 0 width).foldl
    (fun gc x => setCell (setCell gc 0 x 1) (height - 1) x 1) g4a
  let p3 := findOptimalStartEndPair g4 height width p2.2
  let entrance := p3.1.1
  let exitP := p3.1.2
  let p4 := addMazeComplexity g4 width height p3.2
  let p5 := breakUpLargeOpenAreas p4.1 width height p4.2
  let p6 := ensureAllCellsAccessible p5.1 entrance exitP p5.2.2
  let p7 := breakUpLargeOpenAreas p6.1.1 width height p6.2
  let info := verifyFullConnectivity p7.1 entrance
  let p8 :=
    if info.unreachableCells > 0 then
      let fix := ensureFullConnectivity p7.1 entrance p7.2.2
      if fix.1.2 > 0 then
        let pB := breakUpLargeOpenAreas fix.1.1 width height fix.2
        (pB.1, pB.2.2)
      else (fix.1.1, fix.2)
    else (p7.1, p7.2.2)
  let walls_list := (allCells height width).filterMap
    (fun c => if cellAt p8.1 c.1 c.2 = 1 then some (c.1 + 1, c.2 + 1) else none)
  ({ width := width, height := height,
     start := (entrance.1 + 1, entrance.2 + 1),
     goal := (exitP.1 + 1, exitP.2 + 1),
     walls := walls_list }, p8.2)

end Maze

namespace Maze

/-! ## createPerfectMaze, openBorders, calculateShortestPath,
fixConnectivity (anti_bot_maze_gen.js) -/

/-- Visited flags of the DFS carving, one Bool per cell. -/
abbrev VisGrid := List (List Bool)

/-- Read a visited flag (out of bounds reads as false — JS `undefined` is
falsy; the source always bounds-checks first). -/
def visAt (v : VisGrid) (y x : Int) : Bool :=
  if 0 ≤ y ∧ 0 ≤ x then ((v.getD y.toNat []).getD x.toNat false) else false

/-- Write a visited flag. -/
def setVis (v : VisGrid) (y x : Int) (b : Bool) : VisGrid :=
  if 0 ≤ y ∧ 0 ≤ x then v.set y.toNat ((v.getD y.toNat []).set x.toNat b) else v

/-- The DFS carving state: the grid, the visited flags and the random
stream. -/
structure CarveSt where
  grid : Grid
  visited : VisGrid
  rng : Rng

/-- `isValidCell(y, x)`: in bounds and unvisited. -/
def isValidCell (height width : Int) (v : VisGrid) (y x : Int) : Bool :=
  decide (0 ≤ y ∧ y < height ∧ 0 ≤ x ∧ x < width ∧ visAt v y x = false)

/-- Swap two positions of a list. -/
def swapIdx (l : List Cell) (i j : Nat) : List Cell :=
  let a := l.getD i (0, 0)
  let b := l.getD j (0, 0)
  (l.set i b).set j a

/-- The Fisher-Yates shuffle of the four carving directions
(`[-2,0], [0,2], [2,0], [0,-2]`), exactly as the source runs it
(`i` from 3 down to 1, `j = floor(random()*(i+1))`). -/
def shuffleDirs (rng : Rng) : List Cell × Rng :=
  [3, 2, 1].foldl
    (fun (st : List Cell × Rng) i =>
      let (j, r') := randIdx st.2 ((i : Nat) + 1 : Int)
      (swapIdx st.1 i j.toNat, r'))
    ([(-2, 0), (0, 2), (2, 0), (0, -2)], rng)

/-- `carvePassage(y, x)`: mark and carve the cell, shuffle the four
directions, and for each one whose target is valid and unvisited carve the
wall between and recurse.  `fuel` bounds the recursion depth; every nested
call marks a previously-unvisited cell at entry, so the depth never
exceeds the cell count and `height*width + 1` fuel is never exhausted. -/
def carveFrom (height width : Int) : Nat → CarveSt → Int → Int → CarveSt
  | 0, st, _, _ => st
  | fuel + 1, st, y, x =>
    let st1 : CarveSt :=
      { grid := setCell st.grid y x 0, visited := setVis st.visited y x true,
        rng := st.rng }
    let (dirs, rng2) := shuffleDirs st1.rng
    dirs.foldl
      (fun (s : CarveSt) d =>
        let ny := y + d.1
        let nx := x + d.2
        if isValidCell height width s.visited ny nx then
          carveFrom height width fuel
            { s with grid := setCell s.grid (y + d.1 / 2) (x + d.2 / 2) 0 } ny nx
        else s)
      { st1 with rng := rng2 }

/-- `createPerfectMaze` up to (not including) the border opening: reset the
grid to all walls, draw the odd start cell, initialize the visited flags
(non-lattice positions of the odd-truncated box pre-marked visited), and
run the DFS carve. -/
def carvePhase (width height : Int) (rng : Rng) : Grid × Rng :=
  let grid0 : Grid := List.replicate height.toNat (List.replicate width.toNat 1)
  let (qY, r1) := rngNext rng
  let startY := 1 + 2 * jsFloor (qmul qY (qofInt (jsFloor (qdiv (qsub (qofInt height) (qofInt 1)) (qofInt 2)))))
  let (qX, r2) := rngNext r1
  let startX := 1 + 2 * jsFloor (qmul qX (qofInt (jsFloor (qdiv (qsub (qofInt width) (qofInt 1)) (qofInt 2)))))
  let adjH := if height % 2 = 0 then height - 1 else height
  let adjW := if width % 2 = 0 then width - 1 else width
  let visited0 : VisGrid :=
    (intRange 0 height).map (fun y =>
      (intRange 0 (width)).map (fun x =>
        if y < adjH ∧ x < adjW then
          (if y % 2 = 1 ∧ x % 2 = 1 then false else true)
        else false))
  let final := carveFrom height width ((height * width).toNat + 1)
    { grid := grid0, visited := visited0, rng := r2 } startY startX
  (final.grid, final.rng)

/-- Integer square root by bounded upward search (`⌊√n⌋`; `Nat.sqrt` is
well-founded recursion, which kernel reduction cannot evaluate). -/
def isqrtGo (n : Nat) : Nat → Nat → Nat
  | 0, acc => acc
  | f + 1, acc => if (acc + 1) * (acc + 1) ≤ n then isqrtGo n f (acc + 1) else acc

/-- `Math.floor(Math.sqrt(n))` for a natural number. -/
def isqrt (n : Nat) : Nat := isqrtGo n n 0

/-- `openBorders(grid, width, height)`: `max(4, floor(sqrt(max(w,h))))`
random two-cell openings on random sides. -/
def openBorders (g : Grid) (width height : Int) (rng : Rng) : Grid × Rng :=
  let numOpenings := max 4 (isqrt (max width height).toNat)
  (List.range numOpenings).foldl
    (fun (st : Grid × Rng) _ =>
      let (side, r1) := randIdx st.2 4
      if side = 0 then
        let (t, r2) := randIdx r1 (width - 2)
        let topX := 1 + t
        (setCell (setCell st.1 0 topX 0) 1 topX 0, r2)
      else if side = 1 then
        let (t, r2) := randIdx r1 (height - 2)
        let rightY := 1 + t
        (setCell (setCell st.1 rightY (width - 1) 0) rightY (width - 2) 0, r2)
      else if side = 2 then
        let (t, r2) := randIdx r1 (width - 2)
        let bottomX := 1 + t
        (setCell (setCell st.1 (height - 1) bottomX 0) (height - 2) bottomX 0, r2)
      else
        let (t, r2) := randIdx r1 (height - 2)
        let leftY := 1 + t
        (setCell (setCell st.1 leftY 0 0) leftY 1 0, r2))
    (g, rng)

/-- `createPerfectMaze(grid, width, height)`: the DFS carve, then the
border openings. -/
def createPerfectMaze (width height : Int) (rng : Rng) : Grid × Rng :=
  let (g, r) := carvePhase width height rng
  openBorders g width height r

/-- `calculateShortestPath(grid, start, end)`: BFS distance to the first
pop of the end cell, or 0 when the queue empties first (visited seeded
with the key string's characters). -/
def calculateShortestPath (g : Grid) (s e : Cell) : Nat :=
  let height := gridH g
  let width := gridW g
  let run := bfsRun g height width (fun c => decide (c = e)) (fun _ => true)
    [(s, 0)] (strKeys s.1 s.2)
  if run.2.2 then ((run.2.1.getLast?.map Prod.snd).getD 0) else 0

/-- `fixConnectivity(grid, width, height, start, end)`: carve a direct
corridor from start to end, stepping along the axis with the larger
remaining distance. -/
def fixConnectivity (g : Grid) (s e : Cell) : Grid :=
  (carveToward g [] s e).1

/-- Step 9 of `generateAntiBotMaze`: verify (`connected` is
`calculateShortestPath > 0`) and repair with `fixConnectivity` when not
connected. -/
def antiBotFinalize (g : Grid) (s e : Cell) : Grid :=
  if calculateShortestPath g s e > 0 then g else fixConnectivity g s e

end Maze

namespace Maze

/-! ## parseMazeFromJson (bot.js) -/

/-- Generic 2-d list write (the bot's character grid). -/
def set2d {α : Type} (g : List (List α)) (y x : Int) (v : α) : List (List α) :=
  if 0 ≤ y ∧ 0 ≤ x then g.set y.toNat ((g.getD y.toNat []).set x.toNat v) else g

/-- `parseMazeFromJson` (bot.js), on an artifact whose JSON already parsed
into the typed fields: the `!mazeObj.width`-style validation (0 is falsy),
the `Array(width)` RangeError a negative width raises once at least one row
is built, wall placement with out-of-bounds entries warned and ignored,
the start/end bounds errors, and the final unconditional
`maze[startRow][startCol] = S` / `= E` writes - which silently OVERWRITE a
wall character rather than rejecting it. -/
def parseMazeFromJson (m : MazeObj) : Except String (List (List Char)) :=
  if m.width = 0 ∨ m.height = 0 then
    .error "Invalid maze format: missing required properties"
  else if 1 ≤ m.height ∧ m.width < 0 then .error "Invalid array length"
  else
    let maze0 : List (List Char) :=
      List.replicate m.height.toNat (List.replicate m.width.toNat ' ')
    let maze1 := m.walls.foldl
      (fun mz rc =>
        if 0 ≤ rc.1 - 1 ∧ rc.1 - 1 < m.height ∧ 0 ≤ rc.2 - 1 ∧ rc.2 - 1 < m.width then
          set2d mz (rc.1 - 1) (rc.2 - 1) '#'
        else mz)
      maze0
    let sR := m.start.1 - 1
    let sC := m.start.2 - 1
    let eR := m.goal.1 - 1
    let eC := m.goal.2 - 1
    if sR < 0 ∨ sR ≥ m.height ∨ sC < 0 ∨ sC ≥ m.width then
      .error "Start position is outside maze bounds"
    else if eR < 0 ∨ eR ≥ m.height ∨ eC < 0 ∨ eC ≥ m.width then
      .error "End position is outside maze bounds"
    else
      .ok (set2d (set2d maze1 sR sC 'S') eR eC 'E')

end Maze

namespace Maze

/-! ## Spec-side artifact predicates and concrete inputs for the claims -/

/-- A cell of the artifact's board that is in `[1,height] × [1,width]` and
not listed as a wall. -/
def MazeFree (m : MazeObj) (c : Cell) : Prop :=
  1 ≤ c.1 ∧ c.1 ≤ m.height ∧ 1 ≤ c.2 ∧ c.2 ≤ m.width ∧ c ∉ m.walls

/-- A path of orthogonal moves through in-bounds non-wall cells of the
artifact, from its start to its end. -/
def MazeWalk (m : MazeObj) (p : List Cell) : Prop :=
  p.head? = some m.start ∧ p.getLast? = some m.goal ∧
  List.Chain' (fun c d => adjB c d = true) p ∧ ∀ c ∈ p, MazeFree m c

/-- The open cells of a grid, in row-major scan order over
`[0,grid.length) × [0,grid[0].length)` — the enumeration every repository
scan uses. -/
def openCellsOf (g : Grid) : List Cell :=
  (allCells (gridH g) (gridW g)).filter (fun c => cellAt g c.1 c.2 = 0)

/-- A rectangular grid: every row as long as the first. -/
def WellFormed (g : Grid) : Prop := ∀ row ∈ g, row.length = (g.headD []).length

/-- A grid of exactly `h` rows of length `w` (the shape every generator
maintains). -/
def GridDims (g : Grid) (h w : Nat) : Prop :=
  g.length = h ∧ ∀ row ∈ g, row.length = w

/-- A visited-flag grid of exactly `h` rows of length `w`. -/
def VisDims (v : VisGrid) (h w : Nat) : Prop :=
  v.length = h ∧ ∀ row ∈ v, row.length = w

/-- The number of in-bounds cells not yet marked visited — the measure that
bounds the depth of the DFS carving recursion. -/
def missingVis (height width : Int) (v : VisGrid) : Nat :=
  ((allCells height width).filter (fun c => visAt v c.1 c.2 = false)).length

/-- The DFS carving invariant: the open cells form a tree (unique simple
paths), no open cell has both coordinates even, every open odd-odd lattice
node is visited, and both endpoint nodes of every open corridor midpoint
are visited. -/
def CarveInv (g : Grid) (v : VisGrid) : Prop :=
  UniquePathProp g ∧
  (∀ y x : Int, cellAt g y x = 0 → ¬(y % 2 = 0 ∧ x % 2 = 0)) ∧
  (∀ y x : Int, cellAt g y x = 0 → y % 2 = 1 → x % 2 = 1 → visAt v y x = true) ∧
  (∀ y x : Int, cellAt g y x = 0 → y % 2 = 1 → x % 2 = 0 →
    visAt v y (x - 1) = true ∧ visAt v y (x + 1) = true) ∧
  (∀ y x : Int, cellAt g y x = 0 → y % 2 = 0 → x % 2 = 1 →
    visAt v (y - 1) x = true ∧ visAt v (y + 1) x = true)

/-- Precondition of one `carvePassage` entry: shape, enough fuel, an odd
in-bounds unvisited closed target cell whose opening attaches a leaf (no
open cell yet, or exactly one open neighbour), and the carving invariant
once the target is marked. -/
def CarveIn (height width : Int) (st : CarveSt) (fuel : Nat) (y x : Int) : Prop :=
  GridDims st.grid height.toNat width.toNat ∧
  VisDims st.visited height.toNat width.toNat ∧
  missingVis height width st.visited < fuel ∧
  (0 ≤ y ∧ y < height ∧ 0 ≤ x ∧ x < width) ∧
  y % 2 = 1 ∧ x % 2 = 1 ∧
  visAt st.visited y x = false ∧
  cellAt st.grid y x ≠ 0 ∧
  ((∀ c : Cell, cellAt st.grid c.1 c.2 ≠ 0) ∨
    (∃ w0 : Cell, cellAt st.grid w0.1 w0.2 = 0 ∧ adjB (y, x) w0 = true ∧
      ∀ u : Cell, adjB (y, x) u = true → cellAt st.grid u.1 u.2 = 0 → u = w0)) ∧
  CarveInv st.grid (setVis st.visited y x true)

/-- Postcondition of one `carvePassage` entry: shape preserved, visited and
open cells only grow, the entry cell ends visited and open, and the carving
invariant holds of the final state. -/
def CarveOut (height width : Int) (res st : CarveSt) (y x : Int) : Prop :=
  GridDims res.grid height.toNat width.toNat ∧
  VisDims res.visited height.toNat width.toNat ∧
  (∀ a b : Int, visAt st.visited a b = true → visAt res.visited a b = true) ∧
  visAt res.visited y x = true ∧
  (∀ a b : Int, cellAt st.grid a b = 0 → cellAt res.grid a b = 0) ∧
  cellAt res.grid y x = 0 ∧
  CarveInv res.grid res.visited

/-- Invariant carried across the shuffled-direction fold inside one
`carvePassage` entry: `g1`/`v1` are the entry state just after the entry
cell was carved and marked. -/
def FoldInv (height width : Int) (f : Nat) (g1 : Grid) (v1 : VisGrid)
    (s : CarveSt) : Prop :=
  GridDims s.grid height.toNat width.toNat ∧
  VisDims s.visited height.toNat width.toNat ∧
  missingVis height width s.visited < f ∧
  (∀ a b : Int, visAt v1 a b = true → visAt s.visited a b = true) ∧
  (∀ a b : Int, cellAt g1 a b = 0 → cellAt s.grid a b = 0) ∧
  CarveInv s.grid s.visited

/-- The primary tier of the placement search, by itself: the strategic
points (regions, then 10 random picks) scanned by `bestFold` against the
minimum-distance requirement.  `findOptimalStartEndPair` returns this
tier's pair verbatim whenever it is `some`. -/
def primaryPlacement (g : Grid) (height width : Int) (rng : Rng) :
    Option (Cell × Cell × Nat) :=
  let openCells := interiorOpenCells g height width
  let s1 := strategicFromRegions g height width rng
  let s2 := pickRandomPoints 10 0 openCells s1.2
  let strategicPoints := s1.1 ++ s2.1
  let minReq := max (jsFloor (qdiv (qofInt height) (qofInt 2))) (jsFloor (qdiv (qofInt width) (qofInt 2)))
  bestFold g height width openCells minReq strategicPoints none

/-- A 5×5 grid with exactly two open cells, side by side (claim C3's
counterexample input). -/
def cexTwoCells : Grid :=
  [[1, 1, 1, 1, 1], [1, 0, 0, 1, 1], [1, 1, 1, 1, 1], [1, 1, 1, 1, 1], [1, 1, 1, 1, 1]]

/-- A 5×13 grid whose open cells form one horizontal corridor (claim C2's
counterexample input). -/
def cexCorridor : Grid :=
  [List.replicate 13 1, List.replicate 13 1,
   [1, 0, 0, 0, 0, 0, 0, 0, 0, 0, 0, 0, 1],
   List.replicate 13 1, List.replicate 13 1]

/-- A 5×5 grid where (2,2) is a passage with exactly 3 open neighbours and
is the only connection between them (claim C7's counterexample input). -/
def cexPlus : Grid :=
  [[1, 1, 1, 1, 1], [1, 1, 0, 1, 1], [1, 0, 0, 0, 1], [1, 1, 1, 1, 1], [1, 1, 1, 1, 1]]

/-- A 3×3 grid whose only open cell is the centre (claim C5's failing
input). -/
def cexCenter : Grid := [[1, 1, 1], [1, 0, 1], [1, 1, 1]]

/-- A 1×3 grid, wall reference at (0,0), one isolated open cell at (0,2)
(claim C8's counterexample input). -/
def cexRow : Grid := [[1, 1, 0]]

/-- A fully open 2×2 artifact (claim C1's witness input). -/
def witMaze : MazeObj :=
  { width := 2, height := 2, start := (1, 1), goal := (2, 2), walls := [] }

/-- A random stream driving `createPerfectMaze 11 11` into a run whose
border openings at (0,2) and (0,3) close a cycle: 2 draws pick the start
cell, the 25 lattice cells each consume 3 shuffle draws, then the four
border openings draw (side, position) pairs (claim C4's counterexample
stream). -/
def rngC4 : Rng := List.replicate 77 0 ++ [0, qlit 1 9, 0, qlit 2 9]

/-- The output grid of `createPerfectMaze 11 11` on the `rngC4` stream (the
first three rows carry the cycle: border openings at (0,1)–(0,3) over the
open corridor row 1). -/
def cexC4grid : Grid :=
  [[1, 0, 0, 0, 1, 1, 1, 1, 1, 1, 1],
   [1, 0, 0, 0, 0, 0, 0, 0, 0, 0, 1],
   [1, 1, 1, 1, 1, 1, 1, 1, 1, 0, 1],
   [1, 0, 0, 0, 0, 0, 0, 0, 1, 0, 1],
   [1, 0, 1, 1, 1, 1, 1, 1, 1, 0, 1],
   [1, 0, 0, 0, 0, 0, 0, 0, 1, 0, 1],
   [1, 1, 1, 1, 1, 1, 1, 0, 1, 0, 1],
   [1, 0, 0, 0, 0, 0, 0, 0, 1, 0, 1],
   [1, 0, 1, 1, 1, 1, 1, 1, 1, 0, 1],
   [1, 0, 0, 0, 0, 0, 0, 0, 0, 0, 1],
   [1, 1, 1, 1, 1, 1, 1, 1, 1, 1, 1]]

/-- An artifact whose start sits on a wall entry (claim C9's counterexample
input). -/
def cexWallStart : MazeObj :=
  { width := 3, height := 3, start := (1, 1), goal := (3, 3), walls := [(1, 1)] }

end Maze

namespace Maze

/-! ## The computable rational operations are ordinary rational arithmetic -/

/-- `qmul` is multiplication on `ℚ`. -/
theorem qmul_eq (a b : ℚ) : qmul a b = a * b := by
  unfold qmul
  conv_rhs => rw [← Rat.num_divInt_den a, ← Rat.num_divInt_den b]
  rw [Rat.divInt_mul_divInt']

/-- `qdiv` is division on `ℚ`. -/
theorem qdiv_eq (a b : ℚ) : qdiv a b = a / b := by
  unfold qdiv
  conv_rhs => rw [← Rat.num_divInt_den a, ← Rat.num_divInt_den b]
  rw [Rat.divInt_div_divInt]

/-- `qadd` is addition on `ℚ`. -/
theorem qadd_eq (a b : ℚ) : qadd a b = a + b := by
  unfold qadd
  conv_rhs => rw [← Rat.num_divInt_den a, ← Rat.num_divInt_den b]
  rw [Rat.divInt_add_divInt]
  · exact_mod_cast a.den_pos.ne'
  · exact_mod_cast b.den_pos.ne'

/-- `qsub` is subtraction on `ℚ`. -/
theorem qsub_eq (a b : ℚ) : qsub a b = a - b := by
  unfold qsub
  conv_rhs => rw [← Rat.num_divInt_den a, ← Rat.num_divInt_den b]
  rw [Rat.divInt_sub_divInt]
  · exact_mod_cast a.den_pos.ne'
  · exact_mod_cast b.den_pos.ne'

/-- `qofInt` is the canonical coercion. -/
theorem qofInt_eq (z : Int) : qofInt z = (z : ℚ) := by
  unfold qofInt
  rw [Rat.divInt_one]

/-- `qlit n d` is the fraction `n / d`. -/
theorem qlit_eq (n d : Int) : qlit n d = (n : ℚ) / (d : ℚ) := by
  unfold qlit
  rw [Rat.divInt_eq_div]

/-- `qmin` is `min` on `ℚ`. -/
theorem qmin_eq (a b : ℚ) : qmin a b = min a b := by
  unfold qmin
  rw [min_def]

/-- `qmax` is `max` on `ℚ`. -/
theorem qmax_eq (a b : ℚ) : qmax a b = max a b := by
  unfold qmax
  rw [max_def]

/-! ## Walk lemmas -/

/-- Adjacent cells differ by one of the four direction offsets. -/
theorem adjB_mem_nbrs {c d : Cell} (h : adjB c d = true) : d ∈ nbrsOf c := by
  obtain ⟨cy, cx⟩ := c
  obtain ⟨dy, dx⟩ := d
  simp only [adjB, jsAbs, beq_iff_eq] at h
  simp only [nbrsOf, dirs4, List.map_cons, List.map_nil, List.mem_cons, List.mem_singleton]
  simp only [Prod.mk.injEq]
  omega

/-- Extend a walk by one adjacent open cell. -/
theorem walk_snoc {g : Grid} {p : List Cell} {a b d : Cell}
    (hw : IsWalkBetween g p a b) (hstep : stepRel g b d) :
    IsWalkBetween g (p ++ [d]) a d := by
  obtain ⟨hh, hl, hch, hop⟩ := hw
  refine ⟨?_, ?_, ?_, ?_⟩
  · cases p with
    | nil => cases hh
    | cons q qs => simpa using hh
  · simp
  · rw [List.chain'_append]
    refine ⟨hch, List.chain'_singleton _, ?_⟩
    intro x hx y hy
    simp only [List.head?_cons, Option.mem_def, Option.some.injEq] at hy
    subst hy
    rw [hl] at hx
    cases hx
    exact hstep.1
  · intro c hc
    rcases List.mem_append.1 hc with h1 | h1
    · exact hop c h1
    · rcases List.mem_singleton.1 h1 with rfl
      exact hstep.2

/-- A reachable cell from an open reference is joined to it by a walk. -/
theorem seededReach_walk {g : Grid} {s c : Cell} (hs : cellAt g s.1 s.2 = 0)
    (h : SeededReach g s c) : ∃ p, IsWalkBetween g p s c := by
  induction h with
  | refl => exact ⟨[s], rfl, rfl, List.chain'_singleton _, by simpa using hs⟩
  | tail _ hstep ih =>
    obtain ⟨p, hp⟩ := ih
    exact ⟨p ++ [_], walk_snoc hp hstep⟩

/-- Reading after writing: `setCell` changes exactly the written cell, and
only when the write lands in bounds. -/
theorem cellAt_setCell (g : Grid) (y x : Int) (v : Nat) (a b : Int) :
    cellAt (setCell g y x v) a b =
      if a = y ∧ b = x ∧ 0 ≤ y ∧ 0 ≤ x ∧ y.toNat < g.length ∧
          x.toNat < (g.getD y.toNat []).length then v
      else cellAt g a b := by
  unfold cellAt setCell
  by_cases hab : 0 ≤ a ∧ 0 ≤ b
  · rw [if_pos hab, if_pos hab]
    by_cases hyx : 0 ≤ y ∧ 0 ≤ x
    · rw [if_pos hyx]
      by_cases hay : a = y
      · subst hay
        by_cases hlen : a.toNat < g.length
        · rw [List.getD_eq_getElem?_getD (g.set a.toNat _),
            List.getElem?_set_self hlen, Option.getD_some]
          by_cases hbx : b = x
          · subst hbx
            by_cases hxlen : b.toNat < (g.getD a.toNat []).length
            · rw [if_pos ⟨rfl, rfl, hab.1, hab.2, hlen, hxlen⟩,
                List.getD_eq_getElem?_getD, List.getElem?_set_self hxlen,
                Option.getD_some]
            · rw [if_neg (by tauto), List.set_eq_of_length_le (by omega)]
          · have hb' : b.toNat ≠ x.toNat := by omega
            rw [if_neg (by tauto), List.getD_eq_getElem?_getD,
              List.getElem?_set_ne (Ne.symm hb'),
              ← List.getD_eq_getElem?_getD]
        · rw [List.set_eq_of_length_le (by omega), if_neg (by tauto)]
      · have ha' : a.toNat ≠ y.toNat := by omega
        rw [if_neg (by tauto), List.getD_eq_getElem?_getD (g.set y.toNat _),
          List.getElem?_set_ne (Ne.symm ha'), ← List.getD_eq_getElem?_getD]
    · rw [if_neg hyx, if_neg (by tauto)]
  · rw [if_neg hab, if_neg hab, if_neg (by omega)]

/-- Writing a passage can only grow the set of open cells. -/
theorem cellAt_setCell_zero {g : Grid} (y x : Int) {a b : Int}
    (h : cellAt g a b = 0) : cellAt (setCell g y x 0) a b = 0 := by
  rw [cellAt_setCell]
  split_ifs with hbig
  · rfl
  · exact h

/-- Connectivity is monotone in the open-cell set. -/
theorem openConn_mono {g g' : Grid}
    (hsub : ∀ c : Cell, cellAt g c.1 c.2 = 0 → cellAt g' c.1 c.2 = 0)
    {a b : Cell} (h : OpenConn g a b) : OpenConn g' a b := by
  obtain ⟨p, h1, h2, h3, h4⟩ := h
  exact ⟨p, h1, h2, h3, fun c hc => hsub c (h4 c hc)⟩

/-- A fixed-shape grid is rectangular. -/
theorem GridDims.wellFormed {g : Grid} {h w : Nat} (hd : GridDims g h w) :
    WellFormed g := by
  intro row hrow
  rw [hd.2 row hrow]
  cases g with
  | nil => cases hrow
  | cons r rs => rw [List.headD_cons, hd.2 r (List.mem_cons_self ..)]

/-- `gridH` of a fixed-shape grid. -/
theorem gridH_of_dims {g : Grid} {h w : Nat} (hd : GridDims g h w) :
    gridH g = (h : Int) := by
  unfold gridH
  rw [hd.1]

/-- `gridW` of a nonempty fixed-shape grid. -/
theorem gridW_of_dims {g : Grid} {h w : Nat} (hd : GridDims g h w) (hpos : 0 < h) :
    gridW g = (w : Int) := by
  unfold gridW
  cases g with
  | nil =>
    rw [← hd.1] at hpos
    cases hpos
  | cons r rs => rw [List.headD_cons, hd.2 r (List.mem_cons_self ..)]

/-- The all-`v` grid has the dimensions it was built with. -/
theorem dims_replicate (h w v : Nat) :
    GridDims (List.replicate h (List.replicate w v)) h w := by
  refine ⟨List.length_replicate .., ?_⟩
  intro row hrow
  rw [List.eq_of_mem_replicate hrow]
  exact List.length_replicate ..

/-- Writing a cell does not change the grid's shape. -/
theorem dims_setCell {g : Grid} {h w : Nat} (hd : GridDims g h w) (y x : Int)
    (v : Nat) : GridDims (setCell g y x v) h w := by
  unfold setCell
  split
  · by_cases hy : y.toNat < g.length
    · refine ⟨by rw [List.length_set]; exact hd.1, ?_⟩
      intro row hrow
      rcases List.mem_or_eq_of_mem_set hrow with hmem | heq
      · exact hd.2 row hmem
      · rw [heq, List.length_set]
        have hrowmem : g.getD y.toNat [] ∈ g := by
          rw [List.getD_eq_getElem?_getD, List.getElem?_eq_getElem hy]
          exact List.getElem_mem _
        exact hd.2 _ hrowmem
    · rw [List.set_eq_of_length_le (by omega)]
      exact hd
  · exact hd

/-- Writing inside the declared bounds of a fixed-shape grid sticks. -/
theorem cellAt_setCell_self {g : Grid} {h w : Nat} (hd : GridDims g h w)
    {y x : Int} (hy1 : 0 ≤ y) (hy2 : y < (h : Int)) (hx1 : 0 ≤ x)
    (hx2 : x < (w : Int)) (v : Nat) : cellAt (setCell g y x v) y x = v := by
  rw [cellAt_setCell, if_pos]
  refine ⟨rfl, rfl, hy1, hx1, ?_, ?_⟩
  · rw [hd.1]; omega
  · have hy : y.toNat < g.length := by rw [hd.1]; omega
    have hmem : g.getD y.toNat [] ∈ g := by
      rw [List.getD_eq_getElem?_getD, List.getElem?_eq_getElem hy]
      exact List.getElem_mem _
    rw [hd.2 _ hmem]
    omega

/-- Reading the all-`v` grid. -/
theorem cellAt_replicate (h w v : Nat) (y x : Int) :
    cellAt (List.replicate h (List.replicate w v)) y x =
      if 0 ≤ y ∧ y < (h : Int) ∧ 0 ≤ x ∧ x < (w : Int) then v else 1 := by
  unfold cellAt
  by_cases hpos : 0 ≤ y ∧ 0 ≤ x
  · rw [if_pos hpos]
    by_cases hy : y.toNat < h
    · rw [List.getD_eq_getElem?_getD (List.replicate h (List.replicate w v)),
        List.getElem?_replicate, if_pos hy, Option.getD_some]
      by_cases hx : x.toNat < w
      · rw [List.getD_eq_getElem?_getD (List.replicate w v),
          List.getElem?_replicate, if_pos hx, Option.getD_some,
          if_pos (by omega)]
      · rw [List.getD_eq_getElem?_getD (List.replicate w v),
          List.getElem?_replicate, if_neg hx, Option.getD_none,
          if_neg (by omega)]
    · rw [List.getD_eq_getElem?_getD (List.replicate h (List.replicate w v)),
        List.getElem?_replicate, if_neg hy, Option.getD_none,
        if_neg (by omega)]
      rfl
  · rw [if_neg hpos, if_neg (by omega)]

/-- Prepend an adjacent open cell to a walk. -/
theorem walk_cons {g : Grid} {p : List Cell} {a b d : Cell}
    (hw : IsWalkBetween g p a b) (hadj : adjB d a = true)
    (hd : cellAt g d.1 d.2 = 0) : IsWalkBetween g (d :: p) d b := by
  obtain ⟨hh, hl, hch, hop⟩ := hw
  cases p with
  | nil => cases hh
  | cons q qs =>
    simp only [List.head?_cons, Option.some.injEq] at hh
    subst hh
    refine ⟨rfl, ?_, ?_, ?_⟩
    · rw [List.getLast?_cons_cons]
      exact hl
    · exact List.chain'_cons.2 ⟨hadj, hch⟩
    · intro cc hcc
      rcases List.mem_cons.1 hcc with rfl | h2
      · exact hd
      · exact hop cc h2

/-- Adjacency is invariant under the 1-index shift. -/
theorem adjB_shift (a b : Cell) :
    adjB (a.1 + 1, a.2 + 1) (b.1 + 1, b.2 + 1) = adjB a b := by
  unfold adjB
  dsimp only
  have e1 : a.1 + 1 - (b.1 + 1) = a.1 - b.1 := by ring
  have e2 : a.2 + 1 - (b.2 + 1) = a.2 - b.2 := by ring
  rw [e1, e2]

/-- What `Math.sign` returns, by sign of the argument. -/
theorem jsSign_spec (z : Int) :
    (0 < z ∧ jsSign z = 1) ∨ (z < 0 ∧ jsSign z = -1) ∨ (z = 0 ∧ jsSign z = 0) := by
  unfold jsSign
  split_ifs with h1 h2
  · exact Or.inl ⟨h1, rfl⟩
  · exact Or.inr (Or.inl ⟨h2, rfl⟩)
  · exact Or.inr (Or.inr ⟨by omega, rfl⟩)

/-- The wall-placement fold of `gridOfWalls` preserves the grid shape. -/
theorem gridOfWalls_fold_dims (height width : Int) :
    ∀ (ws : List Cell) (g0 : Grid) {h w : Nat}, GridDims g0 h w →
      GridDims (ws.foldl (fun g rc =>
        if 1 ≤ rc.1 ∧ rc.1 ≤ height ∧ 1 ≤ rc.2 ∧ rc.2 ≤ width then
          setCell g (rc.1 - 1) (rc.2 - 1) 1
        else g) g0) h w := by
  intro ws
  induction ws with
  | nil => intro g0 h w hd; exact hd
  | cons rc ws ih =>
    intro g0 h w hd
    rw [List.foldl_cons]
    apply ih
    split
    · exact dims_setCell hd _ _ _
    · exact hd

/-- The rebuilt artifact grid has the artifact's dimensions. -/
theorem gridOfWalls_dims (height width : Int) (walls : List Cell) :
    GridDims (gridOfWalls height width walls) height.toNat width.toNat :=
  gridOfWalls_fold_dims height width walls _ (dims_replicate ..)

/-- The rebuilt artifact grid holds only 0s and 1s. -/
theorem gridOfWalls_cell01 (height width : Int) (walls : List Cell) (y x : Int) :
    cellAt (gridOfWalls height width walls) y x = 0 ∨
    cellAt (gridOfWalls height width walls) y x = 1 := by
  suffices hgen : ∀ (ws : List Cell) (g0 : Grid),
      (∀ a b : Int, cellAt g0 a b = 0 ∨ cellAt g0 a b = 1) →
      ∀ a b : Int, cellAt (ws.foldl (fun g rc =>
        if 1 ≤ rc.1 ∧ rc.1 ≤ height ∧ 1 ≤ rc.2 ∧ rc.2 ≤ width then
          setCell g (rc.1 - 1) (rc.2 - 1) 1
        else g) g0) a b = 0 ∨
      cellAt (ws.foldl (fun g rc =>
        if 1 ≤ rc.1 ∧ rc.1 ≤ height ∧ 1 ≤ rc.2 ∧ rc.2 ≤ width then
          setCell g (rc.1 - 1) (rc.2 - 1) 1
        else g) g0) a b = 1 by
    refine hgen walls _ ?_ y x
    intro a b
    rw [cellAt_replicate]
    split_ifs
    · exact Or.inl rfl
    · exact Or.inr rfl
  intro ws
  induction ws with
  | nil => exact fun g0 h0 => h0
  | cons rc ws ih =>
    intro g0 h0
    rw [List.foldl_cons]
    apply ih
    intro a b
    split
    · rw [cellAt_setCell]
      split
      · exact Or.inr rfl
      · exact h0 a b
    · exact h0 a b

/-- Once written, a wall survives the rest of the wall-placement fold. -/
theorem gridOfWalls_fold_keeps_one (height width : Int) :
    ∀ (ws : List Cell) (g0 : Grid) {a b : Int}, cellAt g0 a b = 1 →
      cellAt (ws.foldl (fun g rc =>
        if 1 ≤ rc.1 ∧ rc.1 ≤ height ∧ 1 ≤ rc.2 ∧ rc.2 ≤ width then
          setCell g (rc.1 - 1) (rc.2 - 1) 1
        else g) g0) a b = 1 := by
  intro ws
  induction ws with
  | nil => intro g0 a b h0; exact h0
  | cons rc ws ih =>
    intro g0 a b h0
    rw [List.foldl_cons]
    apply ih
    split
    · rw [cellAt_setCell]
      split
      · rfl
      · exact h0
    · exact h0

/-- An in-bounds wall entry of the artifact really reads back as a wall. -/
theorem gridOfWalls_wall {height width : Int} {walls : List Cell} {c : Cell}
    (hmem : c ∈ walls)
    (hb : 1 ≤ c.1 ∧ c.1 ≤ height ∧ 1 ≤ c.2 ∧ c.2 ≤ width) :
    cellAt (gridOfWalls height width walls) (c.1 - 1) (c.2 - 1) = 1 := by
  suffices hgen : ∀ (ws : List Cell) (g0 : Grid),
      GridDims g0 height.toNat width.toNat → c ∈ ws →
      cellAt (ws.foldl (fun g rc =>
        if 1 ≤ rc.1 ∧ rc.1 ≤ height ∧ 1 ≤ rc.2 ∧ rc.2 ≤ width then
          setCell g (rc.1 - 1) (rc.2 - 1) 1
        else g) g0) (c.1 - 1) (c.2 - 1) = 1 by
    exact hgen walls _ (dims_replicate ..) hmem
  intro ws
  induction ws with
  | nil => intro g0 _ hm; cases hm
  | cons rc ws ih =>
    intro g0 hd hm
    rw [List.foldl_cons]
    rcases List.mem_cons.1 hm with rfl | hm2
    · apply gridOfWalls_fold_keeps_one
      rw [if_pos hb]
      exact cellAt_setCell_self hd (by omega) (by omega) (by omega) (by omega) 1
    · apply ih
      · split
        · exact dims_setCell hd _ _ _
        · exact hd
      · exact hm2
/-- Every write of the corridor carver is a passage: open cells stay open. -/
theorem carveTowardGo_open_mono (t : Cell) :
    ∀ (fuel : Nat) (g : Grid) (reach : List JSKey) (c : Cell) {a b : Int},
      cellAt g a b = 0 →
      cellAt (carveTowardGo t fuel g reach c).1 a b = 0 := by
  intro fuel
  induction fuel with
  | zero => intro g reach c a b h; rw [carveTowardGo]; exact h
  | succ n ih =>
    intro g reach c a b h
    rw [carveTowardGo]
    split
    · exact h
    · exact ih _ _ _ (cellAt_setCell_zero _ _ h)

/-- The corridor carver does not change the grid's shape. -/
theorem carveTowardGo_dims (t : Cell) {H W : Nat} :
    ∀ (fuel : Nat) (g : Grid) (reach : List JSKey) (c : Cell),
      GridDims g H W → GridDims (carveTowardGo t fuel g reach c).1 H W := by
  intro fuel
  induction fuel with
  | zero => intro g reach c h; rw [carveTowardGo]; exact h
  | succ n ih =>
    intro g reach c h
    rw [carveTowardGo]
    split
    · exact h
    · exact ih _ _ _ (dims_setCell h _ _ _)

/-- The corridor carver, run with fuel equal to the Manhattan distance from
an in-bounds open cell to an in-bounds target, leaves a walk through open
cells from the cell to the target. -/
theorem carveTowardGo_walk (t : Cell) {H W : Nat}
    (ht1 : 0 ≤ t.1) (ht2 : t.1 < (H : Int)) (ht3 : 0 ≤ t.2) (ht4 : t.2 < (W : Int)) :
    ∀ (fuel : Nat) (g : Grid) (reach : List JSKey) (c : Cell),
      GridDims g H W →
      (c.1 - t.1).natAbs + (c.2 - t.2).natAbs = fuel →
      0 ≤ c.1 → c.1 < (H : Int) → 0 ≤ c.2 → c.2 < (W : Int) →
      cellAt g c.1 c.2 = 0 →
      ∃ p, IsWalkBetween (carveTowardGo t fuel g reach c).1 p c t := by
  intro fuel
  induction fuel with
  | zero =>
    intro g reach c hdims hdist hc1 hc2 hc3 hc4 hopen
    have hct : c = t := by
      obtain ⟨c1, c2⟩ := c
      obtain ⟨t1, t2⟩ := t
      simp only [Prod.mk.injEq]
      simp only at hdist
      omega
    subst hct
    rw [carveTowardGo]
    exact ⟨[c], rfl, rfl, List.chain'_singleton _, by simpa using hopen⟩
  | succ n ih =>
    intro g reach c hdims hdist hc1 hc2 hc3 hc4 hopen
    rw [carveTowardGo]
    split
    · next hct =>
      subst hct
      exact ⟨[c], rfl, rfl, List.chain'_singleton _, by simpa using hopen⟩
    · next hct =>
      by_cases haxis : jsAbs (c.1 - t.1) > jsAbs (c.2 - t.2)
      · rw [if_pos haxis]
        show ∃ p, IsWalkBetween (carveTowardGo t n
          (setCell g (c.1 + jsSign (t.1 - c.1)) c.2 0)
          (jsAdd reach (JSKey.cell (c.1 + jsSign (t.1 - c.1)) c.2))
          (c.1 + jsSign (t.1 - c.1), c.2)).1 p c t
        simp only [jsAbs] at haxis
        have hy0 : t.1 - c.1 ≠ 0 := by omega
        have hb1 : 0 ≤ c.1 + jsSign (t.1 - c.1) := by
          rcases jsSign_spec (t.1 - c.1) with ⟨h1, h2⟩ | ⟨h1, h2⟩ | ⟨h1, h2⟩ <;>
            rw [h2] <;> omega
        have hb2 : c.1 + jsSign (t.1 - c.1) < (H : Int) := by
          rcases jsSign_spec (t.1 - c.1) with ⟨h1, h2⟩ | ⟨h1, h2⟩ | ⟨h1, h2⟩ <;>
            rw [h2] <;> omega
        have hdist' : (c.1 + jsSign (t.1 - c.1) - t.1).natAbs +
            (c.2 - t.2).natAbs = n := by
          rcases jsSign_spec (t.1 - c.1) with ⟨h1, h2⟩ | ⟨h1, h2⟩ | ⟨h1, h2⟩ <;>
            rw [h2] <;> omega
        have hdims' := dims_setCell hdims (c.1 + jsSign (t.1 - c.1)) c.2 0
        have hopen' : cellAt (setCell g (c.1 + jsSign (t.1 - c.1)) c.2 0)
            (c.1 + jsSign (t.1 - c.1)) c.2 = 0 :=
          cellAt_setCell_self hdims hb1 hb2 hc3 hc4 0
        obtain ⟨p', hp'⟩ := ih (setCell g (c.1 + jsSign (t.1 - c.1)) c.2 0)
          (jsAdd reach (JSKey.cell (c.1 + jsSign (t.1 - c.1)) c.2))
          (c.1 + jsSign (t.1 - c.1), c.2) hdims' hdist' hb1 hb2 hc3 hc4 hopen'
        have hadj : adjB c (c.1 + jsSign (t.1 - c.1), c.2) = true := by
          simp only [adjB, jsAbs, beq_iff_eq]
          rcases jsSign_spec (t.1 - c.1) with ⟨h1, h2⟩ | ⟨h1, h2⟩ | ⟨h1, h2⟩ <;>
            rw [h2] <;> omega
        have hcopen : cellAt (carveTowardGo t n
            (setCell g (c.1 + jsSign (t.1 - c.1)) c.2 0)
            (jsAdd reach (JSKey.cell (c.1 + jsSign (t.1 - c.1)) c.2))
            (c.1 + jsSign (t.1 - c.1), c.2)).1 c.1 c.2 = 0 :=
          carveTowardGo_open_mono t n _ _ _ (cellAt_setCell_zero _ _ hopen)
        exact ⟨c :: p', walk_cons hp' hadj hcopen⟩
      · rw [if_neg haxis]
        show ∃ p, IsWalkBetween (carveTowardGo t n
          (setCell g c.1 (c.2 + jsSign (t.2 - c.2)) 0)
          (jsAdd reach (JSKey.cell c.1 (c.2 + jsSign (t.2 - c.2))))
          (c.1, c.2 + jsSign (t.2 - c.2))).1 p c t
        simp only [jsAbs] at haxis
        have hx0 : t.2 - c.2 ≠ 0 := by
          intro h0
          apply hct
          obtain ⟨c1, c2⟩ := c
          obtain ⟨t1, t2⟩ := t
          simp only [Prod.mk.injEq]
          simp only at haxis hdist h0 ⊢
          omega
        have hb3 : 0 ≤ c.2 + jsSign (t.2 - c.2) := by
          rcases jsSign_spec (t.2 - c.2) with ⟨h1, h2⟩ | ⟨h1, h2⟩ | ⟨h1, h2⟩ <;>
            rw [h2] <;> omega
        have hb4 : c.2 + jsSign (t.2 - c.2) < (W : Int) := by
          rcases jsSign_spec (t.2 - c.2) with ⟨h1, h2⟩ | ⟨h1, h2⟩ | ⟨h1, h2⟩ <;>
            rw [h2] <;> omega
        have hdist' : (c.1 - t.1).natAbs +
            (c.2 + jsSign (t.2 - c.2) - t.2).natAbs = n := by
          rcases jsSign_spec (t.2 - c.2) with ⟨h1, h2⟩ | ⟨h1, h2⟩ | ⟨h1, h2⟩ <;>
            rw [h2] <;> omega
        have hdims' := dims_setCell hdims c.1 (c.2 + jsSign (t.2 - c.2)) 0
        have hopen' : cellAt (setCell g c.1 (c.2 + jsSign (t.2 - c.2)) 0)
            c.1 (c.2 + jsSign (t.2 - c.2)) = 0 :=
          cellAt_setCell_self hdims hc1 hc2 hb3 hb4 0
        obtain ⟨p', hp'⟩ := ih (setCell g c.1 (c.2 + jsSign (t.2 - c.2)) 0)
          (jsAdd reach (JSKey.cell c.1 (c.2 + jsSign (t.2 - c.2))))
          (c.1, c.2 + jsSign (t.2 - c.2)) hdims' hdist' hc1 hc2 hb3 hb4 hopen'
        have hadj : adjB c (c.1, c.2 + jsSign (t.2 - c.2)) = true := by
          simp only [adjB, jsAbs, beq_iff_eq]
          rcases jsSign_spec (t.2 - c.2) with ⟨h1, h2⟩ | ⟨h1, h2⟩ | ⟨h1, h2⟩ <;>
            rw [h2] <;> omega
        have hcopen : cellAt (carveTowardGo t n
            (setCell g c.1 (c.2 + jsSign (t.2 - c.2)) 0)
            (jsAdd reach (JSKey.cell c.1 (c.2 + jsSign (t.2 - c.2))))
            (c.1, c.2 + jsSign (t.2 - c.2))).1 c.1 c.2 = 0 :=
          carveTowardGo_open_mono t n _ _ _ (cellAt_setCell_zero _ _ hopen)
        exact ⟨c :: p', walk_cons hp' hadj hcopen⟩

/-- A walk's cells all lie in any set that contains its head and is closed
under moves into open neighbours; hence two cells separated by such a
closed set are not connected. -/
theorem not_openConn_of_closed {g : Grid} (S : List Cell) {a b : Cell}
    (ha : a ∈ S) (hb : b ∉ S)
    (hclosed : ∀ c ∈ S, ∀ d ∈ nbrsOf c, cellAt g d.1 d.2 = 0 → d ∈ S) :
    ¬ OpenConn g a b := by
  have hall : ∀ (q : List Cell) (h0 : Cell), h0 ∈ S →
      List.Chain' (fun c d => adjB c d = true) (h0 :: q) →
      (∀ c ∈ q, cellAt g c.1 c.2 = 0) → ∀ c ∈ q, c ∈ S := by
    intro q
    induction q with
    | nil => intro h0 _ _ _ c hc; cases hc
    | cons r rs ih =>
      intro h0 hf hch hop c hc
      have hstep := List.chain'_cons.1 hch
      have hr : r ∈ S := hclosed _ hf _ (adjB_mem_nbrs hstep.1) (hop r (by simp))
      rcases List.mem_cons.1 hc with rfl | hc2
      · exact hr
      · exact ih r hr hstep.2 (fun d hd => hop d (List.mem_cons_of_mem _ hd)) c hc2
  rintro ⟨p, hh, hl, hch, hop⟩
  cases p with
  | nil => cases hh
  | cons q qs =>
    simp only [List.head?_cons, Option.some.injEq] at hh
    subst hh
    have hmem : ∀ c ∈ q :: qs, c ∈ S := by
      intro c hc
      rcases List.mem_cons.1 hc with rfl | hc2
      · exact ha
      · exact hall qs q ha hch (fun d hd => hop d (List.mem_cons_of_mem _ hd)) c hc2
    exact hb (hmem b (List.mem_of_getLast?_eq_some hl))

/-! ## BFS loop lemmas: what `bfsCore` visits and pops -/

/-- `pushLoop` appends: there is a list `new` of freshly pushed cells such
that the visited set gains exactly their keys and the accumulator gains
exactly their queue entries; each is an in-bounds open extra-approved
neighbour offset of the popped cell. -/
theorem pushLoop_spec (g : Grid) (height width : Int) (extraOk : Cell → Bool)
    (y x : Int) (dist : Nat) :
    ∀ (ds : List Cell) (v : List JSKey) (acc : List (Cell × Nat)),
      ∃ new : List Cell,
        (pushLoop g height width extraOk y x dist ds v acc).1 =
          v ++ new.map (fun c => JSKey.cell c.1 c.2) ∧
        (pushLoop g height width extraOk y x dist ds v acc).2 =
          acc ++ new.map (fun c => (c, dist + 1)) ∧
        ∀ c ∈ new, (∃ d ∈ ds, c = (y + d.1, x + d.2)) ∧
          0 ≤ c.1 ∧ c.1 < height ∧ 0 ≤ c.2 ∧ c.2 < width ∧
          cellAt g c.1 c.2 = 0 ∧ extraOk c = true := by
  intro ds
  induction ds with
  | nil =>
    intro v acc
    exact ⟨[], by simp [pushLoop], by simp [pushLoop], by simp⟩
  | cons d ds ih =>
    intro v acc
    rw [pushLoop]
    split
    · next hcond =>
      obtain ⟨new, h1, h2, h3⟩ := ih (v ++ [JSKey.cell (y + d.1) (x + d.2)])
        (acc ++ [((y + d.1, x + d.2), dist + 1)])
      refine ⟨(y + d.1, x + d.2) :: new, ?_, ?_, ?_⟩
      · rw [h1]; simp
      · rw [h2]; simp
      · intro c hc
        rcases List.mem_cons.1 hc with rfl | hc2
        · exact ⟨⟨d, List.mem_cons_self .., rfl⟩, hcond.1, hcond.2.1,
            hcond.2.2.1, hcond.2.2.2.1, hcond.2.2.2.2.1, hcond.2.2.2.2.2.1⟩
        · obtain ⟨⟨d', hd', hc'⟩, hrest⟩ := h3 c hc2
          exact ⟨⟨d', List.mem_cons_of_mem _ hd', hc'⟩, hrest⟩
    · obtain ⟨new, h1, h2, h3⟩ := ih v acc
      refine ⟨new, h1, h2, ?_⟩
      intro c hc
      obtain ⟨⟨d', hd', hc'⟩, hrest⟩ := h3 c hc
      exact ⟨⟨d', List.mem_cons_of_mem _ hd', hc'⟩, hrest⟩

/-- Keys already visited stay visited across `pushLoop`. -/
theorem pushLoop_visited_mono {g : Grid} {height width : Int}
    {extraOk : Cell → Bool} {y x : Int} {dist : Nat} {ds : List Cell}
    {v : List JSKey} {acc : List (Cell × Nat)} {k : JSKey} (hk : k ∈ v) :
    k ∈ (pushLoop g height width extraOk y x dist ds v acc).1 := by
  obtain ⟨new, h1, _, _⟩ := pushLoop_spec g height width extraOk y x dist ds v acc
  rw [h1]
  exact List.mem_append_left _ hk

/-- After `pushLoop`, every in-bounds open extra-approved neighbour offset
has its key in the visited set. -/
theorem pushLoop_covers (g : Grid) (height width : Int) (extraOk : Cell → Bool)
    (y x : Int) (dist : Nat) :
    ∀ (ds : List Cell) (v : List JSKey) (acc : List (Cell × Nat)),
      ∀ d ∈ ds,
        0 ≤ y + d.1 → y + d.1 < height → 0 ≤ x + d.2 → x + d.2 < width →
        cellAt g (y + d.1) (x + d.2) = 0 → extraOk (y + d.1, x + d.2) = true →
        JSKey.cell (y + d.1) (x + d.2) ∈
          (pushLoop g height width extraOk y x dist ds v acc).1 := by
  intro ds
  induction ds with
  | nil => intro v acc d hd; cases hd
  | cons d0 ds ih =>
    intro v acc d hd h1 h2 h3 h4 h5 h6
    rcases List.mem_cons.1 hd with rfl | hd2
    · rw [pushLoop]
      split
      · exact pushLoop_visited_mono (List.mem_append_right _ (List.mem_singleton.2 rfl))
      · next hcond =>
        have hin : JSKey.cell (y + d.1) (x + d.2) ∈ v := by
          by_contra hout
          exact hcond ⟨h1, h2, h3, h4, h5, h6, hout⟩
        exact pushLoop_visited_mono hin
    · rw [pushLoop]
      split
      · exact ih _ _ d hd2 h1 h2 h3 h4 h5 h6
      · exact ih _ _ d hd2 h1 h2 h3 h4 h5 h6

/-- The offsets of `dirs4` give orthogonally adjacent cells. -/
theorem adjB_offset (c : Cell) {δ : Cell} (hδ : δ ∈ dirs4) :
    adjB c (c.1 + δ.1, c.2 + δ.2) = true := by
  fin_cases hδ <;> (simp only [adjB, jsAbs, beq_iff_eq]; omega)

/-- An open cell is in bounds of a rectangular grid. -/
theorem open_in_bounds {g : Grid} (hwf : WellFormed g) {y x : Int}
    (h : cellAt g y x = 0) :
    0 ≤ y ∧ y < gridH g ∧ 0 ≤ x ∧ x < gridW g := by
  unfold cellAt at h
  by_cases hpos : 0 ≤ y ∧ 0 ≤ x
  · rw [if_pos hpos] at h
    by_cases hy : y.toNat < g.length
    · have hrow : g.getD y.toNat [] ∈ g := by
        rw [List.getD_eq_getElem?_getD, List.getElem?_eq_getElem hy]
        exact List.getElem_mem _
      by_cases hx : x.toNat < (g.getD y.toNat []).length
      · have := hwf _ hrow
        unfold gridH gridW
        omega
      · rw [List.getD_eq_getElem?_getD (g.getD y.toNat []),
          List.getElem?_eq_none (by omega), Option.getD_none] at h
        cases h
    · rw [List.getD_eq_getElem?_getD g, List.getElem?_eq_none (by omega),
        Option.getD_none] at h
      simp at h
  · rw [if_neg hpos] at h
    cases h

/-- Keys already visited stay visited across the whole BFS loop. -/
theorem bfsCore_visited_mono (g : Grid) (height width : Int)
    (stop extraOk : Cell → Bool) :
    ∀ (fuel : Nat) (queue : List (Cell × Nat)) (v : List JSKey)
      (pops : List (Cell × Nat)) {k : JSKey}, k ∈ v →
      k ∈ (bfsCore g height width stop extraOk fuel queue v pops).1 := by
  intro fuel
  induction fuel with
  | zero =>
    intro queue v pops k hk
    cases queue with
    | nil => rw [bfsCore]; exact hk
    | cons p rest => rw [bfsCore]; exact hk
  | succ n ih =>
    intro queue v pops k hk
    cases queue with
    | nil => rw [bfsCore]; exact hk
    | cons p rest =>
      obtain ⟨c, d⟩ := p
      rw [bfsCore]
      split
      · exact hk
      · exact ih _ _ _ (pushLoop_visited_mono hk)

/-- Pops already recorded stay recorded across the whole BFS loop. -/
theorem bfsCore_pops_prefix (g : Grid) (height width : Int)
    (stop extraOk : Cell → Bool) :
    ∀ (fuel : Nat) (queue : List (Cell × Nat)) (v : List JSKey)
      (pops : List (Cell × Nat)), ∃ qs,
      (bfsCore g height width stop extraOk fuel queue v pops).2.1 = pops ++ qs := by
  intro fuel
  induction fuel with
  | zero =>
    intro queue v pops
    cases queue with
    | nil => rw [bfsCore]; exact ⟨[], by simp⟩
    | cons p rest => rw [bfsCore]; exact ⟨[], by simp⟩
  | succ n ih =>
    intro queue v pops
    cases queue with
    | nil => rw [bfsCore]; exact ⟨[], by simp⟩
    | cons p rest =>
      obtain ⟨c, d⟩ := p
      rw [bfsCore]
      split
      · exact ⟨[(c, d)], rfl⟩
      · obtain ⟨qs, hqs⟩ := ih
          (rest ++ (pushLoop g height width extraOk c.1 c.2 d dirs4 v []).2)
          (pushLoop g height width extraOk c.1 c.2 d dirs4 v []).1
          (pops ++ [(c, d)])
        exact ⟨(c, d) :: qs, by rw [hqs]; simp⟩

/-- BFS soundness, pop side: every popped cell satisfies any property `R`
that holds of the queued cells and is closed under single steps into open
cells. -/
theorem bfsCore_pops_sound (g : Grid) (height width : Int)
    (stop extraOk : Cell → Bool) (R : Cell → Prop)
    (hclose : ∀ c n : Cell, R c → stepRel g c n → R n) :
    ∀ (fuel : Nat) (queue : List (Cell × Nat)) (v : List JSKey)
      (pops : List (Cell × Nat)),
      (∀ p ∈ queue, R p.1) → (∀ p ∈ pops, R p.1) →
      ∀ p ∈ (bfsCore g height width stop extraOk fuel queue v pops).2.1, R p.1 := by
  intro fuel
  induction fuel with
  | zero =>
    intro queue v pops hq hp
    cases queue with
    | nil => rw [bfsCore]; exact hp
    | cons p rest => rw [bfsCore]; exact hp
  | succ n ih =>
    intro queue v pops hq hp
    cases queue with
    | nil => rw [bfsCore]; exact hp
    | cons p0 rest =>
      obtain ⟨c, d⟩ := p0
      rw [bfsCore]
      split
      · intro p hmem
        rcases List.mem_append.1 hmem with h1 | h1
        · exact hp p h1
        · rcases List.mem_singleton.1 h1 with rfl
          exact hq _ (List.mem_cons_self ..)
      · refine ih _ _ _ ?_ ?_
        · intro p hmem
          rcases List.mem_append.1 hmem with h1 | h1
          · exact hq p (List.mem_cons_of_mem _ h1)
          · obtain ⟨new, _, h2, h3⟩ :=
              pushLoop_spec g height width extraOk c.1 c.2 d dirs4 v []
            rw [h2, List.nil_append] at h1
            obtain ⟨n0, hn0, hpn⟩ := List.mem_map.1 h1
            obtain ⟨⟨δ, hδ, hoff⟩, _, _, _, _, hopen, _⟩ := h3 n0 hn0
            have hstep : stepRel g c n0 := by
              refine ⟨?_, hopen⟩
              rw [hoff]
              exact adjB_offset c hδ
            have := hclose c n0 (hq _ (List.mem_cons_self ..)) hstep
            rw [← hpn]
            exact this
        · intro p hmem
          rcases List.mem_append.1 hmem with h1 | h1
          · exact hp p h1
          · rcases List.mem_singleton.1 h1 with rfl
            exact hq _ (List.mem_cons_self ..)

/-- BFS soundness, visited side: every cell key in the final visited set
satisfies `R` (same hypotheses, plus `R` for the cells behind the initially
visited keys). -/
theorem bfsCore_visited_sound (g : Grid) (height width : Int)
    (stop extraOk : Cell → Bool) (R : Cell → Prop)
    (hclose : ∀ c n : Cell, R c → stepRel g c n → R n) :
    ∀ (fuel : Nat) (queue : List (Cell × Nat)) (v : List JSKey)
      (pops : List (Cell × Nat)),
      (∀ p ∈ queue, R p.1) →
      (∀ cy cx : Int, JSKey.cell cy cx ∈ v → R (cy, cx)) →
      ∀ cy cx : Int,
        JSKey.cell cy cx ∈ (bfsCore g height width stop extraOk fuel queue v pops).1 →
        R (cy, cx) := by
  intro fuel
  induction fuel with
  | zero =>
    intro queue v pops hq hv cy cx hmem
    cases queue with
    | nil => rw [bfsCore] at hmem; exact hv cy cx hmem
    | cons p rest => rw [bfsCore] at hmem; exact hv cy cx hmem
  | succ n ih =>
    intro queue v pops hq hv cy cx hmem
    cases queue with
    | nil => rw [bfsCore] at hmem; exact hv cy cx hmem
    | cons p0 rest =>
      obtain ⟨c, d⟩ := p0
      rw [bfsCore] at hmem
      split at hmem
      · exact hv cy cx hmem
      · refine ih _ _ _ ?_ ?_ cy cx hmem
        · intro p hp2
          rcases List.mem_append.1 hp2 with h1 | h1
          · exact hq p (List.mem_cons_of_mem _ h1)
          · obtain ⟨new, _, h2, h3⟩ :=
              pushLoop_spec g height width extraOk c.1 c.2 d dirs4 v []
            rw [h2, List.nil_append] at h1
            obtain ⟨n0, hn0, hpn⟩ := List.mem_map.1 h1
            obtain ⟨⟨δ, hδ, hoff⟩, _, _, _, _, hopen, _⟩ := h3 n0 hn0
            have hstep : stepRel g c n0 := by
              refine ⟨?_, hopen⟩
              rw [hoff]
              exact adjB_offset c hδ
            have := hclose c n0 (hq _ (List.mem_cons_self ..)) hstep
            rw [← hpn]
            exact this
        · intro ay ax haxy
          obtain ⟨new, h1, _, h3⟩ :=
            pushLoop_spec g height width extraOk c.1 c.2 d dirs4 v []
          rw [h1] at haxy
          rcases List.mem_append.1 haxy with h4 | h4
          · exact hv ay ax h4
          · obtain ⟨n0, hn0, hpn⟩ := List.mem_map.1 h4
            obtain ⟨⟨δ, hδ, hoff⟩, _, _, _, _, hopen, _⟩ := h3 n0 hn0
            have hstep : stepRel g c n0 := by
              refine ⟨?_, hopen⟩
              rw [hoff]
              exact adjB_offset c hδ
            have hr := hclose c n0 (hq _ (List.mem_cons_self ..)) hstep
            cases hpn
            exact hr

/-- BFS completeness core: with fuel at least the loop's measure and a stop
predicate that never fires, the final visited set is closed under moves into
in-bounds open extra-approved neighbours — provided every initially visited
cell is either still queued or already closed. -/
theorem bfsCore_closure (g : Grid) (height width : Int) (extraOk : Cell → Bool) :
    ∀ (fuel : Nat) (queue : List (Cell × Nat)) (v : List JSKey)
      (pops : List (Cell × Nat)),
      2 * missingCount height width v + queue.length ≤ fuel →
      (∀ cy cx : Int, JSKey.cell cy cx ∈ v →
        ((cy, cx) ∈ queue.map Prod.fst ∨
         ∀ n ∈ nbrsOf (cy, cx), 0 ≤ n.1 → n.1 < height → 0 ≤ n.2 → n.2 < width →
           cellAt g n.1 n.2 = 0 → extraOk n = true → JSKey.cell n.1 n.2 ∈ v)) →
      ∀ cy cx : Int,
        JSKey.cell cy cx ∈
          (bfsCore g height width (fun _ => false) extraOk fuel queue v pops).1 →
        ∀ n ∈ nbrsOf (cy, cx), 0 ≤ n.1 → n.1 < height → 0 ≤ n.2 → n.2 < width →
          cellAt g n.1 n.2 = 0 → extraOk n = true →
          JSKey.cell n.1 n.2 ∈
            (bfsCore g height width (fun _ => false) extraOk fuel queue v pops).1 := by
  intro fuel
  induction fuel with
  | zero =>
    intro queue v pops hfuel hinv cy cx hmem
    cases queue with
    | nil =>
      rw [bfsCore] at hmem ⊢
      rcases hinv cy cx hmem with hleft | hright
      · simp at hleft
      · exact hright
    | cons p0 rest =>
      exfalso
      rw [List.length_cons] at hfuel
      omega
  | succ nf ih =>
    intro queue v pops hfuel hinv cy cx hmem
    cases queue with
    | nil =>
      rw [bfsCore] at hmem ⊢
      rcases hinv cy cx hmem with hleft | hright
      · simp at hleft
      · exact hright
    | cons p0 rest =>
      obtain ⟨c, d⟩ := p0
      have hcond : ¬((fun _ : Cell => false) c = true) := by simp
      rw [bfsCore, if_neg hcond] at hmem ⊢
      obtain ⟨new, h1, h2, h3⟩ :=
        pushLoop_spec g height width extraOk c.1 c.2 d dirs4 v []
      have hmem' : JSKey.cell cy cx ∈
          (bfsCore g height width (fun _ => false) extraOk nf
            (rest ++ (pushLoop g height width extraOk c.1 c.2 d dirs4 v []).2)
            (pushLoop g height width extraOk c.1 c.2 d dirs4 v []).1
            (pops ++ [(c, d)])).1 := hmem
      have hfuel' : 2 * missingCount height width
            (pushLoop g height width extraOk c.1 c.2 d dirs4 v []).1 +
          (rest ++ (pushLoop g height width extraOk c.1 c.2 d dirs4 v []).2).length ≤ nf := by
        have hms := pushLoop_measure g height width extraOk c.1 c.2 d dirs4 v []
        rw [List.length_append]
        rw [List.length_cons] at hfuel
        simp only [List.length_nil] at hms
        omega
      have hinv' : ∀ ay ax : Int,
          JSKey.cell ay ax ∈ (pushLoop g height width extraOk c.1 c.2 d dirs4 v []).1 →
          ((ay, ax) ∈ (rest ++
              (pushLoop g height width extraOk c.1 c.2 d dirs4 v []).2).map Prod.fst ∨
           ∀ n ∈ nbrsOf (ay, ax), 0 ≤ n.1 → n.1 < height → 0 ≤ n.2 → n.2 < width →
             cellAt g n.1 n.2 = 0 → extraOk n = true →
             JSKey.cell n.1 n.2 ∈
               (pushLoop g height width extraOk c.1 c.2 d dirs4 v []).1) := by
        intro ay ax hv'
        rw [h1] at hv'
        rcases List.mem_append.1 hv' with hold | hnew
        · rcases hinv ay ax hold with hleft | hright
          · rw [List.map_cons] at hleft
            rcases List.mem_cons.1 hleft with heq | hrest
            · right
              intro n hn hb1 hb2 hb3 hb4 hopen hex
              rw [heq] at hn
              obtain ⟨δ, hδ, hoffn⟩ := List.mem_map.1 hn
              rw [← hoffn] at hb1 hb2 hb3 hb4 hopen hex ⊢
              exact pushLoop_covers g height width extraOk c.1 c.2 d dirs4 v [] δ hδ
                hb1 hb2 hb3 hb4 hopen hex
            · left
              rw [List.map_append]
              exact List.mem_append_left _ hrest
          · right
            intro n hn hb1 hb2 hb3 hb4 hopen hex
            exact pushLoop_visited_mono (hright n hn hb1 hb2 hb3 hb4 hopen hex)
        · left
          obtain ⟨n0, hn0, hkey⟩ := List.mem_map.1 hnew
          have e1 : n0.1 = ay := congrArg (fun k => match k with
            | JSKey.cell a _ => a | JSKey.char _ => 0) hkey
          have e2 : n0.2 = ax := congrArg (fun k => match k with
            | JSKey.cell _ b => b | JSKey.char _ => 0) hkey
          rw [List.map_append]
          refine List.mem_append_right _ ?_
          rw [h2, List.nil_append, List.map_map]
          have : (ay, ax) = n0 := by
            rw [← e1, ← e2]
          rw [this]
          exact List.mem_map.2 ⟨n0, hn0, rfl⟩
      exact ih _ _ _ hfuel' hinv' cy cx hmem'

/-- BFS completeness, run form: a cell reachable from the seed (in the
`SeededReach` sense) has its key in the final visited set of the stopless
unfiltered run seeded with the reference's full cell key. -/
theorem bfsRun_complete {g : Grid} (hwf : WellFormed g) {s c : Cell}
    (h : SeededReach g s c) :
    JSKey.cell c.1 c.2 ∈
      (bfsRun g (gridH g) (gridW g) (fun _ => false) (fun _ => true)
        [(s, 0)] [JSKey.cell s.1 s.2]).1 := by
  have hinv : ∀ cy cx : Int, JSKey.cell cy cx ∈ [JSKey.cell s.1 s.2] →
      ((cy, cx) ∈ ([((s : Cell), (0 : Nat))]).map Prod.fst ∨
       ∀ n ∈ nbrsOf (cy, cx), 0 ≤ n.1 → n.1 < gridH g → 0 ≤ n.2 → n.2 < gridW g →
         cellAt g n.1 n.2 = 0 → (fun _ : Cell => true) n = true →
         JSKey.cell n.1 n.2 ∈ [JSKey.cell s.1 s.2]) := by
    intro cy cx hv
    left
    rcases List.mem_singleton.1 hv with hk
    have e1 : cy = s.1 := congrArg (fun k => match k with
      | JSKey.cell a _ => a | JSKey.char _ => 0) hk
    have e2 : cx = s.2 := congrArg (fun k => match k with
      | JSKey.cell _ b => b | JSKey.char _ => 0) hk
    simp only [List.map_cons, List.map_nil, List.mem_singleton]
    rw [e1, e2]
  induction h with
  | refl => exact bfsCore_visited_mono _ _ _ _ _ _ _ _ _ (List.mem_singleton.2 rfl)
  | @tail b c hr hstep ih =>
    have hb := open_in_bounds hwf hstep.2
    have hcl := bfsCore_closure g (gridH g) (gridW g) (fun _ => true)
      (2 * missingCount (gridH g) (gridW g) [JSKey.cell s.1 s.2] +
        ([((s : Cell), (0 : Nat))]).length)
      [(s, 0)] [JSKey.cell s.1 s.2] [] (le_refl _) hinv b.1 b.2 ih c
      (adjB_mem_nbrs hstep.1) hb.1 hb.2.1 hb.2.2.1 hb.2.2.2 hstep.2 rfl
    exact hcl

/-- BFS soundness, stop side: if the loop reports that the stop predicate
fired, some cell satisfying both `stop` and `R` was popped. -/
theorem bfsCore_stop_sound (g : Grid) (height width : Int)
    (stop extraOk : Cell → Bool) (R : Cell → Prop)
    (hclose : ∀ c n : Cell, R c → stepRel g c n → R n) :
    ∀ (fuel : Nat) (queue : List (Cell × Nat)) (v : List JSKey)
      (pops : List (Cell × Nat)),
      (∀ p ∈ queue, R p.1) →
      (bfsCore g height width stop extraOk fuel queue v pops).2.2 = true →
      ∃ c, stop c = true ∧ R c := by
  intro fuel
  induction fuel with
  | zero =>
    intro queue v pops hq hstop
    cases queue with
    | nil => rw [bfsCore] at hstop; cases hstop
    | cons p rest => rw [bfsCore] at hstop; cases hstop
  | succ n ih =>
    intro queue v pops hq hstop
    cases queue with
    | nil => rw [bfsCore] at hstop; cases hstop
    | cons p0 rest =>
      obtain ⟨c, d⟩ := p0
      rw [bfsCore] at hstop
      split at hstop
      · next hs => exact ⟨c, hs, hq _ (List.mem_cons_self ..)⟩
      · refine ih _ _ _ ?_ hstop
        intro p hp2
        rcases List.mem_append.1 hp2 with h1 | h1
        · exact hq p (List.mem_cons_of_mem _ h1)
        · obtain ⟨new, _, h2, h3⟩ :=
            pushLoop_spec g height width extraOk c.1 c.2 d dirs4 v []
          rw [h2, List.nil_append] at h1
          obtain ⟨n0, hn0, hpn⟩ := List.mem_map.1 h1
          obtain ⟨⟨δ, hδ, hoff⟩, _, _, _, _, hopen, _⟩ := h3 n0 hn0
          have hstep : stepRel g c n0 := by
            refine ⟨?_, hopen⟩
            rw [hoff]
            exact adjB_offset c hδ
          have := hclose c n0 (hq _ (List.mem_cons_self ..)) hstep
          rw [← hpn]
          exact this

end Maze

namespace Maze

/-- C10: for every requested size, the hedge generator's emitted artifact
carries the adjusted dimensions: an even requested width or height is
silently incremented by one (so the emitted value is the requested even
value plus 1, always odd), and an odd one is kept. -/
theorem hedge_dims_adjusted (w h : Int) (rng : Rng) :
    (generateHedgeMaze w h rng).1.width = (if w % 2 = 0 then w + 1 else w) ∧
    (generateHedgeMaze w h rng).1.height = (if h % 2 = 0 then h + 1 else h) :=
  ⟨rfl, rfl⟩

/-- C5: evaluating the connectivity verifier at the failing input (a 3×3
grid whose only passage cell is the reference (1,1)): the single open cell
is trivially reachable from the reference, so the spec requires a
reachable count of 1 (equal to the open-cell total) and the FULLY
CONNECTED status; the code instead reports `reachableCells = 2` (the
`new Set(string)` quirk counts the two characters of the seed string "1,1"
and never marks the reference) and DISCONNECTED. -/
theorem verify_connectivity_miscounts :
    openCellsOf cexCenter = [(1, 1)] ∧
    SeededReach cexCenter (1, 1) (1, 1) ∧
    (verifyFullConnectivity cexCenter (1, 1)).totalOpenCells = 1 ∧
    (verifyFullConnectivity cexCenter (1, 1)).reachableCells = 2 ∧
    (verifyFullConnectivity cexCenter (1, 1)).connectivityStatus = "DISCONNECTED" :=
  ⟨by decide, Relation.ReflTransGen.refl, by decide, by decide, by decide⟩

/-- C9 (counterexample): an artifact whose start coincides with a wall
entry is NOT rejected by the solver's parser: it parses successfully (the
wall character is silently overwritten with the start marker). -/
theorem parse_accepts_wall_start :
    cexWallStart.start ∈ cexWallStart.walls ∧
    (parseMazeFromJson cexWallStart).isOk = true :=
  ⟨by decide, by decide⟩

/-- C9 (amended): for positive dimensions, the solver's parser rejects an
artifact exactly when start or end lies outside `[1,height] × [1,width]`;
a start or end on a wall entry is not rejected. -/
theorem parse_rejects_only_oob (m : MazeObj) (hw : 1 ≤ m.width) (hh : 1 ≤ m.height) :
    (parseMazeFromJson m).isOk = false ↔
      (m.start.1 < 1 ∨ m.start.1 > m.height ∨ m.start.2 < 1 ∨ m.start.2 > m.width ∨
       m.goal.1 < 1 ∨ m.goal.1 > m.height ∨ m.goal.2 < 1 ∨ m.goal.2 > m.width) := by
  unfold parseMazeFromJson
  have h1 : ¬(m.width = 0 ∨ m.height = 0) := by omega
  have h2 : ¬(1 ≤ m.height ∧ m.width < 0) := by omega
  rw [if_neg h1, if_neg h2]
  simp only [Except.isOk]
  split_ifs with h3 h4
  · constructor
    · intro _
      omega
    · intro _
      rfl
  · constructor
    · intro _
      omega
    · intro _
      rfl
  · constructor
    · intro hfalse
      simp [Except.isOk, Except.toBool] at hfalse
    · intro hoob
      exfalso
      omega

/-- C9 (witness): the amended rejection criterion evaluated at the
wall-start artifact: its start and end are in bounds, so it is accepted. -/
theorem parse_rejects_only_oob_witness :
    (parseMazeFromJson cexWallStart).isOk = false ↔
      (cexWallStart.start.1 < 1 ∨ cexWallStart.start.1 > cexWallStart.height ∨
       cexWallStart.start.2 < 1 ∨ cexWallStart.start.2 > cexWallStart.width ∨
       cexWallStart.goal.1 < 1 ∨ cexWallStart.goal.1 > cexWallStart.height ∨
       cexWallStart.goal.2 < 1 ∨ cexWallStart.goal.2 > cexWallStart.width) :=
  parse_rejects_only_oob cexWallStart (by decide) (by decide)

set_option maxRecDepth 8000

/-- C2 (counterexample): on the corridor grid the primary placement search
succeeds — for the all-zeros random outcome it selects the pair
((2,1),(2,11)) with recorded BFS distance 10, which `findOptimalStartEndPair`
returns without entering any fallback tier — yet the two rows coincide, so
`|rowStart - rowEnd| = 0` is NOT at least `max(width,height)/2 = 6.5`. -/
theorem primary_separation_cex :
    RngOk [] ∧
    primaryPlacement cexCorridor 5 13 [] = some ((2, 1), (2, 11), 10) ∧
    (findOptimalStartEndPair cexCorridor 5 13 []).1 = ((2, 1), (2, 11)) ∧
    2 * jsAbs ((2 : Int) - 2) < max 13 5 := by
  refine ⟨?_, by decide, by decide, by decide⟩
  intro q hq
  cases hq

/-- C3 (counterexample): a 5×5 grid with two open cells (hence at least
two), on which EVERY random outcome makes the optimizer return the same
cell for start and end: the all-zeros outcome shown here yields
start = end = (1,1), because `findFurthestCell` re-discovers its own start
cell (the `new Set(string)` quirk) and overwrites its distance to 2, which
passes the minimum-distance bar on a 5×5 grid. -/
theorem optimizer_self_pair_cex :
    RngOk [] ∧
    (interiorOpenCells cexTwoCells 5 5).length = 2 ∧
    (findOptimalStartEndPair cexTwoCells 5 5 []).1.1 =
      (findOptimalStartEndPair cexTwoCells 5 5 []).1.2 := by
  refine ⟨?_, by decide, by decide⟩
  intro q hq
  cases hq

/-- Any `some` answer of `bestFold` is a genuine scan result: its recorded
distance is the `findFurthestCell` distance of its start point and meets the
minimum-distance bar (provided the initial accumulator already did). -/
theorem bestFold_some {g : Grid} {height width : Int} {openCells : List Cell}
    {minReq : Int} : ∀ {pts : List Cell} {init : Option (Cell × Cell × Nat)},
    (∀ t, init = some t →
      findFurthestCell g height width openCells t.1 = (some t.2.1, t.2.2) ∧
      minReq ≤ (t.2.2 : Int)) →
    ∀ t, bestFold g height width openCells minReq pts init = some t →
      findFurthestCell g height width openCells t.1 = (some t.2.1, t.2.2) ∧
      minReq ≤ (t.2.2 : Int) := by
  intro pts
  induction pts with
  | nil => intro init hinit t ht; exact hinit t ht
  | cons sp rest ih =>
    intro init hinit t ht
    rw [bestFold, List.foldl_cons] at ht
    refine ih ?_ t (by rw [bestFold]; exact ht)
    intro u hu
    dsimp only at hu
    rcases hr : (findFurthestCell g height width openCells sp).1 with _ | c
    · rw [hr] at hu
      dsimp only at hu
      exact hinit u hu
    · rw [hr] at hu
      dsimp only at hu
      by_cases hge : ((findFurthestCell g height width openCells sp).2 : Int) ≥ minReq
      · rw [if_pos hge] at hu
        split_ifs at hu with hgt
        · cases hu
          refine ⟨?_, hge⟩
          rw [← hr]
        · exact hinit u hu
      · rw [if_neg hge] at hu
        exact hinit u hu

/-- C2 (amended): when the primary placement search succeeds with
`(start, end, d)`, then `d` is the recorded BFS distance of that pair
(`findFurthestCell` from `start` returned `end` at distance `d`) and `d` is
at least `max(floor(height/2), floor(width/2))` — the minimum-distance bar
the primary tier actually enforces.  (The row/column separation the spec
asks for is NOT enforced; see the counterexample.) -/
theorem primary_success_distance (g : Grid) (height width : Int) (rng : Rng)
    (s e : Cell) (d : Nat)
    (hp : primaryPlacement g height width rng = some (s, e, d)) :
    findFurthestCell g height width (interiorOpenCells g height width) s =
      (some e, d) ∧
    max (jsFloor (qdiv (qofInt height) (qofInt 2)))
      (jsFloor (qdiv (qofInt width) (qofInt 2))) ≤ (d : Int) :=
  bestFold_some (fun t ht => by cases ht) (s, e, d) hp

/-- C2 (amended, witness): the corridor run evaluated at the theorem: the
primary tier's pair ((2,1),(2,11)) has recorded distance 10 ≥ max(2,6). -/
theorem primary_success_distance_witness :
    findFurthestCell cexCorridor 5 13 (interiorOpenCells cexCorridor 5 13) (2, 1) =
      (some (2, 11), 10) ∧
    max (jsFloor (qdiv (qofInt 5) (qofInt 2)))
      (jsFloor (qdiv (qofInt 13) (qofInt 2))) ≤ ((10 : Nat) : Int) :=
  primary_success_distance cexCorridor 5 13 [] (2, 1) (2, 11) 10 (by decide)

/-- C8 (counterexample): with the reference cell (0,0) on a wall, the
repairer does not fail: it silently carves (the 1×3 grid comes back fully
open) and returns a connection count of 1 as if a normal repair happened. -/
theorem repair_wall_reference_carves :
    cellAt cexRow 0 0 = 1 ∧
    ensureFullConnectivity cexRow (0, 0) [] = (([[0, 0, 0]], 1), []) :=
  ⟨by decide, by decide⟩

/-- A 0-indexed walk on the rebuilt artifact grid shifts to a 1-indexed
walk on the artifact: bounds come from openness, and absence from the wall
list from `gridOfWalls_wall`. -/
theorem mazeWalk_of_walk {m : MazeObj} {p : List Cell}
    (hw : IsWalkBetween (gridOfWalls m.height m.width m.walls) p
      (m.start.1 - 1, m.start.2 - 1) (m.goal.1 - 1, m.goal.2 - 1)) :
    MazeWalk m (p.map (fun c => (c.1 + 1, c.2 + 1))) := by
  obtain ⟨hh, hl, hch, hop⟩ := hw
  have hdims := gridOfWalls_dims m.height m.width m.walls
  have hshift : ∀ z : Int, z - 1 + 1 = z := fun z => by ring
  refine ⟨?_, ?_, ?_, ?_⟩
  · rw [List.head?_map, hh, Option.map_some']
    dsimp only
    rw [hshift, hshift]
  · rw [List.getLast?_map, hl, Option.map_some']
    dsimp only
    rw [hshift, hshift]
  · rw [List.chain'_map]
    refine hch.imp ?_
    intro a b hab
    rw [adjB_shift]
    exact hab
  · intro cc hcc
    obtain ⟨c0, hc0, rfl⟩ := List.mem_map.1 hcc
    have hopen := hop c0 hc0
    have hb := open_in_bounds hdims.wellFormed hopen
    rw [gridH_of_dims hdims] at hb
    have hpos : 0 < m.height.toNat := by omega
    rw [gridW_of_dims hdims hpos] at hb
    refine ⟨by dsimp only; omega, by dsimp only; omega,
      by dsimp only; omega, by dsimp only; omega, ?_⟩
    intro hmem
    have hwall := @gridOfWalls_wall m.height m.width m.walls (c0.1 + 1, c0.2 + 1)
      hmem ⟨by dsimp only; omega, by dsimp only; omega,
       by dsimp only; omega, by dsimp only; omega⟩
    dsimp only at hwall
    have e1 : c0.1 + 1 - 1 = c0.1 := by ring
    have e2 : c0.2 + 1 - 1 = c0.2 := by ring
    rw [e1, e2] at hwall
    omega

/-- A successful `pathExists` run certifies a start-to-end walk on the
artifact (BFS pop soundness turned into an explicit walk). -/
theorem pathExists_walk {m : MazeObj} (h : pathExists m = true) :
    ∃ p, MazeWalk m p := by
  simp only [pathExists] at h
  split at h
  case isTrue => cases h
  case isFalse hguard =>
    push_neg at hguard
    obtain ⟨hg1, hg2, hg3, hg4, hg5, hg6, hg7, hg8, hg9, hg10⟩ := hguard
    have hs0 : cellAt (gridOfWalls m.height m.width m.walls)
        (m.start.1 - 1) (m.start.2 - 1) = 0 := by
      rcases gridOfWalls_cell01 m.height m.width m.walls
        (m.start.1 - 1) (m.start.2 - 1) with h0 | h1
      · exact h0
      · exact absurd h1 hg9
    obtain ⟨cstop, hstopT, hreach⟩ := bfsCore_stop_sound
      (gridOfWalls m.height m.width m.walls) m.height m.width
      (fun c => decide (c = (m.goal.1 - 1, m.goal.2 - 1))) (fun _ => true)
      (SeededReach (gridOfWalls m.height m.width m.walls)
        (m.start.1 - 1, m.start.2 - 1))
      (fun _ _ hr hst => hr.tail hst) _ _ _ _
      (fun p hp => by
        rcases List.mem_singleton.1 hp with rfl
        exact Relation.ReflTransGen.refl) h
    have hce : cstop = (m.goal.1 - 1, m.goal.2 - 1) := of_decide_eq_true hstopT
    subst hce
    obtain ⟨p, hp⟩ := seededReach_walk hs0 hreach
    exact ⟨_, mazeWalk_of_walk hp⟩

/-- The anti-bot finalize step always leaves a start-to-end walk: either
its verification BFS already found the end (soundness gives reachability),
or `fixConnectivity` carves a direct corridor (which is a walk). -/
theorem antiBotFinalize_walk {g : Grid} {H W : Nat} {s e : Cell}
    (hdims : GridDims g H W) (hs : cellAt g s.1 s.2 = 0)
    (he1 : 0 ≤ e.1) (he2 : e.1 < (H : Int)) (he3 : 0 ≤ e.2)
    (he4 : e.2 < (W : Int)) :
    ∃ p, IsWalkBetween (antiBotFinalize g s e) p s e := by
  unfold antiBotFinalize
  split_ifs with hconn
  · simp only [calculateShortestPath] at hconn
    split_ifs at hconn with hr
    · obtain ⟨cstop, hstopT, hreach⟩ := bfsCore_stop_sound g (gridH g) (gridW g)
        (fun c => decide (c = e)) (fun _ => true) (SeededReach g s)
        (fun _ _ hrr hst => hrr.tail hst) _ _ _ _
        (fun p hp => by
          rcases List.mem_singleton.1 hp with rfl
          exact Relation.ReflTransGen.refl) hr
      have hce : cstop = e := of_decide_eq_true hstopT
      subst hce
      exact seededReach_walk hs hreach
    · exact absurd hconn (lt_irrefl 0)
  · unfold fixConnectivity carveToward
    have hsb := open_in_bounds hdims.wellFormed hs
    rw [gridH_of_dims hdims] at hsb
    have hpos : 0 < H := by omega
    rw [gridW_of_dims hdims hpos] at hsb
    exact carveTowardGo_walk e he1 he2 he3 he4 _ g [] s hdims rfl
      hsb.1 hsb.2.1 hsb.2.2.1 hsb.2.2.2 hs

/-- A drawn random value is in `[0,1)` (an exhausted stream draws 0) and
the rest of the stream stays well-formed. -/
theorem rngNext_ok {r : Rng} (h : RngOk r) :
    0 ≤ (rngNext r).1 ∧ (rngNext r).1 < 1 ∧ RngOk (rngNext r).2 := by
  cases r with
  | nil =>
    refine ⟨le_refl 0, by show (0 : ℚ) < 1; norm_num, ?_⟩
    intro q hq
    cases hq
  | cons a as =>
    have ha := h a (List.mem_cons_self ..)
    exact ⟨ha.1, ha.2, fun q hq => h q (List.mem_cons_of_mem _ hq)⟩

/-- `Math.floor(Math.random() * n)` lands in `[0, n)` for positive `n`. -/
theorem randIdx_range {r : Rng} (h : RngOk r) {n : Int} (hn : 0 < n) :
    0 ≤ (randIdx r n).1 ∧ (randIdx r n).1 < n ∧ RngOk (randIdx r n).2 := by
  obtain ⟨h1, h2, h3⟩ := rngNext_ok h
  refine ⟨?_, ?_, h3⟩
  · show (0 : Int) ≤ jsFloor (qmul (rngNext r).1 (qofInt n))
    rw [qmul_eq, qofInt_eq]
    unfold jsFloor
    refine Int.le_floor.2 ?_
    push_cast
    exact mul_nonneg h1 (by exact_mod_cast hn.le)
  · show jsFloor (qmul (rngNext r).1 (qofInt n)) < n
    rw [qmul_eq, qofInt_eq]
    unfold jsFloor
    refine Int.floor_lt.2 ?_
    calc (rngNext r).1 * (n : ℚ) < 1 * (n : ℚ) :=
          mul_lt_mul_of_pos_right h2 (by exact_mod_cast hn)
    _ = (n : ℚ) := one_mul _

/-- `getD` inside the list's range is a member. -/
theorem getD_mem_of_lt {α : Type} {l : List α} {i : Nat} (h : i < l.length)
    (d : α) : l.getD i d ∈ l := by
  rw [List.getD_eq_getElem?_getD, List.getElem?_eq_getElem h]
  exact List.getElem_mem _

/-- The region picker only picks cells of its input list, and keeps the
random stream well-formed. -/
theorem pickRegionPoints_spec :
    ∀ (fuel i : Nat) (cells : List Cell) (rng : Rng), RngOk rng →
      (∀ c ∈ (pickRegionPoints fuel i cells rng).1, c ∈ cells) ∧
      RngOk (pickRegionPoints fuel i cells rng).2 := by
  intro fuel
  induction fuel with
  | zero =>
    intro i cells rng h
    rw [pickRegionPoints]
    exact ⟨fun c hc => absurd hc (List.not_mem_nil c), h⟩
  | succ n ih =>
    intro i cells rng h
    rw [pickRegionPoints]
    split
    · next hguard =>
      have hlen : 0 < cells.length := by omega
      have hr := randIdx_range h (n := (cells.length : Int)) (by exact_mod_cast hlen)
      obtain ⟨hmem, hrok⟩ := ih (i + 1)
        (cells.eraseIdx (randIdx rng (cells.length : Int)).1.toNat)
        (randIdx rng (cells.length : Int)).2 hr.2.2
      constructor
      · intro c hc
        rcases List.mem_cons.1 hc with rfl | h2
        · refine getD_mem_of_lt ?_ _
          have := hr.1
          have := hr.2.1
          omega
        · exact List.mem_of_mem_eraseIdx (hmem c h2)
      · exact hrok
    · exact ⟨fun c hc => absurd hc (List.not_mem_nil c), h⟩

/-- The 10-random-points picker: picks and leftover copy both come from the
input copy; the stream stays well-formed. -/
theorem pickRandomPoints_spec :
    ∀ (fuel i : Nat) (copy : List Cell) (rng : Rng), RngOk rng →
      (∀ c ∈ (pickRandomPoints fuel i copy rng).1, c ∈ copy) ∧
      (∀ c ∈ (pickRandomPoints fuel i copy rng).2.1, c ∈ copy) ∧
      RngOk (pickRandomPoints fuel i copy rng).2.2 := by
  intro fuel
  induction fuel with
  | zero =>
    intro i copy rng h
    rw [pickRandomPoints]
    exact ⟨fun c hc => absurd hc (List.not_mem_nil c), fun c hc => hc, h⟩
  | succ n ih =>
    intro i copy rng h
    rw [pickRandomPoints]
    split
    · next hguard =>
      have hlen : 0 < copy.length := hguard.2
      have hr := randIdx_range h (n := (copy.length : Int)) (by exact_mod_cast hlen)
      obtain ⟨hmem, hrest, hrok⟩ := ih (i + 1)
        (copy.eraseIdx (randIdx rng (copy.length : Int)).1.toNat)
        (randIdx rng (copy.length : Int)).2 hr.2.2
      refine ⟨?_, ?_, hrok⟩
      · intro c hc
        rcases List.mem_cons.1 hc with rfl | h2
        · refine getD_mem_of_lt ?_ _
          have := hr.1
          have := hr.2.1
          omega
        · exact List.mem_of_mem_eraseIdx (hmem c h2)
      · intro c hc
        exact List.mem_of_mem_eraseIdx (hrest c hc)
    · exact ⟨fun c hc => absurd hc (List.not_mem_nil c), fun c hc => hc, h⟩

/-- The expansion-tier picker: same containment properties. -/
theorem pickAdditional_spec :
    ∀ (fuel i : Nat) (copy : List Cell) (rng : Rng) (total : Nat), RngOk rng →
      (∀ c ∈ (pickAdditional fuel i copy rng total).1, c ∈ copy) ∧
      (∀ c ∈ (pickAdditional fuel i copy rng total).2.1, c ∈ copy) ∧
      RngOk (pickAdditional fuel i copy rng total).2.2 := by
  intro fuel
  induction fuel with
  | zero =>
    intro i copy rng total h
    exact ⟨fun c hc => absurd hc (List.not_mem_nil c), fun c hc => hc, h⟩
  | succ n ih =>
    intro i copy rng total h
    rw [pickAdditional.eq_def]
    dsimp only
    split
    · next hguard =>
      cases copy with
      | nil => exact ⟨fun c hc => absurd hc (List.not_mem_nil c), fun c hc => hc, h⟩
      | cons c0 cs =>
        have hlen : 0 < (c0 :: cs).length := by simp
        have hr := randIdx_range h (n := ((c0 :: cs).length : Int))
          (by exact_mod_cast hlen)
        obtain ⟨hmem, hrest, hrok⟩ := ih (i + 1)
          ((c0 :: cs).eraseIdx (randIdx rng ((c0 :: cs).length : Int)).1.toNat)
          (randIdx rng ((c0 :: cs).length : Int)).2 total hr.2.2
        refine ⟨?_, ?_, hrok⟩
        · intro c hc
          rcases List.mem_cons.1 hc with rfl | h2
          · refine getD_mem_of_lt ?_ _
            have := hr.1
            have := hr.2.1
            omega
          · exact List.mem_of_mem_eraseIdx (hmem c h2)
        · intro c hc
          exact List.mem_of_mem_eraseIdx (hrest c hc)
    · exact ⟨fun c hc => absurd hc (List.not_mem_nil c), fun c hc => hc, h⟩

/-- A cell reported by a region scan is open. -/
theorem mem_regionOpenCells {g : Grid} {height width : Int} {r : Region}
    {c : Cell} (h : c ∈ regionOpenCells g height width r) :
    cellAt g c.1 c.2 = 0 := by
  unfold regionOpenCells at h
  obtain ⟨y, _, hc⟩ := List.mem_flatMap.1 h
  obtain ⟨x, _, hfx⟩ := List.mem_filterMap.1 hc
  split_ifs at hfx with hcond
  cases hfx
  exact hcond.2.2

/-- A cell of the interior scan is open. -/
theorem mem_interiorOpenCells {g : Grid} {height width : Int} {c : Cell}
    (h : c ∈ interiorOpenCells g height width) : cellAt g c.1 c.2 = 0 := by
  unfold interiorOpenCells at h
  obtain ⟨y, _, hc⟩ := List.mem_flatMap.1 h
  obtain ⟨x, _, hfx⟩ := List.mem_filterMap.1 hc
  split_ifs at hfx with hcond
  cases hfx
  exact hcond

/-- The strategic points contributed by the regions are open cells, and the
stream stays well-formed. -/
theorem strategicFromRegions_spec (g : Grid) (height width : Int) (rng : Rng)
    (h : RngOk rng) :
    (∀ c ∈ (strategicFromRegions g height width rng).1, cellAt g c.1 c.2 = 0) ∧
    RngOk (strategicFromRegions g height width rng).2 := by
  unfold strategicFromRegions
  suffices hgen : ∀ (rs : List Region) (acc : List Cell × Rng),
      (∀ c ∈ acc.1, cellAt g c.1 c.2 = 0) → RngOk acc.2 →
      (∀ c ∈ (rs.foldl (fun (acc : List Cell × Rng) r =>
          let cells := regionOpenCells g height width r
          if cells.length > 0 then
            let (pts, rng') := pickRegionPoints 5 0 cells acc.2
            (acc.1 ++ pts, rng')
          else acc) acc).1, cellAt g c.1 c.2 = 0) ∧
      RngOk ((rs.foldl (fun (acc : List Cell × Rng) r =>
          let cells := regionOpenCells g height width r
          if cells.length > 0 then
            let (pts, rng') := pickRegionPoints 5 0 cells acc.2
            (acc.1 ++ pts, rng')
          else acc) acc)).2 by
    exact hgen _ ([], rng) (fun c hc => absurd hc (List.not_mem_nil c)) h
  intro rs
  induction rs with
  | nil => intro acc h1 h2; exact ⟨h1, h2⟩
  | cons r0 rs ih =>
    intro acc h1 h2
    rw [List.foldl_cons]
    refine ih _ ?_ ?_
    · intro c hc
      dsimp only at hc
      split_ifs at hc with hpos
      · rcases List.mem_append.1 hc with hA | hB
        · exact h1 c hA
        · exact mem_regionOpenCells
            ((pickRegionPoints_spec 5 0 _ acc.2 h2).1 c hB)
      · exact h1 c hc
    · dsimp only
      split_ifs with hpos
      · exact (pickRegionPoints_spec 5 0 _ acc.2 h2).2
      · exact h2

/-- The furthest-cell scan only ever reports a cell of the scanned list. -/
theorem findFurthestCell_mem {g : Grid} {height width : Int}
    {openCells : List Cell} {sc : Cell} {c : Cell}
    (h : (findFurthestCell g height width openCells sc).1 = some c) :
    c ∈ openCells := by
  have hgen : ∀ (pops : List (Cell × Nat)) (l : List Cell)
      (acc : Nat × Nat × Option Cell),
      (∀ u ∈ l, u ∈ openCells) → (∀ u, acc.2.2 = some u → u ∈ openCells) →
      ∀ u, (l.foldl (fun (acc : Nat × Nat × Option Cell) c =>
          let pathDist := distGet pops c
          if pathDist = 0 then acc
          else
            let a := sqDist c sc
            if scoreGt pathDist a acc.1 acc.2.1 then (pathDist, a, some c)
            else acc) acc).2.2 = some u → u ∈ openCells := by
    intro pops l
    induction l with
    | nil => intro acc _ hacc u hu; exact hacc u hu
    | cons c0 cs ih =>
      intro acc hl hacc u hu
      rw [List.foldl_cons] at hu
      refine ih _ (fun v hv => hl v (List.mem_cons_of_mem _ hv)) ?_ u hu
      intro v hv
      dsimp only at hv
      split_ifs at hv with h1 h2
      · exact hacc v hv
      · have : c0 = v := by
          have := hv
          simp only [Option.some.injEq] at this
          exact this
        rw [← this]
        exact hl c0 (List.mem_cons_self ..)
      · exact hacc v hv
  unfold findFurthestCell at h
  dsimp only at h
  split at h
  · next c1 heq =>
    have hc1 : c1 = c := by
      simp only [Option.some.injEq] at h
      exact h
    subst hc1
    exact hgen _ openCells (0, 0, none) (fun u hu => hu)
      (fun u hu => by cases hu) c1 heq
  · cases h

/-- Any `some` answer of `bestFold` started from `none` has its start point
in the scanned list and its end cell among the open cells. -/
theorem bestFold_mem {g : Grid} {height width : Int} {openCells : List Cell}
    {minReq : Int} :
    ∀ {pts : List Cell} {init : Option (Cell × Cell × Nat)} {t : Cell × Cell × Nat},
      bestFold g height width openCells minReq pts init = some t →
      init = some t ∨ (t.1 ∈ pts ∧ t.2.1 ∈ openCells) := by
  intro pts
  induction pts with
  | nil => intro init t ht; exact Or.inl ht
  | cons sp rest ih =>
    intro init t ht
    rw [bestFold, List.foldl_cons] at ht
    rcases ih (by rw [bestFold]; exact ht) with hinit | hrest
    · dsimp only at hinit
      split at hinit
      · next c1 heq =>
        split_ifs at hinit with hge hgt
        · cases hinit
          exact Or.inr ⟨List.mem_cons_self .., findFurthestCell_mem
            (by rw [heq])⟩
        · exact Or.inl hinit
        · exact Or.inl hinit
      · exact Or.inl hinit
    · exact Or.inr ⟨List.mem_cons_of_mem _ hrest.1, hrest.2⟩

/-- Same containment for the fallback scan. -/
theorem fallbackFold_mem {g : Grid} {height width : Int}
    {openCells : List Cell} {pts : List Cell} {t : Cell × Cell × Nat}
    (h : fallbackFold g height width openCells pts = some t) :
    t.1 ∈ pts ∧ t.2.1 ∈ openCells := by
  have hgen : ∀ (l : List Cell) (init : Option (Cell × Cell × Nat)),
      (∀ u, init = some u → u.1 ∈ pts ∧ u.2.1 ∈ openCells) →
      (∀ u ∈ l, u ∈ pts) →
      ∀ u, l.foldl (fun acc sp =>
          let r := findFurthestCell g height width openCells sp
          let maxLen : Nat := match acc with | some t => t.2.2 | none => 0
          match r.1 with
          | some c => if r.2 > maxLen then some (sp, c, r.2) else acc
          | none => acc) init = some u →
        u.1 ∈ pts ∧ u.2.1 ∈ openCells := by
    intro l
    induction l with
    | nil => intro init hinit _ u hu; exact hinit u hu
    | cons sp rest ih =>
      intro init hinit hl u hu
      rw [List.foldl_cons] at hu
      refine ih _ ?_ (fun v hv => hl v (List.mem_cons_of_mem _ hv)) u hu
      intro v hv
      dsimp only at hv
      split at hv
      · next c1 heq =>
        split_ifs at hv with hgt
        · cases hv
          exact ⟨hl sp (List.mem_cons_self ..), findFurthestCell_mem (by rw [heq])⟩
        · exact hinit v hv
      · exact hinit v hv
  exact hgen pts none (fun u hu => by cases hu) (fun u hu => hu) t h

/-- The last-resort loop keeps both indices inside the open-cell list and
the stream well-formed (given they start that way). -/
theorem lastResortLoop_range {openCells : List Cell}
    (hlen : 0 < openCells.length) :
    ∀ (k : Nat) (i j : Int) (cnt : Nat) (r : Rng), RngOk r →
      0 ≤ i → i < (openCells.length : Int) →
      0 ≤ j → j < (openCells.length : Int) →
      (0 ≤ (lastResortLoop openCells ((i, j), cnt, r) k).1.1 ∧
        (lastResortLoop openCells ((i, j), cnt, r) k).1.1 < (openCells.length : Int) ∧
        0 ≤ (lastResortLoop openCells ((i, j), cnt, r) k).1.2 ∧
        (lastResortLoop openCells ((i, j), cnt, r) k).1.2 < (openCells.length : Int)) ∧
      RngOk (lastResortLoop openCells ((i, j), cnt, r) k).2.2 := by
  intro k
  induction k with
  | zero =>
    intro i j cnt r h h1 h2 h3 h4
    rw [lastResortLoop]
    exact ⟨⟨h1, h2, h3, h4⟩, h⟩
  | succ n ih =>
    intro i j cnt r h h1 h2 h3 h4
    rw [lastResortLoop]
    have hr1 := randIdx_range h (n := (openCells.length : Int))
      (by exact_mod_cast hlen)
    have hr2 := randIdx_range hr1.2.2 (n := (openCells.length : Int))
      (by exact_mod_cast hlen)
    dsimp only
    split_ifs with hne hbig
    · exact ih _ _ _ _ hr2.2.2 hr1.1 hr1.2.1 hr2.1 hr2.2.1
    · exact ih _ _ _ _ hr2.2.2 h1 h2 h3 h4
    · exact ih _ _ _ _ hr2.2.2 h1 h2 h3 h4

set_option maxHeartbeats 1000000

/-- C3 (amended): on a grid with at least two interior open cells and a
well-formed random stream, both cells returned by the placement optimizer
are passage cells — whichever tier produced them, down to the last-resort
random pair.  (They are NOT always distinct; see the counterexample.) -/
theorem optimizer_returns_open (g : Grid) (height width : Int) (rng : Rng)
    (hrng : RngOk rng)
    (h2 : 2 ≤ (interiorOpenCells g height width).length) :
    cellAt g (findOptimalStartEndPair g height width rng).1.1.1
      (findOptimalStartEndPair g height width rng).1.1.2 = 0 ∧
    cellAt g (findOptimalStartEndPair g height width rng).1.2.1
      (findOptimalStartEndPair g height width rng).1.2.2 = 0 := by
  have hlen : 0 < (interiorOpenCells g height width).length := by omega
  have hstrat := strategicFromRegions_spec g height width rng hrng
  have hrand := pickRandomPoints_spec 10 0 (interiorOpenCells g height width)
    (strategicFromRegions g height width rng).2 hstrat.2
  unfold findOptimalStartEndPair
  dsimp only
  rw [if_neg (by omega)]
  split
  · next s e d heq =>
    dsimp only
    rcases bestFold_mem heq with hnone | ⟨hsp, he⟩
    · cases hnone
    · refine ⟨?_, mem_interiorOpenCells he⟩
      rcases List.mem_append.1 hsp with hA | hB
      · exact hstrat.1 s hA
      · exact mem_interiorOpenCells (hrand.1 s hB)
  · next heq1 =>
    have hadd := pickAdditional_spec 50 0
      (pickRandomPoints 10 0 (interiorOpenCells g height width)
        (strategicFromRegions g height width rng).2).2.1
      (pickRandomPoints 10 0 (interiorOpenCells g height width)
        (strategicFromRegions g height width rng).2).2.2
      (interiorOpenCells g height width).length hrand.2.2
    split
    · next s e d heq2 =>
      dsimp only
      rcases bestFold_mem heq2 with hnone | ⟨hsp, he⟩
      · cases hnone
      · exact ⟨mem_interiorOpenCells (hrand.2.1 s (hadd.1 s hsp)),
          mem_interiorOpenCells he⟩
    · next heq2 =>
      split
      · next s e d heq3 =>
        dsimp only
        obtain ⟨hsp, he⟩ := fallbackFold_mem heq3
        refine ⟨?_, mem_interiorOpenCells he⟩
        rcases List.mem_append.1 hsp with hAB | hC
        · rcases List.mem_append.1 hAB with hA | hB
          · exact hstrat.1 s hA
          · exact mem_interiorOpenCells (hrand.1 s hB)
        · exact mem_interiorOpenCells (hrand.2.1 s (hadd.1 s hC))
      · next heq3 =>
        dsimp only
        have hi1 := randIdx_range hadd.2.2
          (n := ((interiorOpenCells g height width).length : Int))
          (by exact_mod_cast hlen)
        have hi2 := randIdx_range hi1.2.2
          (n := ((interiorOpenCells g height width).length : Int))
          (by exact_mod_cast hlen)
        have hlast := lastResortLoop_range hlen 20 _ _ 0 _ hi2.2.2
          hi1.1 hi1.2.1 hi2.1 hi2.2.1
        obtain ⟨⟨hb1, hb2, hb3, hb4⟩, _⟩ := hlast
        constructor
        · exact mem_interiorOpenCells (getD_mem_of_lt ((Int.toNat_lt hb1).mpr hb2) _)
        · exact mem_interiorOpenCells (getD_mem_of_lt ((Int.toNat_lt hb3).mpr hb4) _)

/-- C3 (amended, witness): evaluated on the two-open-cell grid with the
empty stream: the returned (coinciding) cells are open. -/
theorem optimizer_returns_open_witness :
    cellAt cexTwoCells (findOptimalStartEndPair cexTwoCells 5 5 []).1.1.1
      (findOptimalStartEndPair cexTwoCells 5 5 []).1.1.2 = 0 ∧
    cellAt cexTwoCells (findOptimalStartEndPair cexTwoCells 5 5 []).1.2.1
      (findOptimalStartEndPair cexTwoCells 5 5 []).1.2.2 = 0 :=
  optimizer_returns_open cexTwoCells 5 5 []
    (fun q hq => absurd hq (List.not_mem_nil q)) (by decide)

/-- A cell key in the repairer's flood is genuinely reachable from the
reference (visited-set soundness, run form). -/
theorem bfsRun_visited_reach {g : Grid} {s : Cell} {cy cx : Int}
    (h : JSKey.cell cy cx ∈
      (bfsRun g (gridH g) (gridW g) (fun _ => false) (fun _ => true)
        [(s, 0)] [JSKey.cell s.1 s.2]).1) :
    SeededReach g s (cy, cx) := by
  refine bfsCore_visited_sound g (gridH g) (gridW g) _ _ (SeededReach g s)
    (fun _ _ hr hst => hr.tail hst) _ _ _ _ ?_ ?_ cy cx h
  · intro p hp
    rcases List.mem_singleton.1 hp with rfl
    exact Relation.ReflTransGen.refl
  · intro ay ax hv
    rcases List.mem_singleton.1 hv with hk
    have e1 : ay = s.1 := congrArg (fun k => match k with
      | JSKey.cell a _ => a | JSKey.char _ => 0) hk
    have e2 : ax = s.2 := congrArg (fun k => match k with
      | JSKey.cell _ b => b | JSKey.char _ => 0) hk
    rw [e1, e2]
    exact Relation.ReflTransGen.refl

/-- A single-seed stopless BFS pops at least its seed. -/
theorem bfsRun_pops_ne_nil (g : Grid) (height width : Int)
    (extraOk : Cell → Bool) (c0 : Cell) (v : List JSKey) :
    (bfsRun g height width (fun _ => false) extraOk [(c0, 0)] v).2.1 ≠ [] := by
  unfold bfsRun
  obtain ⟨k, hk⟩ : ∃ k,
      2 * missingCount height width v + ([((c0 : Cell), (0 : Nat))]).length = k + 1 :=
    ⟨2 * missingCount height width v, by simp⟩
  rw [hk, bfsCore, if_neg (by simp)]
  intro hnil
  have hnil' : (bfsCore g height width (fun _ => false) extraOk k
      ([] ++ (pushLoop g height width extraOk c0.1 c0.2 0 dirs4 v []).2)
      (pushLoop g height width extraOk c0.1 c0.2 0 dirs4 v []).1
      ([] ++ [(c0, 0)])).2.1 = [] := hnil
  obtain ⟨qs, hqs⟩ := bfsCore_pops_prefix g height width (fun _ => false) extraOk k
    ([] ++ (pushLoop g height width extraOk c0.1 c0.2 0 dirs4 v []).2)
    (pushLoop g height width extraOk c0.1 c0.2 0 dirs4 v []).1
    ([] ++ [(c0, 0)])
  rw [hqs] at hnil'
  simp at hnil'

/-- The region-grouping fold only appends regions. -/
theorem collectRegions_fold_prefix (g : Grid) (height width : Int)
    (reachSnap : List JSKey) :
    ∀ (l : List Cell) (st : List JSKey × List (List Cell)), ∃ more,
      (l.foldl (fun (st : List JSKey × List (List Cell)) c =>
        if JSKey.cell c.1 c.2 ∈ st.1 then st
        else
          let run := bfsRun g height width (fun _ => false)
            (fun d => decide (JSKey.cell d.1 d.2 ∉ reachSnap))
            [(c, 0)] (st.1 ++ [JSKey.cell c.1 c.2])
          (run.1, st.2 ++ [run.2.1.map Prod.fst])) st).2 = st.2 ++ more := by
  intro l
  induction l with
  | nil => intro st; exact ⟨[], by simp⟩
  | cons c cs ih =>
    intro st
    rw [List.foldl_cons]
    dsimp only
    split_ifs with hmem
    · exact ih st
    · obtain ⟨more, hm⟩ := ih _
      refine ⟨[(bfsRun g height width (fun _ => false)
          (fun d => decide (JSKey.cell d.1 d.2 ∉ reachSnap))
          [(c, 0)] (st.1 ++ [JSKey.cell c.1 c.2])).2.1.map Prod.fst] ++ more, ?_⟩
      rw [hm]
      simp

/-- The first isolated region collected from a nonempty unreachable list is
the flood of its first cell — in particular, a nonempty cell list. -/
theorem collectRegions_first (g : Grid) (height width : Int)
    (reachSnap : List JSKey) (u0 : Cell) (us : List Cell) :
    ∃ rest, collectRegions g height width reachSnap (u0 :: us) =
      ((bfsRun g height width (fun _ => false)
          (fun d => decide (JSKey.cell d.1 d.2 ∉ reachSnap))
          [(u0, 0)] ([] ++ [JSKey.cell u0.1 u0.2])).2.1.map Prod.fst) :: rest := by
  unfold collectRegions
  rw [List.foldl_cons]
  dsimp only
  rw [if_neg (List.not_mem_nil _)]
  obtain ⟨more, hm⟩ := collectRegions_fold_prefix g height width reachSnap us _
  exact ⟨more, by rw [hm]; simp⟩

/-- The closest-pair scan over a nonempty region and a nonempty reachable
set always finds a pair. -/
theorem closestPair_isSome {region : List Cell} {reach : List JSKey}
    (hr : region ≠ []) (hv : reach ≠ []) :
    ∃ pr, closestPair region reach = some pr := by
  have hinner : ∀ (ks : List JSKey) (u : Cell) (st : Option (Int × Cell × Cell)),
      st ≠ none → ks.foldl (fun st2 k =>
        let r := keyCell k
        let dist := jsAbs (u.1 - r.1) + jsAbs (u.2 - r.2)
        match st2 with
        | none => some (dist, u, r)
        | some t => if dist < t.1 then some (dist, u, r) else st2) st ≠ none := by
    intro ks
    induction ks with
    | nil => intro u st h; exact h
    | cons k ks ih =>
      intro u st h
      rw [List.foldl_cons]
      apply ih
      match st, h with
      | some t, _ =>
        dsimp only
        split_ifs <;> simp
  have hcreate : ∀ (ks : List JSKey) (u : Cell), ks ≠ [] →
      ks.foldl (fun st2 k =>
        let r := keyCell k
        let dist := jsAbs (u.1 - r.1) + jsAbs (u.2 - r.2)
        match st2 with
        | none => some (dist, u, r)
        | some t => if dist < t.1 then some (dist, u, r) else st2) none ≠ none := by
    intro ks u hk
    cases ks with
    | nil => exact absurd rfl hk
    | cons k0 ks =>
      rw [List.foldl_cons]
      exact hinner ks u _ (by dsimp only; simp)
  have houter : ∀ (l : List Cell) (st : Option (Int × Cell × Cell)),
      st ≠ none →
      (l.foldl (fun st u => reach.foldl (fun st2 k =>
        let r := keyCell k
        let dist := jsAbs (u.1 - r.1) + jsAbs (u.2 - r.2)
        match st2 with
        | none => some (dist, u, r)
        | some t => if dist < t.1 then some (dist, u, r) else st2) st) st) ≠ none := by
    intro l
    induction l with
    | nil => intro st h; exact h
    | cons u us ih =>
      intro st h
      rw [List.foldl_cons]
      exact ih _ (hinner reach u st h)
  have hne : (region.foldl (fun st u => reach.foldl (fun st2 k =>
      let r := keyCell k
      let dist := jsAbs (u.1 - r.1) + jsAbs (u.2 - r.2)
      match st2 with
      | none => some (dist, u, r)
      | some t => if dist < t.1 then some (dist, u, r) else st2) st) none) ≠ none := by
    cases region with
    | nil => exact absurd rfl hr
    | cons u us =>
      rw [List.foldl_cons]
      exact houter us _ (hcreate reach u hv)
  obtain ⟨t, ht⟩ := Option.ne_none_iff_exists'.1 hne
  exact ⟨t.2, by unfold closestPair; rw [ht]; rfl⟩

/-- The per-region connection fold never loses a positive count. -/
theorem regionsFold_count_pos :
    ∀ (rs : List (List Cell)) (st : Grid × List JSKey × Nat), 1 ≤ st.2.2 →
      1 ≤ (rs.foldl (fun (st : Grid × List JSKey × Nat) region =>
        match closestPair region st.2.1 with
        | some (u, r) =>
          ((carveToward st.1 st.2.1 u r).1, (carveToward st.1 st.2.1 u r).2,
            st.2.2 + 1)
        | none => st) st).2.2 := by
  intro rs
  induction rs with
  | nil => intro st h; exact h
  | cons r0 rs ih =>
    intro st h
    rw [List.foldl_cons]
    rcases hm : closestPair r0 st.2.1 with _ | ⟨u, r⟩
    · dsimp only
      exact ih st h
    · dsimp only
      exact ih ((carveToward st.1 st.2.1 u r).1,
        (carveToward st.1 st.2.1 u r).2, st.2.2 + 1) (Nat.le_succ_of_le h)

/-- The brute-force final fold never loses a positive count. -/
theorem finalFold_count_pos (run2v : List JSKey) :
    ∀ (cells : List Cell) (st : Grid × Nat × Rng), 1 ≤ st.2.1 →
      1 ≤ (cells.foldl (fun (st : Grid × Nat × Rng) c =>
        match closestPair [c] run2v with
        | some (u, r) =>
          ((carveRandomToward st.1 st.2.2 u r).1, st.2.1 + 1,
            (carveRandomToward st.1 st.2.2 u r).2)
        | none => st) st).2.1 := by
  intro cells
  induction cells with
  | nil => intro st h; exact h
  | cons c0 cs ih =>
    intro st h
    rw [List.foldl_cons]
    rcases hm : closestPair [c0] run2v with _ | ⟨u, r⟩
    · dsimp only
      exact ih st h
    · dsimp only
      exact ih ((carveRandomToward st.1 st.2.2 u r).1, st.2.1 + 1,
        (carveRandomToward st.1 st.2.2 u r).2) (Nat.le_succ_of_le h)

/-- C8 (amended): the repairer has no failure path at all: whenever some
open cell of a rectangular grid is not reachable from the reference cell —
in particular whenever the reference is a wall cell, which blocks the
flood at its seed — `ensureFullConnectivity` silently proceeds, carves,
and reports at least one connection, instead of signalling an error. -/
theorem repair_silent_when_disconnected (g : Grid) (s : Cell) (rng : Rng)
    (hwf : WellFormed g) (c : Cell)
    (hc : cellAt g c.1 c.2 = 0) (hbad : ¬ SeededReach g s c) :
    1 ≤ (ensureFullConnectivity g s rng).1.2 := by
  have hcb := open_in_bounds hwf hc
  have hcmem : c ∈ ((allCells (gridH g) (gridW g)).filter
      (fun c => cellAt g c.1 c.2 = 0)).filter
      (fun c => decide (JSKey.cell c.1 c.2 ∉
        (bfsRun g (gridH g) (gridW g) (fun _ => false) (fun _ => true)
          [(s, 0)] [JSKey.cell s.1 s.2]).1)) := by
    rw [List.mem_filter]
    refine ⟨List.mem_filter.2 ⟨mem_allCells.2
      ⟨hcb.1, hcb.2.1, hcb.2.2.1, hcb.2.2.2⟩, by simpa using hc⟩, ?_⟩
    simp only [decide_eq_true_eq]
    intro hin
    exact hbad (bfsRun_visited_reach hin)
  have hne := List.ne_nil_of_mem hcmem
  have hkey : JSKey.cell s.1 s.2 ∈
      (bfsRun g (gridH g) (gridW g) (fun _ => false) (fun _ => true)
        [(s, 0)] [JSKey.cell s.1 s.2]).1 :=
    bfsCore_visited_mono _ _ _ _ _ _ _ _ _ (List.mem_singleton.2 rfl)
  have hrne := List.ne_nil_of_mem hkey
  have hone : ∀ (unreach : List Cell), unreach ≠ [] →
      1 ≤ ((collectRegions g (gridH g) (gridW g)
          (bfsRun g (gridH g) (gridW g) (fun _ => false) (fun _ => true)
            [(s, 0)] [JSKey.cell s.1 s.2]).1 unreach).foldl
        (fun (st : Grid × List JSKey × Nat) region =>
          match closestPair region st.2.1 with
          | some (u, r) =>
            ((carveToward st.1 st.2.1 u r).1, (carveToward st.1 st.2.1 u r).2,
              st.2.2 + 1)
          | none => st)
        (g, (bfsRun g (gridH g) (gridW g) (fun _ => false) (fun _ => true)
          [(s, 0)] [JSKey.cell s.1 s.2]).1, 0)).2.2 := by
    intro unreach hu
    cases unreach with
    | nil => exact absurd rfl hu
    | cons u0 us =>
      obtain ⟨rest, hrest⟩ := collectRegions_first g (gridH g) (gridW g) _ u0 us
      rw [hrest, List.foldl_cons]
      have hreg : ((bfsRun g (gridH g) (gridW g) (fun _ => false)
          (fun d => decide (JSKey.cell d.1 d.2 ∉
            (bfsRun g (gridH g) (gridW g) (fun _ => false) (fun _ => true)
              [(s, 0)] [JSKey.cell s.1 s.2]).1))
          [(u0, 0)] ([] ++ [JSKey.cell u0.1 u0.2])).2.1.map Prod.fst) ≠ [] := by
        intro h0
        exact bfsRun_pops_ne_nil g (gridH g) (gridW g) _ u0 _
          (List.map_eq_nil_iff.1 h0)
      obtain ⟨⟨u, r⟩, hcp⟩ := closestPair_isSome hreg hrne
      dsimp only
      rw [hcp]
      dsimp only
      apply regionsFold_count_pos
      exact le_refl 1
  simp only [ensureFullConnectivity]
  rw [if_neg (fun h0 => hne (List.length_eq_zero.1 h0))]
  split
  · dsimp only
    apply finalFold_count_pos
    exact hone _ hne
  · dsimp only
    exact hone _ hne

/-- C8 (amended, witness): the 1×3 grid with its wall reference: the open
cell (0,2) is unreachable from (0,0), and the repairer reports at least
one connection. -/
theorem repair_silent_when_disconnected_witness :
    1 ≤ (ensureFullConnectivity cexRow (0, 0) []).1.2 :=
  repair_silent_when_disconnected cexRow (0, 0) []
    (by
      intro row hr
      rcases List.mem_singleton.1 hr with rfl
      rfl)
    (0, 2) (by decide)
    (by
      intro hreach
      rcases Relation.ReflTransGen.cases_head hreach with heq | ⟨d, hstep, _⟩
      · exact absurd heq (by decide)
      · obtain ⟨hadj, hopen⟩ := hstep
        have hd := adjB_mem_nbrs hadj
        fin_cases hd <;> revert hopen <;> decide)

/-! ## Tree lemmas: attaching a leaf preserves the unique-path property -/

/-- Adjacency is symmetric. -/
theorem adjB_comm (a b : Cell) : adjB a b = adjB b a := by
  unfold adjB jsAbs
  have e1 : (a.1 - b.1).natAbs = (b.1 - a.1).natAbs := by omega
  have e2 : (a.2 - b.2).natAbs = (b.2 - a.2).natAbs := by omega
  rw [e1, e2]

/-- `head?` of an append with nonempty left part. -/
theorem head_append_left {α : Type} {l1 : List α} (l2 : List α)
    (h : l1 ≠ []) : (l1 ++ l2).head? = l1.head? := by
  cases l1 with
  | nil => exact absurd rfl h
  | cons a t => rfl

/-- A duplicate-free list that starts and ends at the same element is that
singleton. -/
theorem nodup_head_getLast {p : List Cell} {a : Cell}
    (hh : p.head? = some a) (hl : p.getLast? = some a) (hd : p.Nodup) :
    p = [a] := by
  cases p with
  | nil => cases hh
  | cons q qs =>
    simp only [List.head?_cons, Option.some.injEq] at hh
    cases qs with
    | nil => rw [hh]
    | cons r rs =>
      exfalso
      have hne : (r :: rs : List Cell) ≠ [] := by simp
      rw [List.getLast?_cons_cons, List.getLast?_eq_getLast _ hne,
        Option.some.injEq] at hl
      have hmem : q ∈ r :: rs := by
        rw [hh, ← hl]
        exact List.getLast_mem hne
      rw [List.nodup_cons] at hd
      exact hd.1 hmem

/-- Reversing a simple path swaps its endpoints. -/
theorem pathBetween_reverse {g : Grid} {p : List Cell} {a b : Cell}
    (h : IsPathBetween g p a b) : IsPathBetween g p.reverse b a := by
  obtain ⟨⟨hh, hl, hch, hop⟩, hd⟩ := h
  refine ⟨⟨?_, ?_, ?_, ?_⟩, List.nodup_reverse.2 hd⟩
  · rw [List.head?_reverse]
    exact hl
  · rw [List.getLast?_reverse]
    exact hh
  · rw [List.chain'_reverse]
    refine hch.imp ?_
    intro u v huv
    show adjB v u = true
    rw [adjB_comm]
    exact huv
  · intro c hc
    exact hop c (List.mem_reverse.1 hc)

/-- A walk stays a walk in any grid where all its cells remain open. -/
theorem walkBetween_transfer {g g' : Grid} {p : List Cell} {a b : Cell}
    (h : IsWalkBetween g p a b)
    (hopen : ∀ c ∈ p, cellAt g' c.1 c.2 = 0) :
    IsWalkBetween g' p a b :=
  ⟨h.1, h.2.1, h.2.2.1, hopen⟩

/-- In a grid extending `g` by the single fresh leaf `z` (whose only open
neighbour is `w`), a simple path cannot pass THROUGH `z`. -/
theorem no_through_leaf {g g' : Grid} {z w : Cell}
    (hsame : ∀ c : Cell, c ≠ z → cellAt g' c.1 c.2 = cellAt g c.1 c.2)
    (honly : ∀ u : Cell, adjB z u = true → cellAt g u.1 u.2 = 0 → u = w)
    {p : List Cell} {a b : Cell} (hp : IsPathBetween g' p a b)
    (hza : z ≠ a) (hzb : z ≠ b) (hzp : z ∈ p) : False := by
  obtain ⟨⟨hh, hl, hch, hop⟩, hd⟩ := hp
  obtain ⟨u, v, huv⟩ := List.append_of_mem hzp
  subst huv
  cases u with
  | nil =>
    rw [List.nil_append, List.head?_cons] at hh
    exact hza (by injection hh)
  | cons u0 us =>
    cases v with
    | nil =>
      rw [List.getLast?_concat] at hl
      exact hzb (by injection hl)
    | cons v0 vs =>
      rw [List.chain'_append] at hch
      obtain ⟨hchu, hchzv, hlink⟩ := hch
      have hone : (u0 :: us : List Cell) ≠ [] := by simp
      have hlku : (u0 :: us).getLast? = some ((u0 :: us).getLast hone) :=
        List.getLast?_eq_getLast _ hone
      have hadj1 : adjB ((u0 :: us).getLast hone) z = true := hlink _ hlku z rfl
      have hadj2 : adjB z v0 = true := (List.chain'_cons.1 hchzv).1
      rw [List.nodup_append] at hd
      obtain ⟨hdu, hdzv, hdisj⟩ := hd
      have hpzu : (u0 :: us).getLast hone ∈ u0 :: us := List.getLast_mem hone
      have hpznz : (u0 :: us).getLast hone ≠ z := by
        intro h
        exact hdisj hpzu (h ▸ List.mem_cons_self z (v0 :: vs))
      have hpznv : (u0 :: us).getLast hone ≠ v0 := by
        intro h
        refine hdisj hpzu ?_
        rw [h]
        exact List.mem_cons_of_mem z (List.mem_cons_self v0 vs)
      have hznv : z ≠ v0 := by
        rw [List.nodup_cons] at hdzv
        intro h
        exact hdzv.1 (h ▸ List.mem_cons_self v0 vs)
      have hpzop : cellAt g ((u0 :: us).getLast hone).1 ((u0 :: us).getLast hone).2 = 0 := by
        rw [← hsame _ hpznz]
        exact hop _ (List.mem_append.2 (Or.inl hpzu))
      have hv0op : cellAt g v0.1 v0.2 = 0 := by
        rw [← hsame v0 (Ne.symm hznv)]
        exact hop v0 (List.mem_append.2 (Or.inr (List.mem_cons_of_mem z (List.mem_cons_self v0 vs))))
      have h1 : (u0 :: us).getLast hone = w :=
        honly _ (by rw [adjB_comm]; exact hadj1) hpzop
      have h2 : v0 = w := honly v0 hadj2 hv0op
      exact hpznv (h1.trans h2.symm)

/-- In the leaf-extended grid, a simple path from `a ≠ z` to the leaf `z`
decomposes as a `g`-path to the hinge `w` followed by `z`. -/
theorem path_into_leaf {g g' : Grid} {z w : Cell}
    (hsame : ∀ c : Cell, c ≠ z → cellAt g' c.1 c.2 = cellAt g c.1 c.2)
    (honly : ∀ u : Cell, adjB z u = true → cellAt g u.1 u.2 = 0 → u = w)
    {p : List Cell} {a : Cell} (hp : IsPathBetween g' p a z) (hza : z ≠ a) :
    ∃ q, p = q ++ [z] ∧ IsPathBetween g q a w := by
  obtain ⟨⟨hh, hl, hch, hop⟩, hd⟩ := hp
  have hpne : p ≠ [] := by rintro rfl; cases hh
  have hlast : p.getLast hpne = z := by
    have h2 := List.getLast?_eq_getLast p hpne
    rw [hl, Option.some.injEq] at h2
    exact h2.symm
  obtain ⟨q, hpq⟩ : ∃ q, p = q ++ [z] :=
    ⟨p.dropLast, by rw [← hlast]; exact (List.dropLast_append_getLast hpne).symm⟩
  subst hpq
  have hqne : q ≠ [] := by
    rintro rfl
    rw [List.nil_append, List.head?_cons] at hh
    exact hza (by injection hh)
  rw [List.chain'_append] at hch
  obtain ⟨hchq, _, hlink⟩ := hch
  rw [List.nodup_append] at hd
  obtain ⟨hdq, _, hdisj⟩ := hd
  have hznq : z ∉ q := fun hzq => hdisj hzq (List.mem_cons_self z [])
  have hqopen : ∀ c ∈ q, cellAt g c.1 c.2 = 0 := by
    intro c hc
    have hcz : c ≠ z := fun h => hznq (h ▸ hc)
    rw [← hsame c hcz]
    exact hop c (List.mem_append.2 (Or.inl hc))
  have hqlast : q.getLast? = some (q.getLast hqne) := List.getLast?_eq_getLast q hqne
  have hadj : adjB (q.getLast hqne) z = true := hlink _ hqlast z rfl
  have hwl : q.getLast hqne = w :=
    honly _ (by rw [adjB_comm]; exact hadj)
      (hqopen _ (List.getLast_mem hqne))
  refine ⟨q, rfl, ⟨⟨?_, ?_, hchq, hqopen⟩, hdq⟩⟩
  · rw [head_append_left _ hqne] at hh
    exact hh
  · rw [hqlast, hwl]

/-- Attaching a leaf: `z` is closed in `g`, `w` is its unique open
neighbour, and `g'` agrees with `g` away from `z`.  Then the unique-path
property transfers from `g` to `g'` (whether or not `z` actually opened). -/
theorem uniquePath_attach {g g' : Grid} {z w : Cell}
    (hup : UniquePathProp g)
    (hsame : ∀ c : Cell, c ≠ z → cellAt g' c.1 c.2 = cellAt g c.1 c.2)
    (hzold : cellAt g z.1 z.2 ≠ 0)
    (hwop : cellAt g w.1 w.2 = 0)
    (hadjzw : adjB z w = true)
    (honly : ∀ u : Cell, adjB z u = true → cellAt g u.1 u.2 = 0 → u = w) :
    UniquePathProp g' := by
  by_cases hz' : cellAt g' z.1 z.2 = 0
  case neg =>
    have hsame' : ∀ c : Cell, (cellAt g' c.1 c.2 = 0 ↔ cellAt g c.1 c.2 = 0) := by
      intro c
      by_cases hc : c = z
      · subst hc
        exact ⟨fun h => absurd h hz', fun h => absurd h hzold⟩
      · rw [hsame c hc]
    intro a b ha hb
    obtain ⟨p, hp, hpu⟩ := hup a b ((hsame' a).1 ha) ((hsame' b).1 hb)
    refine ⟨p, ?_, ?_⟩
    · exact ⟨⟨hp.1.1, hp.1.2.1, hp.1.2.2.1,
        fun c hc => (hsame' c).2 (hp.1.2.2.2 c hc)⟩, hp.2⟩
    · intro p' hp'
      exact hpu p' ⟨⟨hp'.1.1, hp'.1.2.1, hp'.1.2.2.1,
        fun c hc => (hsame' c).1 (hp'.1.2.2.2 c hc)⟩, hp'.2⟩
  case pos =>
    have hupg : ∀ (p : List Cell) (a b : Cell),
        IsPathBetween g p a b → IsPathBetween g' p a b := by
      intro p a b hp
      refine ⟨⟨hp.1.1, hp.1.2.1, hp.1.2.2.1, ?_⟩, hp.2⟩
      intro c hc
      have hcop := hp.1.2.2.2 c hc
      have hcz : c ≠ z := fun h => hzold (h ▸ hcop)
      rw [hsame c hcz]
      exact hcop
    have hdown : ∀ (p : List Cell) (a b : Cell),
        IsPathBetween g' p a b → z ∉ p → IsPathBetween g p a b := by
      intro p a b hp hzp
      refine ⟨⟨hp.1.1, hp.1.2.1, hp.1.2.2.1, ?_⟩, hp.2⟩
      intro c hc
      have hcz : c ≠ z := fun h => hzp (h ▸ hc)
      rw [← hsame c hcz]
      exact hp.1.2.2.2 c hc
    have hcase2 : ∀ a : Cell, cellAt g' a.1 a.2 = 0 → a ≠ z →
        ∃! p, IsPathBetween g' p a z := by
      intro a ha haz
      have haop : cellAt g a.1 a.2 = 0 := by rw [← hsame a haz]; exact ha
      obtain ⟨q, hq, hqu⟩ := hup a w haop hwop
      have hznq : z ∉ q := by
        intro hzq
        exact hzold (hq.1.2.2.2 z hzq)
      have hqne : q ≠ [] := by
        rintro rfl
        cases hq.1.1
      refine ⟨q ++ [z], ⟨⟨?_, ?_, ?_, ?_⟩, ?_⟩, ?_⟩
      · rw [head_append_left _ hqne]
        exact hq.1.1
      · rw [List.getLast?_concat]
      · rw [List.chain'_append]
        refine ⟨hq.1.2.2.1, List.chain'_singleton z, ?_⟩
        intro c hc d hd
        rw [hq.1.2.1, Option.mem_def, Option.some.injEq] at hc
        rw [List.head?_cons, Option.mem_def, Option.some.injEq] at hd
        subst hc
        subst hd
        rw [adjB_comm]
        exact hadjzw
      · intro c hc
        rcases List.mem_append.1 hc with hcq | hcz
        · have hcop := hq.1.2.2.2 c hcq
          have hcne : c ≠ z := fun h => hzold (h ▸ hcop)
          rw [hsame c hcne]
          exact hcop
        · rw [List.mem_singleton.1 hcz]
          exact hz'
      · rw [List.nodup_append]
        refine ⟨hq.2, List.nodup_singleton z, ?_⟩
        intro c hcq hcz
        rw [List.mem_singleton.1 hcz] at hcq
        exact hznq hcq
      · intro p' hp'
        obtain ⟨q', hq'eq, hq'⟩ := path_into_leaf hsame honly hp' (Ne.symm haz)
        rw [hq'eq, hqu q' hq']
    intro a b ha hb
    by_cases hbz : b = z
    · rw [hbz] at hb ⊢
      by_cases haz : a = z
      · rw [haz] at ha ⊢
        refine ⟨[z], ⟨⟨rfl, rfl, List.chain'_singleton z, ?_⟩, List.nodup_singleton z⟩, ?_⟩
        · intro c hc
          rw [List.mem_singleton.1 hc]
          exact ha
        · intro p' hp'
          exact nodup_head_getLast hp'.1.1 hp'.1.2.1 hp'.2
      · exact hcase2 a ha haz
    · by_cases haz : a = z
      · rw [haz] at ha ⊢
        obtain ⟨p, hp, hpu⟩ := hcase2 b hb hbz
        refine ⟨p.reverse, pathBetween_reverse hp, ?_⟩
        intro p' hp'
        have h2 := hpu p'.reverse (pathBetween_reverse hp')
        rw [← List.reverse_reverse p', h2]
      · obtain ⟨p, hp, hpu⟩ := hup a b (by rw [← hsame a haz]; exact ha)
          (by rw [← hsame b hbz]; exact hb)
        refine ⟨p, hupg p a b hp, ?_⟩
        intro p' hp'
        refine hpu p' (hdown p' a b hp' ?_)
        intro hzp
        exact no_through_leaf hsame honly hp' (Ne.symm haz) (Ne.symm hbz) hzp

/-- Opening any single cell of an all-wall grid yields the unique-path
property (at most one cell is open afterwards). -/
theorem uniquePath_attach_empty {g g' : Grid} {z : Cell}
    (hno : ∀ c : Cell, cellAt g c.1 c.2 ≠ 0)
    (hsame : ∀ c : Cell, c ≠ z → cellAt g' c.1 c.2 = cellAt g c.1 c.2) :
    UniquePathProp g' := by
  intro a b ha hb
  have haz : a = z := by
    by_contra h
    rw [hsame a h] at ha
    exact hno a ha
  have hbz : b = z := by
    by_contra h
    rw [hsame b h] at hb
    exact hno b hb
  rw [haz] at ha ⊢
  rw [hbz] at hb ⊢
  refine ⟨[z], ⟨⟨rfl, rfl, List.chain'_singleton z, ?_⟩, List.nodup_singleton z⟩, ?_⟩
  · intro c hc
    rw [List.mem_singleton.1 hc]
    exact ha
  · intro p' hp'
    exact nodup_head_getLast hp'.1.1 hp'.1.2.1 hp'.2

/-! ## Visited-grid and measure lemmas for the DFS carve -/

/-- Reading after writing a visited flag. -/
theorem visAt_setVis (v : VisGrid) (y x : Int) (t : Bool) (a b : Int) :
    visAt (setVis v y x t) a b =
      if a = y ∧ b = x ∧ 0 ≤ y ∧ 0 ≤ x ∧ y.toNat < v.length ∧
          x.toNat < (v.getD y.toNat []).length then t
      else visAt v a b := by
  unfold visAt setVis
  by_cases hab : 0 ≤ a ∧ 0 ≤ b
  · rw [if_pos hab]
    by_cases hyx : 0 ≤ y ∧ 0 ≤ x
    · rw [if_pos hyx]
      by_cases hay : a = y
      · subst hay
        by_cases hlen : a.toNat < v.length
        · rw [List.getD_eq_getElem?_getD (v.set a.toNat _),
            List.getElem?_set_self hlen, Option.getD_some]
          by_cases hbx : b = x
          · subst hbx
            by_cases hxlen : b.toNat < (v.getD a.toNat []).length
            · rw [if_pos ⟨rfl, rfl, hab.1, hab.2, hlen, hxlen⟩,
                List.getD_eq_getElem?_getD, List.getElem?_set_self hxlen,
                Option.getD_some]
            · rw [if_neg (by tauto), List.set_eq_of_length_le (by omega),
                if_pos hab]
          · have hb' : b.toNat ≠ x.toNat := by omega
            rw [if_neg (by tauto), List.getD_eq_getElem?_getD,
              List.getElem?_set_ne (Ne.symm hb'),
              ← List.getD_eq_getElem?_getD, if_pos hab]
        · rw [List.set_eq_of_length_le (by omega), if_neg (by tauto),
            if_pos hab]
      · have ha' : a.toNat ≠ y.toNat := by omega
        rw [if_neg (by tauto), List.getD_eq_getElem?_getD (v.set y.toNat _),
          List.getElem?_set_ne (Ne.symm ha'), ← List.getD_eq_getElem?_getD,
          if_pos hab]
    · rw [if_neg hyx, if_neg (by tauto), if_pos hab]
  · rw [if_neg hab, if_neg hab, if_neg (by omega)]

/-- Writing a visited flag does not change the shape. -/
theorem dims_setVis {v : VisGrid} {h w : Nat} (hd : VisDims v h w) (y x : Int)
    (t : Bool) : VisDims (setVis v y x t) h w := by
  unfold setVis
  split
  · by_cases hy : y.toNat < v.length
    · refine ⟨by rw [List.length_set]; exact hd.1, ?_⟩
      intro row hrow
      rcases List.mem_or_eq_of_mem_set hrow with hmem | heq
      · exact hd.2 row hmem
      · rw [heq, List.length_set]
        have hrowmem : v.getD y.toNat [] ∈ v := by
          rw [List.getD_eq_getElem?_getD, List.getElem?_eq_getElem hy]
          exact List.getElem_mem _
        exact hd.2 _ hrowmem
    · rw [List.set_eq_of_length_le (by omega)]
      exact hd
  · exact hd

/-- Marking inside the declared bounds sticks. -/
theorem visAt_setVis_self {v : VisGrid} {h w : Nat} (hd : VisDims v h w)
    {y x : Int} (hy1 : 0 ≤ y) (hy2 : y < (h : Int)) (hx1 : 0 ≤ x)
    (hx2 : x < (w : Int)) (t : Bool) : visAt (setVis v y x t) y x = t := by
  rw [visAt_setVis, if_pos]
  refine ⟨rfl, rfl, hy1, hx1, ?_, ?_⟩
  · rw [hd.1]; omega
  · have hy : y.toNat < v.length := by rw [hd.1]; omega
    have hmem : v.getD y.toNat [] ∈ v := by
      rw [List.getD_eq_getElem?_getD, List.getElem?_eq_getElem hy]
      exact List.getElem_mem _
    rw [hd.2 _ hmem]
    omega

/-- Marking a cell visited never unmarks another. -/
theorem visAt_setVis_true {v : VisGrid} (y x : Int) {a b : Int}
    (h : visAt v a b = true) : visAt (setVis v y x true) a b = true := by
  rw [visAt_setVis]
  split_ifs
  · rfl
  · exact h

/-- Generic strict filter-length decrease: a pointwise-smaller predicate
that loses at least one witness selects strictly fewer elements. -/
theorem filter_length_lt {α : Type} {p q : α → Bool}
    (hmono : ∀ a, p a = true → q a = true) :
    ∀ {l : List α} {a0 : α}, a0 ∈ l → p a0 = false → q a0 = true →
      (l.filter p).length < (l.filter q).length := by
  intro l
  induction l with
  | nil => intro a0 hk; cases hk
  | cons a t ih =>
    intro a0 hk hp hq
    rcases List.mem_cons.1 hk with rfl | hmem
    · rw [List.filter_cons, List.filter_cons, hp, hq]
      have hle : (t.filter p).length ≤ (t.filter q).length :=
        (List.monotone_filter_right t (fun c hc => hmono c hc)).length_le
      simpa using Nat.lt_succ_of_le hle
    · rw [List.filter_cons, List.filter_cons]
      have hlt := ih hmem hp hq
      rcases hy : p a with _ | _
      · rcases hz : q a with _ | _
        · simpa using hlt
        · simpa using Nat.lt_succ_of_lt hlt
      · rw [hmono a hy]
        simpa using Nat.succ_lt_succ hlt

/-- Growing the visited set cannot increase the carving measure. -/
theorem missingVis_mono {height width : Int} {v v' : VisGrid}
    (hmono : ∀ a b : Int, visAt v a b = true → visAt v' a b = true) :
    missingVis height width v' ≤ missingVis height width v := by
  unfold missingVis
  refine (List.monotone_filter_right _ ?_).length_le
  intro c hc
  simp only [decide_eq_true_eq] at hc ⊢
  by_contra hv
  have := hmono c.1 c.2 (by
    rcases hb : visAt v c.1 c.2 with _ | _
    · exact absurd hb hv
    · rfl)
  rw [this] at hc
  cases hc

/-- Marking an in-bounds unvisited cell strictly decreases the measure. -/
theorem missingVis_lt {height width : Int} {v : VisGrid} {ny nx : Int}
    (hdims : VisDims v height.toNat width.toNat)
    (hb : 0 ≤ ny ∧ ny < height ∧ 0 ≤ nx ∧ nx < width)
    (hv : visAt v ny nx = false) :
    missingVis height width (setVis v ny nx true) < missingVis height width v := by
  unfold missingVis
  have hmem : ((ny, nx) : Cell) ∈ allCells height width :=
    mem_allCells.2 ⟨hb.1, hb.2.1, hb.2.2.1, hb.2.2.2⟩
  refine filter_length_lt ?_ hmem ?_ ?_
  · intro c hc
    simp only [decide_eq_true_eq] at hc ⊢
    by_contra hcv
    have hct : visAt v c.1 c.2 = true := by
      rcases hb' : visAt v c.1 c.2 with _ | _
      · exact absurd hb' hcv
      · rfl
    rw [visAt_setVis_true ny nx hct] at hc
    cases hc
  · simp only [decide_eq_false_iff_not]
    intro hf
    have hself : visAt (setVis v ny nx true) ny nx = true := by
      have hh : ny < ((height.toNat : Nat) : Int) := by omega
      have hww : nx < ((width.toNat : Nat) : Int) := by omega
      exact visAt_setVis_self hdims hb.1 hh hb.2.2.1 hww true
    rw [hself] at hf
    cases hf
  · simp only [decide_eq_true_eq]
    exact hv

/-- A fold preserves any invariant its step preserves. -/
theorem foldl_preserves {α β : Type} (P : α → Prop) (f : α → β → α)
    (hf : ∀ a b, P a → P (f a b)) :
    ∀ (l : List β) (a : α), P a → P (l.foldl f a) := by
  intro l
  induction l with
  | nil => intro a h; exact h
  | cons b t ih => intro a h; exact ih _ (hf a b h)

/-- A swap produces only elements of the input list (or the `getD`
default). -/
theorem swapIdx_mem {l : List Cell} {i j : Nat} {c : Cell}
    (hc : c ∈ swapIdx l i j) : c ∈ l ∨ c = (0, 0) := by
  unfold swapIdx at hc
  dsimp only at hc
  rcases List.mem_or_eq_of_mem_set hc with hc1 | rfl
  · rcases List.mem_or_eq_of_mem_set hc1 with hc2 | rfl
    · exact Or.inl hc2
    · by_cases hj : j < l.length
      · exact Or.inl (getD_mem_of_lt hj _)
      · right
        rw [List.getD_eq_getElem?_getD, List.getElem?_eq_none (by omega),
          Option.getD_none]
  · by_cases hi : i < l.length
    · exact Or.inl (getD_mem_of_lt hi _)
    · right
      rw [List.getD_eq_getElem?_getD, List.getElem?_eq_none (by omega),
        Option.getD_none]

/-- Every direction the Fisher-Yates shuffle can emit is one of the four
base carving directions, or the out-of-range `getD` default `(0, 0)`. -/
theorem shuffleDirs_mem (rng : Rng) :
    ∀ d ∈ (shuffleDirs rng).1,
      d ∈ ([(-2, 0), (0, 2), (2, 0), (0, -2)] : List Cell) ∨ d = (0, 0) := by
  unfold shuffleDirs
  refine foldl_preserves
    (fun st : List Cell × Rng =>
      ∀ d ∈ st.1, d ∈ ([(-2, 0), (0, 2), (2, 0), (0, -2)] : List Cell) ∨ d = (0, 0))
    _ ?_ [3, 2, 1] _ ?_
  · intro st i hst
    rcases hr : randIdx st.2 ((i : Nat) + 1 : Int) with ⟨j, r'⟩
    dsimp only
    intro d hd
    rcases swapIdx_mem hd with hmem | rfl
    · exact hst d hmem
    · exact Or.inr rfl
  · intro d hd
    exact Or.inl hd

/-- The four cells adjacent to a given cell. -/
theorem adjB_cases {cy cx : Int} {u : Cell} (h : adjB (cy, cx) u = true) :
    u = (cy - 1, cx) ∨ u = (cy + 1, cx) ∨ u = (cy, cx - 1) ∨
      u = (cy, cx + 1) := by
  obtain ⟨uy, ux⟩ := u
  simp only [adjB, jsAbs, beq_iff_eq] at h
  simp only [Prod.mk.injEq]
  omega

/-- Every neighbour of an odd-odd lattice node is a corridor midpoint that
has that node as one of its two endpoints. -/
theorem node_nbr_midpoint {ny nx uy ux : Int} (h1 : ny % 2 = 1)
    (h2 : nx % 2 = 1) (hadj : adjB (ny, nx) (uy, ux) = true) :
    (uy % 2 = 1 ∧ ux % 2 = 0 ∧
      (((uy, ux - 1) : Cell) = (ny, nx) ∨ ((uy, ux + 1) : Cell) = (ny, nx))) ∨
    (uy % 2 = 0 ∧ ux % 2 = 1 ∧
      (((uy - 1, ux) : Cell) = (ny, nx) ∨ ((uy + 1, ux) : Cell) = (ny, nx))) := by
  simp only [adjB, jsAbs, beq_iff_eq] at hadj
  simp only [Prod.mk.injEq]
  omega

/-- A midpoint adjacent to two distinct odd-odd nodes has no other
neighbours besides those nodes and even-even cells. -/
theorem midpoint_nbrs {my mx y x ny nx uy ux : Int}
    (hy : y % 2 = 1) (hx : x % 2 = 1) (hn1 : ny % 2 = 1) (hn2 : nx % 2 = 1)
    (ha1 : adjB (my, mx) (y, x) = true) (ha2 : adjB (my, mx) (ny, nx) = true)
    (hne : ((y, x) : Cell) ≠ (ny, nx))
    (hadj : adjB (my, mx) (uy, ux) = true) :
    ((uy, ux) : Cell) = (y, x) ∨ ((uy, ux) : Cell) = (ny, nx) ∨
      (uy % 2 = 0 ∧ ux % 2 = 0) := by
  rcases adjB_cases ha1 with h1 | h1 | h1 | h1 <;>
    rcases adjB_cases ha2 with h2 | h2 | h2 | h2 <;>
    rcases adjB_cases hadj with h3 | h3 | h3 | h3 <;>
    (simp only [ne_eq, Prod.mk.injEq] at h1 h2 h3 hne ⊢; omega)

/-- A cell opened by `setCell` is the written cell or was already open. -/
theorem setCell_zero_cases {g : Grid} {y x a b : Int}
    (h : cellAt (setCell g y x 0) a b = 0) :
    (a = y ∧ b = x) ∨ cellAt g a b = 0 := by
  rw [cellAt_setCell] at h
  split at h
  case isTrue hc => exact Or.inl ⟨hc.1, hc.2.1⟩
  case isFalse => exact Or.inr h

/-- Away from the written cell, `setCell` changes nothing. -/
theorem setCell_same_away (g : Grid) (z : Cell) (v : Nat) :
    ∀ c : Cell, c ≠ z → cellAt (setCell g z.1 z.2 v) c.1 c.2 = cellAt g c.1 c.2 := by
  intro c hc
  rw [cellAt_setCell, if_neg]
  intro hcond
  exact hc (Prod.ext_iff.2 ⟨hcond.1, hcond.2.1⟩)

/-- Indexing the integer range. -/
theorem intRange_getElem? (lo hi : Int) (i : Nat) :
    (intRange lo hi)[i]? =
      if i < (hi - lo).toNat then some (lo + (i : Int)) else none := by
  unfold intRange
  rw [List.getElem?_map]
  by_cases hi' : i < (hi - lo).toNat
  · rw [List.getElem?_range hi', if_pos hi']
    rfl
  · rw [List.getElem?_eq_none (by rw [List.length_range]; omega), if_neg hi']
    rfl

/-- Length of the integer range. -/
theorem intRange_length (lo hi : Int) :
    (intRange lo hi).length = (hi - lo).toNat := by
  unfold intRange
  rw [List.length_map, List.length_range]

/-- Reading an in-bounds flag of a grid built by a double map over integer
ranges. -/
theorem visAt_mapGrid {h w : Int} (f : Int → Int → Bool) {y x : Int}
    (hy1 : 0 ≤ y) (hy2 : y < h) (hx1 : 0 ≤ x) (hx2 : x < w) :
    visAt ((intRange 0 h).map (fun a => (intRange 0 w).map (fun b => f a b)))
      y x = f y x := by
  have e1 : (0 : Int) + (y.toNat : Int) = y := by omega
  have e2 : (0 : Int) + (x.toNat : Int) = x := by omega
  have hrow : ((intRange 0 h).map
        (fun a => (intRange 0 w).map (fun b => f a b))).getD y.toNat [] =
      (intRange 0 w).map (fun b => f y b) := by
    rw [List.getD_eq_getElem?_getD, List.getElem?_map, intRange_getElem? 0 h,
      if_pos (by omega), Option.map_some', Option.getD_some]
    simp only [e1]
  unfold visAt
  rw [if_pos ⟨hy1, hx1⟩, hrow, List.getD_eq_getElem?_getD, List.getElem?_map,
    intRange_getElem? 0 w, if_pos (by omega), Option.map_some',
    Option.getD_some]
  simp only [e2]

/-- Shape of a grid built by a double map over integer ranges. -/
theorem dims_mapGrid {h w : Int} (f : Int → Int → Bool) :
    VisDims ((intRange 0 h).map (fun a => (intRange 0 w).map (fun b => f a b)))
      h.toNat w.toNat := by
  constructor
  · rw [List.length_map, intRange_length]
    omega
  · intro row hrow
    rw [List.mem_map] at hrow
    obtain ⟨a, _, rfl⟩ := hrow
    rw [List.length_map, intRange_length]
    omega

/-- Summing a constant map. -/
theorem sum_map_const {α : Type} (l : List α) (c : Nat) :
    (l.map (fun _ => c)).sum = l.length * c := by
  induction l with
  | nil => simp
  | cons a t ih =>
    rw [List.map_cons, List.sum_cons, ih, List.length_cons]
    ring

/-- The cell enumeration has exactly `height × width` entries. -/
theorem allCells_length (height width : Int) :
    (allCells height width).length = height.toNat * width.toNat := by
  unfold allCells
  rw [List.length_flatMap]
  have hcongr : (intRange 0 height).map
        (List.length ∘ fun y => (intRange 0 width).map (fun x => ((y, x) : Cell))) =
      (intRange 0 height).map (fun _ => width.toNat) := by
    refine List.map_congr_left ?_
    intro a _
    simp only [Function.comp]
    rw [List.length_map, intRange_length]
    omega
  have e : height - 0 = height := by ring
  rw [hcongr, sum_map_const, intRange_length, e]

/-- The carving measure never exceeds the cell count. -/
theorem missingVis_le (height width : Int) (v : VisGrid) :
    missingVis height width v ≤ height.toNat * width.toNat := by
  unfold missingVis
  rw [← allCells_length height width]
  exact List.length_filter_le _ _

/-- One guarded carving step: carving the midpoint `(my, mx)` between the
current node `(y, x)` and the fresh unvisited node `(ny, nx)` and recursing
into the fresh node preserves the fold invariant. -/
theorem carve_step (height width : Int) (f : Nat) (g1 : Grid) (v1 : VisGrid)
    (IH : ∀ (st : CarveSt) (y x : Int), CarveIn height width st f y x →
      CarveOut height width (carveFrom height width f st y x) st y x)
    (s : CarveSt) (y x my mx ny nx : Int)
    (hfi : FoldInv height width f g1 v1 s)
    (hyx_open : cellAt s.grid y x = 0)
    (hyx_vis : visAt s.visited y x = true)
    (hy : y % 2 = 1) (hx : x % 2 = 1)
    (hnb : 0 ≤ ny ∧ ny < height ∧ 0 ≤ nx ∧ nx < width)
    (hnvis : visAt s.visited ny nx = false)
    (hn1 : ny % 2 = 1) (hn2 : nx % 2 = 1)
    (hmb : 0 ≤ my ∧ my < height ∧ 0 ≤ mx ∧ mx < width)
    (hma : adjB (my, mx) (y, x) = true)
    (hmn : adjB (my, mx) (ny, nx) = true) :
    FoldInv height width f g1 v1
      (carveFrom height width f ⟨setCell s.grid my mx 0, s.visited, s.rng⟩ ny nx) := by
  obtain ⟨hdims, hvdims, hmv, hv1m, hg1m, hinv⟩ := hfi
  obtain ⟨hup, hii, hiii, hiv, hvv⟩ := hinv
  have hyxn : ((y, x) : Cell) ≠ (ny, nx) := by
    intro he
    rw [Prod.mk.injEq] at he
    have h2 := hyx_vis
    rw [he.1, he.2, hnvis] at h2
    cases h2
  have hyxn' : ¬(y = ny ∧ x = nx) := by
    intro he
    exact hyxn (by rw [Prod.mk.injEq]; exact he)
  have hn_closed : cellAt s.grid ny nx ≠ 0 := by
    intro hopen
    have h2 := hiii ny nx hopen hn1 hn2
    rw [hnvis] at h2
    cases h2
  have hm_closed : cellAt s.grid my mx ≠ 0 := by
    intro hopen
    have hpar : (my % 2 = 1 ∧ mx % 2 = 0) ∨ (my % 2 = 0 ∧ mx % 2 = 1) := by
      have h2 := hii my mx hopen
      have h3 : ¬(my % 2 = 1 ∧ mx % 2 = 1) := by
        rcases adjB_cases hma with he | he | he | he <;>
          (rw [Prod.mk.injEq] at he; omega)
      omega
    rcases hpar with ⟨hp1, hp2⟩ | ⟨hp1, hp2⟩
    · obtain ⟨ha, hb⟩ := hiv my mx hopen hp1 hp2
      rcases adjB_cases hmn with he | he | he | he <;> rw [Prod.mk.injEq] at he
      · omega
      · omega
      · have h2 := ha
        rw [← he.1, ← he.2, hnvis] at h2
        cases h2
      · have h2 := hb
        rw [← he.1, ← he.2, hnvis] at h2
        cases h2
    · obtain ⟨ha, hb⟩ := hvv my mx hopen hp1 hp2
      rcases adjB_cases hmn with he | he | he | he <;> rw [Prod.mk.injEq] at he
      · have h2 := ha
        rw [← he.1, ← he.2, hnvis] at h2
        cases h2
      · have h2 := hb
        rw [← he.1, ← he.2, hnvis] at h2
        cases h2
      · omega
      · omega
  have hmonly : ∀ u : Cell, adjB (my, mx) u = true →
      cellAt s.grid u.1 u.2 = 0 → u = (y, x) := by
    intro u hadj hopen
    obtain ⟨uy, ux⟩ := u
    rcases midpoint_nbrs hy hx hn1 hn2 hma hmn hyxn hadj with he | he | ⟨he1, he2⟩
    · exact he
    · rw [he] at hopen
      exact absurd hopen hn_closed
    · exact absurd ⟨he1, he2⟩ (hii uy ux hopen)
  have hup2 : UniquePathProp (setCell s.grid my mx 0) :=
    uniquePath_attach hup (setCell_same_away s.grid ((my, mx) : Cell) 0)
      hm_closed hyx_open hma hmonly
  have hnv' : visAt (setVis s.visited ny nx true) ny nx = true := by
    have hh : ny < ((height.toNat : Nat) : Int) := by omega
    have hww : nx < ((width.toNat : Nat) : Int) := by omega
    exact visAt_setVis_self hvdims hnb.1 hh hnb.2.2.1 hww true
  have hchild : CarveIn height width ⟨setCell s.grid my mx 0, s.visited, s.rng⟩ f ny nx := by
    refine ⟨dims_setCell hdims my mx 0, hvdims, hmv, hnb, hn1, hn2, hnvis, ?_, ?_, ?_⟩
    · intro hopen
      rcases setCell_zero_cases hopen with ⟨he1, he2⟩ | hold
      · rcases adjB_cases hma with hf | hf | hf | hf <;>
          (rw [Prod.mk.injEq] at hf; omega)
      · exact hn_closed hold
    · right
      refine ⟨(my, mx), ?_, ?_, ?_⟩
      · have hh : my < ((height.toNat : Nat) : Int) := by omega
        have hww : mx < ((width.toNat : Nat) : Int) := by omega
        exact cellAt_setCell_self hdims hmb.1 hh hmb.2.2.1 hww 0
      · rw [adjB_comm]
        exact hmn
      · intro u hadj hopen
        obtain ⟨uy, ux⟩ := u
        by_contra hneu
        have hopen' : cellAt s.grid uy ux = 0 := by
          rcases setCell_zero_cases hopen with ⟨he1, he2⟩ | hold
          · exact absurd (by rw [Prod.mk.injEq]; exact ⟨he1, he2⟩) hneu
          · exact hold
        rcases node_nbr_midpoint hn1 hn2 hadj with ⟨hu1, hu2, hmid⟩ | ⟨hu1, hu2, hmid⟩
        · obtain ⟨hva, hvb⟩ := hiv uy ux hopen' hu1 hu2
          rcases hmid with he | he <;> rw [Prod.mk.injEq] at he
          · have h2 := hva
            rw [he.1, he.2, hnvis] at h2
            cases h2
          · have h2 := hvb
            rw [he.1, he.2, hnvis] at h2
            cases h2
        · obtain ⟨hva, hvb⟩ := hvv uy ux hopen' hu1 hu2
          rcases hmid with he | he <;> rw [Prod.mk.injEq] at he
          · have h2 := hva
            rw [he.1, he.2, hnvis] at h2
            cases h2
          · have h2 := hvb
            rw [he.1, he.2, hnvis] at h2
            cases h2
    · refine ⟨hup2, ?_, ?_, ?_, ?_⟩
      · intro a b hab
        rcases setCell_zero_cases hab with ⟨he1, he2⟩ | hold
        · rcases adjB_cases hma with hf | hf | hf | hf <;>
            (rw [Prod.mk.injEq] at hf; omega)
        · exact hii a b hold
      · intro a b hab ha1 hb1
        rcases setCell_zero_cases hab with ⟨he1, he2⟩ | hold
        · exfalso
          rcases adjB_cases hma with hf | hf | hf | hf <;>
            (rw [Prod.mk.injEq] at hf; omega)
        · exact visAt_setVis_true ny nx (hiii a b hold ha1 hb1)
      · intro a b hab ha1 hb0
        rcases setCell_zero_cases hab with ⟨hea, heb⟩ | hold
        · rw [hea, heb]
          rw [hea] at ha1
          rw [heb] at hb0
          have hset : (((my, mx - 1) : Cell) = (y, x) ∧
              ((my, mx + 1) : Cell) = (ny, nx)) ∨
              (((my, mx - 1) : Cell) = (ny, nx) ∧
              ((my, mx + 1) : Cell) = (y, x)) := by
            rcases adjB_cases hma with hf | hf | hf | hf <;>
              rcases adjB_cases hmn with hg | hg | hg | hg <;>
              (rw [Prod.mk.injEq] at hf hg; simp only [Prod.mk.injEq]; omega)
          rcases hset with ⟨he1, he2⟩ | ⟨he1, he2⟩ <;> rw [Prod.mk.injEq] at he1 he2
          · exact ⟨by rw [he1.1, he1.2]; exact visAt_setVis_true ny nx hyx_vis,
              by rw [he2.1, he2.2]; exact hnv'⟩
          · exact ⟨by rw [he1.1, he1.2]; exact hnv',
              by rw [he2.1, he2.2]; exact visAt_setVis_true ny nx hyx_vis⟩
        · obtain ⟨hva, hvb⟩ := hiv a b hold ha1 hb0
          exact ⟨visAt_setVis_true ny nx hva, visAt_setVis_true ny nx hvb⟩
      · intro a b hab ha0 hb1
        rcases setCell_zero_cases hab with ⟨hea, heb⟩ | hold
        · rw [hea, heb]
          rw [hea] at ha0
          rw [heb] at hb1
          have hset : (((my - 1, mx) : Cell) = (y, x) ∧
              ((my + 1, mx) : Cell) = (ny, nx)) ∨
              (((my - 1, mx) : Cell) = (ny, nx) ∧
              ((my + 1, mx) : Cell) = (y, x)) := by
            rcases adjB_cases hma with hf | hf | hf | hf <;>
              rcases adjB_cases hmn with hg | hg | hg | hg <;>
              (rw [Prod.mk.injEq] at hf hg; simp only [Prod.mk.injEq]; omega)
          rcases hset with ⟨he1, he2⟩ | ⟨he1, he2⟩ <;> rw [Prod.mk.injEq] at he1 he2
          · exact ⟨by rw [he1.1, he1.2]; exact visAt_setVis_true ny nx hyx_vis,
              by rw [he2.1, he2.2]; exact hnv'⟩
          · exact ⟨by rw [he1.1, he1.2]; exact hnv',
              by rw [he2.1, he2.2]; exact visAt_setVis_true ny nx hyx_vis⟩
        · obtain ⟨hva, hvb⟩ := hvv a b hold ha0 hb1
          exact ⟨visAt_setVis_true ny nx hva, visAt_setVis_true ny nx hvb⟩
  have hout := IH ⟨setCell s.grid my mx 0, s.visited, s.rng⟩ ny nx hchild
  obtain ⟨hdims3, hvdims3, hvm3, hnv3, hom3, hnopen3, hinv3⟩ := hout
  refine ⟨hdims3, hvdims3, ?_, ?_, ?_, hinv3⟩
  · exact lt_of_le_of_lt (missingVis_mono hvm3) hmv
  · intro a b hab
    exact hvm3 a b (hv1m a b hab)
  · intro a b hab
    exact hom3 a b (cellAt_setCell_zero my mx (hg1m a b hab))

/-- Adjacency from the coordinate distance. -/
theorem adjB_intro {ay ax cy cx : Int}
    (h : (ay - cy).natAbs + (ax - cx).natAbs = 1) :
    adjB (ay, ax) (cy, cx) = true := by
  simp only [adjB, jsAbs, beq_iff_eq]
  omega

/-- The DFS carve maintains the carving invariant: induction on the fuel,
with an inner induction over the shuffled direction list. -/
theorem carveFrom_main (height width : Int) :
    ∀ (fuel : Nat) (st : CarveSt) (y x : Int),
      CarveIn height width st fuel y x →
      CarveOut height width (carveFrom height width fuel st y x) st y x := by
  intro fuel
  induction fuel with
  | zero =>
    intro st y x hin
    exact absurd hin.2.2.1 (Nat.not_lt_zero _)
  | succ f ih =>
    intro st y x hin
    obtain ⟨hdims, hvdims, hmv, hb, hyodd, hxodd, hunvis, hclosed, hattach, hinv⟩ := hin
    obtain ⟨hy1, hy2, hx1, hx2⟩ := hb
    rw [carveFrom]
    dsimp only
    rcases hsh : shuffleDirs st.rng with ⟨ds, r2⟩
    dsimp only
    have hy2' : y < ((height.toNat : Nat) : Int) := by omega
    have hx2' : x < ((width.toNat : Nat) : Int) := by omega
    have hdims1 : GridDims (setCell st.grid y x 0) height.toNat width.toNat :=
      dims_setCell hdims y x 0
    have hvdims1 : VisDims (setVis st.visited y x true) height.toNat width.toNat :=
      dims_setVis hvdims y x true
    have hg1self : cellAt (setCell st.grid y x 0) y x = 0 :=
      cellAt_setCell_self hdims hy1 hy2' hx1 hx2' 0
    have hv1self : visAt (setVis st.visited y x true) y x = true :=
      visAt_setVis_self hvdims hy1 hy2' hx1 hx2' true
    have hmv1 : missingVis height width (setVis st.visited y x true) < f := by
      have h1 := missingVis_lt hvdims ⟨hy1, hy2, hx1, hx2⟩ hunvis
      omega
    have hinv1 : CarveInv (setCell st.grid y x 0) (setVis st.visited y x true) := by
      obtain ⟨hup0, hii0, hiii0, hiv0, hvv0⟩ := hinv
      refine ⟨?_, ?_, ?_, ?_, ?_⟩
      · rcases hattach with hno | ⟨w0, hw0op, hw0adj, hw0only⟩
        · exact uniquePath_attach_empty hno
            (setCell_same_away st.grid ((y, x) : Cell) 0)
        · exact uniquePath_attach hup0
            (setCell_same_away st.grid ((y, x) : Cell) 0)
            hclosed hw0op hw0adj hw0only
      · intro a b hab
        rcases setCell_zero_cases hab with ⟨hea, heb⟩ | hold
        · omega
        · exact hii0 a b hold
      · intro a b hab ha1 hb1
        rcases setCell_zero_cases hab with ⟨hea, heb⟩ | hold
        · rw [hea, heb]
          exact hv1self
        · exact hiii0 a b hold ha1 hb1
      · intro a b hab ha1 hb0
        rcases setCell_zero_cases hab with ⟨hea, heb⟩ | hold
        · exfalso
          omega
        · exact hiv0 a b hold ha1 hb0
      · intro a b hab ha0 hb1
        rcases setCell_zero_cases hab with ⟨hea, heb⟩ | hold
        · exfalso
          omega
        · exact hvv0 a b hold ha0 hb1
    have hds : ∀ d ∈ ds,
        d ∈ ([(-2, 0), (0, 2), (2, 0), (0, -2)] : List Cell) ∨ d = (0, 0) := by
      have h2 := shuffleDirs_mem st.rng
      rw [hsh] at h2
      exact h2
    have hfold : ∀ (l : List Cell),
        (∀ d ∈ l, d ∈ ([(-2, 0), (0, 2), (2, 0), (0, -2)] : List Cell) ∨ d = (0, 0)) →
        ∀ s : CarveSt,
        FoldInv height width f (setCell st.grid y x 0) (setVis st.visited y x true) s →
        FoldInv height width f (setCell st.grid y x 0) (setVis st.visited y x true)
          (l.foldl (fun (s : CarveSt) (d : Cell) =>
            if isValidCell height width s.visited (y + d.1) (x + d.2) then
              carveFrom height width f
                { s with grid := setCell s.grid (y + d.1 / 2) (x + d.2 / 2) 0 }
                (y + d.1) (x + d.2)
            else s) s) := by
      intro l
      induction l with
      | nil =>
        intro _ s hs
        exact hs
      | cons d t iht =>
        intro hmem s hs
        rw [List.foldl_cons]
        refine iht (fun e he => hmem e (List.mem_cons_of_mem d he)) _ ?_
        dsimp only
        by_cases hguard : isValidCell height width s.visited (y + d.1) (x + d.2) = true
        · rw [if_pos hguard]
          simp only [isValidCell, decide_eq_true_eq] at hguard
          obtain ⟨hgb1, hgb2, hgb3, hgb4, hgvis⟩ := hguard
          have hsyx_open : cellAt s.grid y x = 0 := hs.2.2.2.2.1 y x hg1self
          have hsyx_vis : visAt s.visited y x = true := hs.2.2.2.1 y x hv1self
          rcases hmem d (List.mem_cons_self d t) with hd4 | hd0
          · simp only [List.mem_cons, List.not_mem_nil, or_false] at hd4
            rcases hd4 with rfl | rfl | rfl | rfl
            · -- d = (-2, 0)
              dsimp only at hgb1 hgb2 hgb3 hgb4 hgvis ⊢
              have e1 : y + (-2 : Int) / 2 = y - 1 := by omega
              have e2 : x + (0 : Int) / 2 = x := by omega
              have e3 : y + (-2 : Int) = y - 2 := by ring
              have e4 : x + (0 : Int) = x := by ring
              rw [e3] at hgb1 hgb2
              rw [e4] at hgb3 hgb4
              rw [e3, e4] at hgvis
              rw [e1, e2, e3, e4]
              refine carve_step height width f _ _ ih s y x (y - 1) x (y - 2) x hs
                hsyx_open hsyx_vis hyodd hxodd ⟨hgb1, hgb2, hgb3, hgb4⟩ hgvis
                (by omega) hxodd ⟨by omega, by omega, hx1, by omega⟩
                (adjB_intro (by omega)) (adjB_intro (by omega))
            · -- d = (0, 2)
              dsimp only at hgb1 hgb2 hgb3 hgb4 hgvis ⊢
              have e1 : y + (0 : Int) / 2 = y := by omega
              have e2 : x + (2 : Int) / 2 = x + 1 := by omega
              have e3 : y + (0 : Int) = y := by ring
              rw [e3] at hgb1 hgb2 hgvis
              rw [e1, e2, e3]
              refine carve_step height width f _ _ ih s y x y (x + 1) y (x + 2) hs
                hsyx_open hsyx_vis hyodd hxodd ⟨hgb1, hgb2, hgb3, hgb4⟩ hgvis
                hyodd (by omega) ⟨hy1, by omega, by omega, by omega⟩
                (adjB_intro (by omega)) (adjB_intro (by omega))
            · -- d = (2, 0)
              dsimp only at hgb1 hgb2 hgb3 hgb4 hgvis ⊢
              have e1 : y + (2 : Int) / 2 = y + 1 := by omega
              have e2 : x + (0 : Int) / 2 = x := by omega
              have e4 : x + (0 : Int) = x := by ring
              rw [e4] at hgb3 hgb4 hgvis
              rw [e1, e2, e4]
              refine carve_step height width f _ _ ih s y x (y + 1) x (y + 2) x hs
                hsyx_open hsyx_vis hyodd hxodd ⟨hgb1, hgb2, hgb3, hgb4⟩ hgvis
                (by omega) hxodd ⟨by omega, by omega, hx1, by omega⟩
                (adjB_intro (by omega)) (adjB_intro (by omega))
            · -- d = (0, -2)
              dsimp only at hgb1 hgb2 hgb3 hgb4 hgvis ⊢
              have e1 : y + (0 : Int) / 2 = y := by omega
              have e2 : x + (-2 : Int) / 2 = x - 1 := by omega
              have e3 : y + (0 : Int) = y := by ring
              have e4 : x + (-2 : Int) = x - 2 := by ring
              rw [e3] at hgb1 hgb2
              rw [e4] at hgb3 hgb4
              rw [e3, e4] at hgvis
              rw [e1, e2, e3, e4]
              refine carve_step height width f _ _ ih s y x y (x - 1) y (x - 2) hs
                hsyx_open hsyx_vis hyodd hxodd ⟨hgb1, hgb2, hgb3, hgb4⟩ hgvis
                hyodd (by omega) ⟨hy1, by omega, by omega, by omega⟩
                (adjB_intro (by omega)) (adjB_intro (by omega))
          · exfalso
            rw [hd0] at hgvis
            dsimp only at hgvis
            have e1 : y + (0 : Int) = y := by ring
            have e2 : x + (0 : Int) = x := by ring
            rw [e1, e2, hsyx_vis] at hgvis
            cases hgvis
        · rw [if_neg hguard]
          exact hs
    have hres := hfold ds hds
      ⟨setCell st.grid y x 0, setVis st.visited y x true, r2⟩
      ⟨hdims1, hvdims1, hmv1, fun a b h => h, fun a b h => h, hinv1⟩
    obtain ⟨hrd, hrv, hrmv, hrvm, hrom, hrinv⟩ := hres
    refine ⟨hrd, hrv, ?_, ?_, ?_, ?_, hrinv⟩
    · intro a b hab
      exact hrvm a b (visAt_setVis_true y x hab)
    · exact hrvm y x hv1self
    · intro a b hab
      exact hrom a b (cellAt_setCell_zero y x hab)
    · exact hrom y x hg1self

/-- The random odd start coordinate `1 + 2⌊q·⌊(n-1)/2⌋⌋` is odd and lies in
`[1, n)` for any dimension `n ≥ 2` and draw `q ∈ [0, 1)`. -/
theorem startCoord_spec {q : ℚ} (h0 : 0 ≤ q) (h1 : q < 1) {n : Int}
    (hn : 2 ≤ n) :
    1 ≤ 1 + 2 * jsFloor (qmul q (qofInt (jsFloor (qdiv (qsub (qofInt n) (qofInt 1)) (qofInt 2))))) ∧
    1 + 2 * jsFloor (qmul q (qofInt (jsFloor (qdiv (qsub (qofInt n) (qofInt 1)) (qofInt 2))))) < n ∧
    (1 + 2 * jsFloor (qmul q (qofInt (jsFloor (qdiv (qsub (qofInt n) (qofInt 1)) (qofInt 2)))))) % 2 = 1 := by
  have hK : jsFloor (qdiv (qsub (qofInt n) (qofInt 1)) (qofInt 2)) =
      ⌊((n : ℚ) - 1) / 2⌋ := by
    rw [qdiv_eq, qsub_eq, qofInt_eq, qofInt_eq, qofInt_eq]
    rfl
  rw [hK]
  set K := ⌊((n : ℚ) - 1) / 2⌋ with hKdef
  have hK0 : 0 ≤ K := by
    rw [hKdef]
    refine Int.le_floor.2 ?_
    push_cast
    have h2 : (2 : ℚ) ≤ (n : ℚ) := by exact_mod_cast hn
    linarith
  have hK2 : 2 * K ≤ n - 1 := by
    have hfl : (K : ℚ) ≤ ((n : ℚ) - 1) / 2 := by
      rw [hKdef]
      exact Int.floor_le _
    have h2 : (2 : ℚ) * (K : ℚ) ≤ (n : ℚ) - 1 := by linarith
    exact_mod_cast h2
  have hj : jsFloor (qmul q (qofInt K)) = ⌊q * (K : ℚ)⌋ := by
    rw [qmul_eq, qofInt_eq]
    rfl
  rw [hj]
  have hj0 : 0 ≤ ⌊q * (K : ℚ)⌋ := by
    refine Int.le_floor.2 ?_
    push_cast
    exact mul_nonneg h0 (by exact_mod_cast hK0)
  by_cases hKz : K = 0
  · have hz : ⌊q * (K : ℚ)⌋ = 0 := by
      rw [hKz]
      push_cast
      rw [mul_zero]
      exact Int.floor_zero
    rw [hz]
    refine ⟨by omega, by omega, by omega⟩
  · have hK1 : 1 ≤ K := by omega
    have hjK : ⌊q * (K : ℚ)⌋ < K := by
      refine Int.floor_lt.2 ?_
      have hKpos : (0 : ℚ) < (K : ℚ) := by exact_mod_cast hK1
      calc q * (K : ℚ) < 1 * (K : ℚ) := mul_lt_mul_of_pos_right h1 hKpos
        _ = (K : ℚ) := one_mul _
    refine ⟨by omega, by omega, by omega⟩

/-- The visited-flag initializer reads `false` whenever the inner parity
test holds, whatever the outer box test says. -/
theorem if_if_false {C D : Prop} [Decidable C] [Decidable D] (hD : D) :
    (if C then (if D then false else true) else false) = false := by
  by_cases hC : C
  · rw [if_pos hC, if_pos hD]
  · rw [if_neg hC]

/-- C4 (amended): the base carving engine guarantees a tree only BEFORE the
border-opening step: for any dimensions at least 2 and any well-formed
random stream, the grid produced by the DFS carving phase of
`createPerfectMaze` (everything up to, not including, `openBorders`) joins
any two passage cells by exactly one simple path of orthogonal moves.  The
original claim, which includes the border openings, is refuted by
`perfect_maze_cycle_cex`. -/
theorem perfect_maze_pre_border_tree (width height : Int) (rng : Rng)
    (hrng : RngOk rng) (hh : 2 ≤ height) (hw : 2 ≤ width) :
    UniquePathProp (carvePhase width height rng).1 := by
  have h1 := rngNext_ok hrng
  simp only [rngNext] at h1
  obtain ⟨hq0Y, hq1Y, hr1ok⟩ := h1
  have h2 := rngNext_ok hr1ok
  simp only [rngNext] at h2
  obtain ⟨hq0X, hq1X, hr2ok⟩ := h2
  obtain ⟨hsy1, hsy2, hsy3⟩ := startCoord_spec hq0Y hq1Y hh
  obtain ⟨hsx1, hsx2, hsx3⟩ := startCoord_spec hq0X hq1X hw
  unfold carvePhase
  simp only [rngNext]
  have hno : ∀ a b : Int,
      cellAt (List.replicate height.toNat (List.replicate width.toNat 1)) a b ≠ 0 := by
    intro a b
    rw [cellAt_replicate]
    split_ifs <;> decide
  refine ((carveFrom_main height width ((height * width).toNat + 1) _ _ _
    ?_).2.2.2.2.2.2).1
  refine ⟨dims_replicate height.toNat width.toNat 1, dims_mapGrid _, ?_,
    ⟨by omega, hsy2, by omega, hsx2⟩, hsy3, hsx3, ?_, hno _ _, Or.inl ?_, ?_⟩
  · -- enough fuel
    have hle := missingVis_le height width
      ((intRange 0 height).map (fun a => (intRange 0 width).map (fun b =>
        if a < (if height % 2 = 0 then height - 1 else height) ∧
            b < (if width % 2 = 0 then width - 1 else width) then
          (if a % 2 = 1 ∧ b % 2 = 1 then false else true)
        else false)))
    have hcast : height.toNat * width.toNat ≤ (height * width).toNat := by
      refine (Int.le_toNat (mul_nonneg (by omega) (by omega))).2 ?_
      push_cast
      rw [Int.toNat_of_nonneg (show (0 : Int) ≤ height by omega),
        Int.toNat_of_nonneg (show (0 : Int) ≤ width by omega)]
    exact Nat.lt_succ_of_le (le_trans hle hcast)
  · -- the start cell is unvisited
    rw [visAt_mapGrid _ (by omega) hsy2 (by omega) hsx2]
    exact if_if_false ⟨hsy3, hsx3⟩
  · -- no open cell yet
    intro c
    exact hno c.1 c.2
  · -- the invariant holds of the all-wall grid
    refine ⟨?_, ?_, ?_, ?_, ?_⟩
    · intro a b ha _
      exact absurd ha (hno a.1 a.2)
    · intro a b ha
      exact absurd ha (hno a b)
    · intro a b ha _ _
      exact absurd ha (hno a b)
    · intro a b ha _ _
      exact absurd ha (hno a b)
    · intro a b ha _ _
      exact absurd ha (hno a b)

/-- Witness for the amended C4 theorem: a concrete 5×5 carve (exhausted
random stream) satisfies the unique-path property. -/
theorem perfect_maze_pre_border_tree_witness :
    UniquePathProp (carvePhase 5 5 []).1 :=
  perfect_maze_pre_border_tree 5 5 []
    (by intro q hq; cases hq) (by norm_num) (by norm_num)

/-- Every value of the C4 counterexample stream is in `[0, 1)`. -/
theorem rngC4_ok : RngOk rngC4 := by
  intro q hq
  rcases List.mem_append.1 hq with h | h
  · rw [List.eq_of_mem_replicate h]
    exact ⟨by norm_num, by norm_num⟩
  · simp only [List.mem_cons, List.not_mem_nil, or_false] at h
    rcases h with rfl | rfl | rfl | rfl
    · exact ⟨by norm_num, by norm_num⟩
    · exact ⟨by decide, by decide⟩
    · exact ⟨by norm_num, by norm_num⟩
    · exact ⟨by decide, by decide⟩

set_option maxRecDepth 1000000

/-- C4 (counterexample): `createPerfectMaze` as a whole — the claim's
scope, which includes the final `openBorders` step — does not produce a
tree.  On the 11×11 run driven by the `rngC4` stream the border openings
at (0,1), (0,2) and (0,3) close a cycle with the open corridor in row 1:
two distinct simple paths join the passage cells (0,1) and (0,3), so
"exactly one path exists between any two passage cells" fails. -/
theorem perfect_maze_cycle_cex :
    RngOk rngC4 ∧
    IsPathBetween (createPerfectMaze 11 11 rngC4).1
      [(0, 1), (0, 2), (0, 3)] (0, 1) (0, 3) ∧
    IsPathBetween (createPerfectMaze 11 11 rngC4).1
      [(0, 1), (1, 1), (1, 2), (1, 3), (0, 3)] (0, 1) (0, 3) ∧
    ([(0, 1), (0, 2), (0, 3)] : List Cell) ≠
      [(0, 1), (1, 1), (1, 2), (1, 3), (0, 3)] ∧
    ¬ UniquePathProp (createPerfectMaze 11 11 rngC4).1 := by
  have hg : (createPerfectMaze 11 11 rngC4).1 = cexC4grid := by decide
  rw [hg]
  refine ⟨rngC4_ok, by decide, by decide, by decide, ?_⟩
  intro hup
  obtain ⟨p, hp, huniq⟩ := hup (0, 1) (0, 3) (by decide) (by decide)
  have h1 := huniq [(0, 1), (0, 2), (0, 3)] (by decide)
  have h2 := huniq [(0, 1), (1, 1), (1, 2), (1, 3), (0, 3)] (by decide)
  rw [← h2] at h1
  exact absurd h1 (by decide)

/-- C1: every artifact the hedge pipeline can emit — one accepted by its
final `pathExists` gate — carries a path of orthogonal moves through
in-bounds non-wall cells from start to end; and the anti-bot pipeline's
final verify-and-repair step always leaves a walk through open cells from
its (open, in-bounds) start to its in-bounds end on the grid it emits. -/
theorem emitted_maze_connects :
    (∀ m : MazeObj, pathExists m = true → ∃ p, MazeWalk m p) ∧
    (∀ (g : Grid) (H W : Nat) (s e : Cell), GridDims g H W →
      cellAt g s.1 s.2 = 0 → 0 ≤ e.1 → e.1 < (H : Int) → 0 ≤ e.2 →
      e.2 < (W : Int) → ∃ p, IsWalkBetween (antiBotFinalize g s e) p s e) :=
  ⟨fun _ h => pathExists_walk h,
   fun _ _ _ _ _ hd hs he1 he2 he3 he4 =>
     antiBotFinalize_walk hd hs he1 he2 he3 he4⟩

/-- C6: repair is idempotent in the claimed sense — on a rectangular grid in
which every passage cell is already reachable from the reference cell, the
repair pass carves nothing, returns the grid unchanged with a connection
count of 0, and consumes no randomness; hence a second repair pass on such a
grid performs no carving either. -/
theorem repair_idempotent (g : Grid) (s : Cell) (rng : Rng)
    (hwf : WellFormed g)
    (hconn : ∀ c ∈ openCellsOf g, SeededReach g s c) :
    ensureFullConnectivity g s rng = ((g, 0), rng) := by
  have hfil : ((allCells (gridH g) (gridW g)).filter
        (fun c => cellAt g c.1 c.2 = 0)).filter
      (fun c => decide (JSKey.cell c.1 c.2 ∉
        (bfsRun g (gridH g) (gridW g) (fun _ => false) (fun _ => true)
          [(s, 0)] [JSKey.cell s.1 s.2]).1)) = [] := by
    rw [List.filter_eq_nil_iff]
    intro c hc
    simp only [decide_eq_true_eq, not_not]
    exact bfsRun_complete hwf (hconn c hc)
  simp only [ensureFullConnectivity, hfil, List.length_nil]
  rw [if_pos trivial]

/-- C6 (witness): the single-cell grid with its open cell as reference is
connected, and the repairer returns it unchanged with count 0. -/
theorem repair_idempotent_witness :
    ensureFullConnectivity [[0]] (0, 0) [] = (([[0]], 0), []) :=
  repair_idempotent [[0]] (0, 0) []
    (by intro row hr; rcases List.mem_singleton.1 hr with rfl; rfl)
    (fun c hc => by
      have hcc : c = (0, 0) := by
        have he : openCellsOf [[0]] = [(0, 0)] := by decide
        rw [he] at hc
        simpa using hc
      rw [hcc]
      exact Relation.ReflTransGen.refl)

/-- C7 (counterexample): on `cexPlus` the centre (2,2) is a passage cell
with 3 open orthogonal neighbours, so the dead-end injection step walls it;
this disconnects (2,1) from (2,3): they were joined through the centre
before the mutation and no walk through open cells joins them afterwards. -/
theorem dead_end_injection_disconnects :
    cellAt cexPlus 2 2 = 0 ∧
    3 ≤ passageCount cexPlus 5 5 2 2 ∧
    OpenConn cexPlus (2, 1) (2, 3) ∧
    ¬ OpenConn (deadEndAt cexPlus 5 5 2 2) (2, 1) (2, 3) := by
  refine ⟨by decide, by decide, ⟨[(2, 1), (2, 2), (2, 3)], by decide⟩, ?_⟩
  exact not_openConn_of_closed [(2, 1)] (by decide) (by decide) (by decide)

/-- C7 (amended): what the dead-end injection does guarantee is its guard —
it only ever walls a passage cell with at least 3 open orthogonal
neighbours, and leaves every other cell untouched — and the companion
loop-injection step (wall to passage) does preserve connectivity. -/
theorem complexity_mutation_guards (g : Grid) (height width y x : Int) (a b : Cell) :
    (cellAt g y x = 0 → passageCount g height width y x < 3 →
        deadEndAt g height width y x = g) ∧
    (cellAt g y x ≠ 0 → deadEndAt g height width y x = g) ∧
    (OpenConn g a b → OpenConn (loopStepAt g height width y x) a b) := by
  refine ⟨?_, ?_, ?_⟩
  · intro h0 hlt
    unfold deadEndAt
    rw [if_pos h0, if_neg (by omega)]
  · intro h0
    unfold deadEndAt
    rw [if_neg h0]
  · intro hconn
    unfold loopStepAt
    split_ifs with h1 h2
    · exact openConn_mono (fun c hc => cellAt_setCell_zero y x hc) hconn
    · exact hconn
    · exact hconn

end Maze
